import Mathlib

/-!
# CCE proxy: request-path core

A shallow embedding of the request path of the content-aware proxy
(`proxy/internal/models`, `proxy/internal/evaluator`, `proxy/internal/config`,
`proxy/internal/proxy`) together with the properties established about it.

Modelling conventions.

* A Go `string` is a Lean `String`, a sequence of Unicode code points. The strings
  handled here come out of `encoding/json`, which only produces valid UTF-8. Byte
  lengths and byte prefixes are taken on the UTF-8 encoding (`utf8Bytes`); the rune
  slice `[]rune(s)` is `s.data`.
* A Go `int` is an `Int`; a length or an index that is never negative is a `Nat`.
* A Go `[]byte` is a `List UInt8`.
* A run-time panic (slice bounds out of range) is the result `none`.
* Loops are structural recursions on a fuel argument that the caller initialises to a
  bound of the iteration count, so the fuel never runs out before the loop guard fails.
* Functions of the Go standard library (`strings`, `bufio`, `encoding/json`, `net/url`)
  and of the gin library (`Context.Header`) are modelled from their documentation, or
  taken as parameters where the embedding does not need their internals.
* A loop that ranges over a Go map visits the keys in an order that is not specified:
  the order is an argument of the model, and properties are stated for every order.
-/

namespace CCE

/-! ## `models/request.go` -/

/-- CacheControl of `models/request.go`. -/
structure CacheControl where
  Type_ : String
deriving DecidableEq, Repr

/-- SystemMessage of `models/request.go`. -/
structure SystemMessage where
  Type_ : String
  Text : String
  CacheControl : CacheControl
deriving DecidableEq, Repr

/-- ContentBlock of `models/request.go`. -/
structure ContentBlock where
  Type_ : String
  Text : String
  CacheControl : CacheControl
deriving DecidableEq, Repr

/-- Message of `models/request.go`; `Content` is always held in array form. -/
structure Message where
  Role : String
  Content : List ContentBlock
deriving DecidableEq, Repr

/-- RequestMetadata of `models/request.go`. -/
structure RequestMetadata where
  UserID : String
deriving DecidableEq, Repr

/-- ClaudeRequest of `models/request.go`. Each tool is kept as its raw JSON text. -/
structure ClaudeRequest where
  Model : String
  Messages : List Message
  System : List SystemMessage
  Tools : List String
  Metadata : RequestMetadata
  MaxTokens : Int
  Stream : Bool
deriving DecidableEq, Repr

/-- RequestSummary of `models/request.go`. `Timestamp` and `ResponseTime` are in
nanoseconds. -/
structure RequestSummary where
  Timestamp : Int
  Model : String
  MessageCount : Int
  TokenCount : Int
  DifficultyLevel : Int
  ResponseTime : Int
deriving DecidableEq, Repr

/-- UserContext of `models/request.go`. -/
structure UserContext where
  UserID : String
  SessionID : String
  RequestHistory : List RequestSummary
deriving DecidableEq, Repr

/-- EvaluatorResponse of `models/request.go`. -/
structure EvaluatorResponse where
  DifficultyLevel : Int
  Reasoning : String
deriving DecidableEq, Repr

/-- The UTF-8 encoding of a string: the bytes Go indexes with `s[i]` and counts with
`len(s)`. -/
def utf8Bytes (s : String) : List UInt8 :=
  s.data.flatMap String.utf8EncodeChar

/-- Go slice expression `parts[lo:hi]` on a rune slice, for `lo ≤ hi ≤ len(parts)`. -/
def runeSlice (parts : List Char) (lo hi : Nat) : List Char :=
  (parts.drop lo).take (hi - lo)

/-- The inner loop of `ExtractUserInfo`:
`for j := i + 8; j < len(parts)-len(sessionPrefix); j++`, started at `j`. It yields
the session id, which stays `""` when the loop ends without a hit. -/
def sessionLoop (parts : List Char) : Nat → Nat → String
  | 0, _ => ""
  | fuel + 1, j =>
    if (j : Int) < (parts.length : Int) - ("__session_".data.length : Int) then
      if runeSlice parts j (j + "__session_".data.length) = "__session_".data then
        String.mk (parts.drop (j + "__session_".data.length))
      else sessionLoop parts fuel (j + 1)
    else ""

/-- The outer loop of `ExtractUserInfo`: `for i := 0; i < len(parts)-8; i++`, started
at `i`. At the first hit the user id is `parts[5:i]`, which panics (`none`) when
`i < 5`; both results stay `""` when the loop ends without a hit. -/
def accountLoop (parts : List Char) : Nat → Nat → Option (String × String)
  | 0, _ => some ("", "")
  | fuel + 1, i =>
    if (i : Int) < (parts.length : Int) - 8 then
      if runeSlice parts i (i + 8) = "_account".data then
        if i < 5 then none
        else some (String.mk (runeSlice parts 5 i), sessionLoop parts parts.length (i + 8))
      else accountLoop parts fuel (i + 1)
    else some ("", "")

/-- ExtractUserInfo of `models/request.go`: the pair `(userID, sessionID)`, or `none`
when the Go function panics. -/
def ExtractUserInfo (metadata : RequestMetadata) : Option (String × String) :=
  let userIDStr := metadata.UserID
  if userIDStr = "" then some ("", "")
  else if (utf8Bytes userIDStr).length > 5 ∧
      (utf8Bytes userIDStr).take 5 = utf8Bytes "user_" then
    accountLoop userIDStr.data userIDStr.data.length 0
  else some ("", "")

/-- IsWarmupRequest of `models/request.go`. -/
def IsWarmupRequest (req : ClaudeRequest) : Bool :=
  match req.Messages with
  | [] => false
  | firstMsg :: _ =>
    if firstMsg.Role ≠ "user" then false
    else firstMsg.Content.any (fun content => content.Type_ = "text" ∧ content.Text = "Warmup")

/-- The canonical template `user_<u>_account__session_<s>` the spec reformats with. -/
def formatUserID (u s : String) : String :=
  "user_" ++ u ++ "_account__session_" ++ s

/-- The spec's canonical shape `^user_(.+?)_account__session_(.+)$`, read with Go's
regexp semantics: each group is a non-empty run of characters other than newline. -/
def matchesCanonicalShape (x : String) : Prop :=
  ∃ u s : String, u ≠ "" ∧ s ≠ "" ∧ '\n' ∉ u.data ∧ '\n' ∉ s.data ∧ x = formatUserID u s

/-- The shape `ExtractUserInfo` round-trips: `user_<u>_account__session_<s>` where the
`_account` that follows `u` is the first occurrence of `_account` in the string (no
rune window of eight starting before it spells `_account`); `u` and `s` may be empty. -/
def firstAccountShape (x : String) : Prop :=
  ∃ u s : String, x = formatUserID u s ∧
    ∀ p, p < 5 + u.data.length → runeSlice x.data p (p + 8) ≠ "_account".data

/-! ## Go standard library: `strings` -/

/-- Go `unicode.IsSpace`: the Latin-1 cases and the `White_Space` range table. -/
def unicodeIsSpace (r : Char) : Bool :=
  let n := r.toNat
  decide ((9 ≤ n ∧ n ≤ 13) ∨ n = 0x20 ∨ n = 0x85 ∨ n = 0xA0 ∨ n = 0x1680 ∨
    (0x2000 ≤ n ∧ n ≤ 0x200a) ∨ n = 0x2028 ∨ n = 0x2029 ∨ n = 0x202f ∨ n = 0x205f ∨
    n = 0x3000)

/-- Go `strings.TrimSpace`. -/
def stringsTrimSpace (s : String) : String :=
  String.mk ((s.data.dropWhile unicodeIsSpace).reverse.dropWhile unicodeIsSpace).reverse

/-- Search of `strings.Index`: the least index, counted from `i`, at which `substr`
starts in the rest of the string. -/
def indexFrom (substr : List Char) : List Char → Nat → Option Nat
  | [], i => if substr = [] then some i else none
  | c :: cs, i =>
    if substr.isPrefixOf (c :: cs) then some i else indexFrom substr cs (i + 1)

/-- Search of `strings.LastIndex`: the greatest such index. -/
def lastIndexFrom (substr : List Char) : List Char → Nat → Option Nat
  | [], i => if substr = [] then some i else none
  | c :: cs, i =>
    match lastIndexFrom substr cs (i + 1) with
    | some k => some k
    | none => if substr.isPrefixOf (c :: cs) then some i else none

/-- Go `strings.Index`, `-1` when absent. Indices count runes; the callers only use
them to slice at ASCII delimiters and to compare them, which is the same on bytes. -/
def stringsIndex (s substr : String) : Int :=
  match indexFrom substr.data s.data 0 with
  | some i => (i : Int)
  | none => -1

/-- Go `strings.LastIndex`, `-1` when absent. -/
def stringsLastIndex (s substr : String) : Int :=
  match lastIndexFrom substr.data s.data 0 with
  | some i => (i : Int)
  | none => -1

/-- Go `strings.Contains`. -/
def stringsContains (s substr : String) : Bool :=
  (indexFrom substr.data s.data 0).isSome

/-- Go `strings.HasPrefix`. -/
def stringsHasPrefix (s pre : String) : Bool :=
  pre.data.isPrefixOf s.data

/-- Loop of `strings.Split` for a non-empty separator: cut at each successive
occurrence of `sep`. -/
def splitLoop (sep : List Char) : Nat → List Char → List (List Char)
  | 0, s => [s]
  | fuel + 1, s =>
    match indexFrom sep s 0 with
    | none => [s]
    | some m => s.take m :: splitLoop sep fuel (s.drop (m + sep.length))

/-- Go `strings.Split(s, sep)` for a non-empty `sep`. -/
def stringsSplit (s sep : String) : List String :=
  (splitLoop sep.data s.data.length s.data).map String.mk

/-! ## `evaluator/client.go` -/

/-- ContextManager of `evaluator/client.go`. The Go map is a function from keys to
optional entries. `maxHistory` is only ever set by `NewContextManager`, to 10. -/
structure ContextManager where
  contexts : String → Option UserContext
  maxHistory : Nat

/-- NewContextManager of `evaluator/client.go`. -/
def NewContextManager : ContextManager :=
  { contexts := fun _ => none, maxHistory := 10 }

/-- The store key `fmt.Sprintf("%s_%s", userID, sessionID)`. -/
def contextKey (userID sessionID : String) : String :=
  userID ++ "_" ++ sessionID

/-- GetContext of `evaluator/client.go`. -/
def ContextManager.GetContext (cm : ContextManager) (userID sessionID : String) : UserContext :=
  match cm.contexts (contextKey userID sessionID) with
  | none => { UserID := userID, SessionID := sessionID, RequestHistory := [] }
  | some ctx => ctx

/-- UpdateContext of `evaluator/client.go`. -/
def ContextManager.UpdateContext (cm : ContextManager) (userID sessionID : String)
    (summary : RequestSummary) : ContextManager :=
  let key := contextKey userID sessionID
  let ctx : UserContext :=
    match cm.contexts key with
    | none => { UserID := userID, SessionID := sessionID, RequestHistory := [] }
    | some ctx => ctx
  let history := ctx.RequestHistory ++ [summary]
  let history :=
    if history.length > cm.maxHistory then history.drop (history.length - cm.maxHistory)
    else history
  { cm with
    contexts := fun k => if k = key then some { ctx with RequestHistory := history }
      else cm.contexts k }

/-- One `UpdateContext` call: user id, session id and the summary appended. -/
structure UpdateCall where
  userID : String
  sessionID : String
  summary : RequestSummary
deriving DecidableEq, Repr

/-- The store after a sequence of `UpdateContext` calls. -/
def applyUpdates (cm : ContextManager) (calls : List UpdateCall) : ContextManager :=
  calls.foldl (fun m c => m.UpdateContext c.userID c.sessionID c.summary) cm

/-- The history stored under a store key (empty when the key has no entry). -/
def storedHistory (cm : ContextManager) (key : String) : List RequestSummary :=
  match cm.contexts key with
  | none => []
  | some ctx => ctx.RequestHistory

/-- The summaries a sequence of calls appends under a store key, in call order. -/
def appendedUnder (key : String) (calls : List UpdateCall) : List RequestSummary :=
  (calls.filter (fun c => contextKey c.userID c.sessionID = key)).map (fun c => c.summary)

/-- The last `n` elements of a list, in order. -/
def lastN {α : Type} (n : Nat) (l : List α) : List α :=
  l.drop (l.length - n)

/-- The test `char >= '1' && char <= '5'` of `extractDifficultyLevel`. -/
def isLevelDigit (char : Char) : Bool :=
  decide ('1' ≤ char ∧ char ≤ '5')

/-- The two digit scans of `extractDifficultyLevel`: `int(char - '0')` for the first
rune in `'1'..'5'`. -/
def scanLevelDigit (text : List Char) : Option Int :=
  (text.find? isLevelDigit).map (fun char => (char.toNat : Int) - ('0'.toNat : Int))

/-- Steps 3 to 5 of `extractDifficultyLevel`: the digit after the token
`difficulty_level` (in `parts[1]` of the split), else the first digit anywhere, else 3. -/
def extractLevelFromText (response : String) : Int :=
  let labelled : Option Int :=
    if stringsContains response "difficulty_level" then
      match stringsSplit response "difficulty_level" with
      | _ :: valuePart :: _ => scanLevelDigit valuePart.data
      | _ => none
    else none
  match labelled with
  | some level => level
  | none =>
    match scanLevelDigit response.data with
    | some level => level
    | none => 3

/-- Step 2 onwards of `extractDifficultyLevel`: decode the whole response into the
same `jsonResp`, whose field currently holds `current`. -/
def extractLevelWhole (jsonUnmarshal : String → Int → Bool × Int) (response : String)
    (current : Int) : Int :=
  let r := jsonUnmarshal response current
  if r.1 = true ∧ 1 ≤ r.2 ∧ r.2 ≤ 5 then r.2 else extractLevelFromText response

/-- The function extractDifficultyLevel of `evaluator/client.go`.
`jsonUnmarshal text current` stands for `json.Unmarshal([]byte(text), &jsonResp)` with
`jsonResp.DifficultyLevel = current` beforehand: it returns whether `err == nil` and the
value of the field afterwards. -/
def extractDifficultyLevel (jsonUnmarshal : String → Int → Bool × Int) (response : String) :
    Int × String :=
  let response := stringsTrimSpace response
  let originalResponse := response
  let jsonStart := stringsIndex response "\x7b"
  let jsonEnd := stringsLastIndex response "\x7d"
  let level :=
    if jsonStart ≥ 0 ∧ jsonEnd > jsonStart then
      let jsonStr := String.mk (runeSlice response.data jsonStart.toNat (jsonEnd + 1).toNat)
      let r := jsonUnmarshal jsonStr 0
      if r.1 = true ∧ 1 ≤ r.2 ∧ r.2 ≤ 5 then r.2
      else extractLevelWhole jsonUnmarshal response r.2
    else extractLevelWhole jsonUnmarshal response 0
  (level, originalResponse)

/-- One element of the `content` array of the evaluator's reply. -/
structure ReplyContent where
  Type_ : String
  Text : String
deriving DecidableEq, Repr

/-- Errors of `doRequest` after the HTTP exchange. -/
inductive DoRequestError where
  | status (code : Int)
  | parseResponse
  | emptyContent
  | invalidLevel (level : Int)
deriving DecidableEq, Repr

/-- The part of `doRequest` that follows the HTTP exchange: status check, decoding of
the reply (`claudeResp` is `none` when `json.Unmarshal` fails), empty-content check,
level extraction and the range check on the level. -/
def doRequestFinish (jsonUnmarshal : String → Int → Bool × Int) (statusCode : Int)
    (claudeResp : Option (List ReplyContent)) : Except DoRequestError EvaluatorResponse :=
  if statusCode ≠ 200 then .error (.status statusCode)
  else
    match claudeResp with
    | none => .error .parseResponse
    | some [] => .error .emptyContent
    | some (first :: _) =>
      if first.Text = "" then .error .emptyContent
      else
        let r := extractDifficultyLevel jsonUnmarshal first.Text
        if r.1 < 1 ∨ r.1 > 5 then .error (.invalidLevel r.1)
        else .ok { DifficultyLevel := r.1, Reasoning := r.2 }

/-- A sample summary, distinguished by its message count. -/
def sampleSummary (i : Nat) : RequestSummary :=
  { Timestamp := 0, Model := "m", MessageCount := i, TokenCount := 0, DifficultyLevel := 3,
    ResponseTime := 0 }

/-- Ten sample calls under the key of user `u` and session `s`. -/
def sampleCalls : List UpdateCall :=
  (List.range 10).map (fun i => { userID := "u", sessionID := "s", summary := sampleSummary i })

/-! ## `models/config.go` and `config/config.go` -/

/-- ProxyConfig of `models/config.go` (timeouts in seconds). -/
structure ProxyConfig where
  Port : Int
  ReadTimeout : Int
  WriteTimeout : Int
  IdleTimeout : Int
  RequestTimeout : Int
  EvaluatorTimeout : Int
deriving DecidableEq, Repr

/-- Service of `models/config.go`. -/
structure Service where
  ID : String
  Name : String
  URL : String
  APIKey : String
  Role : String
  SupportsThinking : Bool
deriving DecidableEq, Repr

/-- EvaluatorConfig of `models/config.go`. -/
structure EvaluatorConfig where
  PromptTemplate : String
  IncludeHistory : Bool
  MaxHistoryRounds : Int
  Model : String
  MaxTokens : Int
deriving DecidableEq, Repr

/-- FeatureFlags of `models/config.go`. -/
structure FeatureFlags where
  EvaluatorFallback : Bool
  ServiceAutoSwitch : Bool
  RequestLogging : Bool
deriving DecidableEq, Repr

/-- LogConfig of `models/config.go`. -/
structure LogConfig where
  Level : String
  OutputPath : String
deriving DecidableEq, Repr

/-- Config of `models/config.go`. The map `DifficultyMapping` is a function from keys
to optional service ids. -/
structure Config where
  Proxy : ProxyConfig
  Services : List Service
  DifficultyMapping : String → Option String
  Evaluator : EvaluatorConfig
  Features : FeatureFlags
  Logging : LogConfig

/-- Errors of the lookups of `config/config.go`. -/
inductive ConfigError where
  | notLoaded
  | unknownServiceID (id : String)
  | noEvaluator
  | noExecutors
deriving DecidableEq, Repr

/-- GetServiceByID of `config/config.go`; `Cfg` is the global configuration, `none`
while it is not loaded. -/
def GetServiceByID (Cfg : Option Config) (id : String) : Except ConfigError Service :=
  match Cfg with
  | none => .error .notLoaded
  | some cfg =>
    match cfg.Services.find? (fun svc => svc.ID = id) with
    | some svc => .ok svc
    | none => .error (.unknownServiceID id)

/-! ## `proxy/handler.go` -/

/-- Go `fmt.Sprintf("%d", n)`. -/
def fmtInt (n : Int) : String :=
  toString n

/-- Errors of the routing step of `handleProxyRequest`. -/
inductive RouteError where
  | noMapping (level : Int)
  | targetService (err : ConfigError)
deriving DecidableEq, Repr

/-- Where `handleProxyRequest` hands the request once a target service is found. -/
inductive Forward where
  | streaming (service : Service)
  | normal (service : Service)
deriving DecidableEq, Repr

/-- The provider a forward goes to. -/
def Forward.service : Forward → Service
  | .streaming service => service
  | .normal service => service

/-- The routing step of `handleProxyRequest` (from the lookup in `DifficultyMapping` to
the dispatch on `claudeReq.Stream`), for the level the evaluator returned. -/
def routeByLevel (cfg : Config) (level : Int) (stream : Bool) : Except RouteError Forward :=
  match cfg.DifficultyMapping (fmtInt level) with
  | none => .error (.noMapping level)
  | some targetServiceID =>
    match GetServiceByID (some cfg) targetServiceID with
    | .error err => .error (.targetService err)
    | .ok targetService =>
      if stream then .ok (.streaming targetService) else .ok (.normal targetService)

/-- A sample configuration: two executors, levels 1 to 3 mapped, level 3 mapped to an id
that is not in the registry. -/
def sampleConfig : Config where
  Proxy := ⟨27015, 1800, 1800, 300, 1800, 30⟩
  Services :=
    [⟨"simple-service", "simple", "https://simple.example.com/v1/messages", "k1", "executor",
        true⟩,
      ⟨"medium-service", "medium", "https://medium.example.com/v1/messages", "k2", "executor",
        false⟩]
  DifficultyMapping := fun key =>
    if key = "1" then some "simple-service" else if key = "2" then some "medium-service"
    else if key = "3" then some "missing-service" else none
  Evaluator := ⟨"", true, 3, "", 100⟩
  Features := ⟨false, false, true⟩
  Logging := ⟨"info", "./logs"⟩

/-- Go `map[string]interface{}` as `encoding/json` decodes a JSON object: finitely
many keys with their decoded values of type `V`. -/
abbrev JsonObject (V : Type) := List (String × V)

/-- The map lookup `m[key]`. -/
def JsonObject.get {V : Type} (m : JsonObject V) (key : String) : Option V :=
  (m.find? (fun kv => kv.1 = key)).map (fun kv => kv.2)

/-- Go `delete(m, key)`. -/
def JsonObject.delete {V : Type} (m : JsonObject V) (key : String) : JsonObject V :=
  m.filter (fun kv => kv.1 ≠ key)

/-- What `sanitizeRequestForExecutor` uses of `encoding/json`, on bodies of type `B`
(`[]byte` in the source): `unmarshal body` is `json.Unmarshal(body, &reqMap)` and
`marshal m` is `json.Marshal(m)`, each `none` on error. -/
structure JsonCodec (B V : Type) where
  unmarshal : B → Option (JsonObject V)
  marshal : JsonObject V → Option B

/-- The law of `encoding/json` the rewriter relies on: a decoded object can be encoded,
and decoding the encoding gives back the same value under every key. -/
def JsonCodec.RoundTrips {B V : Type} (codec : JsonCodec B V) : Prop :=
  ∀ m : JsonObject V, ∃ b, codec.marshal m = some b ∧
    ∃ m2, codec.unmarshal b = some m2 ∧ ∀ key, m2.get key = m.get key

/-- Errors of `sanitizeRequestForExecutor`. -/
inductive SanitizeError where
  | parseBody
  | encodeBody
deriving DecidableEq, Repr

/-- The function sanitizeRequestForExecutor of `proxy/handler.go`. -/
def sanitizeRequestForExecutor {B V : Type} (codec : JsonCodec B V) (body : B) :
    Except SanitizeError B :=
  match codec.unmarshal body with
  | none => .error .parseBody
  | some reqMap =>
    match codec.marshal (reqMap.delete "thinking") with
    | none => .error .encodeBody
    | some sanitizedBody => .ok sanitizedBody

/-- The body `createTargetRequest` sends (`sanitizedBody`): the original body, replaced
by the cleaned one when the service does not support thinking and cleaning succeeds. -/
def targetBody {B V : Type} (codec : JsonCodec B V) (service : Service) (body : B) : B :=
  if ¬ service.SupportsThinking then
    match sanitizeRequestForExecutor codec body with
    | .error _ => body
    | .ok cleaned => cleaned
  else body

/-- Go `url.URL`, the fields the rewriter touches. -/
structure URL where
  Scheme : String
  Host : String
  Path : String
  RawQuery : String
deriving DecidableEq, Repr

/-- Go `http.Header`: the entries of the map, each key with its values. -/
abbrev Header := List (String × List String)

/-- The values stored under a key of a header map. -/
def Header.values (h : Header) (key : String) : List String :=
  match h.find? (fun kv => kv.1 = key) with
  | some kv => kv.2
  | none => []

/-- What `createTargetRequest` uses of `net/url`, `net/http` and `net/textproto`. -/
structure NetLib where
  urlParse : String → Option URL
  urlString : URL → String
  newRequestOK : String → String → Bool
  canonicalKey : String → String

/-- Go `Header.Add`: append a value under the canonical form of the key. -/
def Header.add (lib : NetLib) (h : Header) (key value : String) : Header :=
  let k := lib.canonicalKey key
  if h.any (fun kv => kv.1 = k) then
    h.map (fun kv => if kv.1 = k then (kv.1, kv.2 ++ [value]) else kv)
  else h ++ [(k, [value])]

/-- Go `Header.Set`: replace the values under the canonical form of the key. -/
def Header.set (lib : NetLib) (h : Header) (key value : String) : Header :=
  let k := lib.canonicalKey key
  h.filter (fun kv => kv.1 ≠ k) ++ [(k, [value])]

/-- The fields of the incoming `*http.Request` that `createTargetRequest` reads. -/
structure OriginalRequest where
  Method : String
  RawQuery : String
  Header : Header

/-- The outbound `*http.Request` that `createTargetRequest` builds. -/
structure TargetRequest (B : Type) where
  Method : String
  URL : String
  Host : String
  Header : Header
  Body : B

/-- Errors of `createTargetRequest`. -/
inductive TargetRequestError where
  | parseURL
  | newRequest
deriving DecidableEq, Repr

/-- The header-copy loop of `createTargetRequest`, over the entries of the original
header in iteration order. -/
def copyHeaders (lib : NetLib) (entries : Header) (target : Header) : Header :=
  entries.foldl (fun acc kv =>
    if kv.1 = "Host" ∨ kv.1 = "Authorization" then acc
    else kv.2.foldl (fun acc2 value => Header.add lib acc2 kv.1 value) acc) target

/-- The function createTargetRequest of `proxy/handler.go`. -/
def createTargetRequest {B V : Type} (codec : JsonCodec B V) (lib : NetLib)
    (originalReq : OriginalRequest) (service : Service) (body : B) :
    Except TargetRequestError (TargetRequest B) :=
  match lib.urlParse service.URL with
  | none => .error .parseURL
  | some parsed =>
    let targetURL : URL := { parsed with RawQuery := originalReq.RawQuery }
    let sanitizedBody := targetBody codec service body
    if ¬ lib.newRequestOK originalReq.Method (lib.urlString targetURL) then .error .newRequest
    else
      let header := copyHeaders lib originalReq.Header []
      .ok { Method := originalReq.Method
            URL := lib.urlString targetURL
            Host := targetURL.Host
            Header := Header.set lib header "Authorization" ("Bearer " ++ service.APIKey)
            Body := sanitizedBody }

/-- A codec on bodies that are the objects themselves, for examples. -/
def sampleCodec : JsonCodec (JsonObject String) String where
  unmarshal := fun body => some body
  marshal := fun m => some m

/-- A sample request body: `model`, `thinking` and `max_tokens`. -/
def sampleBody : JsonObject String :=
  [("model", "x"), ("thinking", "enabled"), ("max_tokens", "100")]

/-! ## Go standard library: `bufio.Scanner` with `ScanLines` -/

/-- Go `bufio.MaxScanTokenSize`, the scanner's buffer limit. -/
def maxScanTokenSize : Nat := 64 * 1024

/-- The helper dropCR of `bufio`: drop one trailing `\r`. -/
def dropCR (data : List UInt8) : List UInt8 :=
  if data.getLast? = some 13 then data.dropLast else data

/-- Outcome of one `scanner.Scan()`. -/
inductive ScanResult where
  | token (line rest : List UInt8)
  | eof
  | tooLong
deriving DecidableEq, Repr

/-- One `scanner.Scan()` with the default split function `ScanLines` on the unread
input `data`: the next line without its end-of-line marker (`\n`, or `\r\n`), the last
line also when it has no `\n`. A line whose bytes before the `\n` fill the buffer
(`maxScanTokenSize` bytes or more) ends the scan with `ErrTooLong`; so does a last line
of that size without `\n`, the reader reporting the end of input on a read of its own. -/
def scanLine (data : List UInt8) : ScanResult :=
  if data = [] then .eof
  else
    let line := data.takeWhile (fun b => b ≠ 10)
    if maxScanTokenSize ≤ line.length then .tooLong
    else .token (dropCR line) (data.drop (line.length + 1))

/-! ## The streaming relay of `proxy/handler.go` -/

/-- What the relay does to the downstream writer. -/
inductive RelayEvent where
  | write (data : List UInt8)
  | flush
deriving DecidableEq, Repr

/-- Errors of the relay part of `handleStreamingProxy`. -/
inductive RelayError where
  | noFlusher
  | readStream
deriving DecidableEq, Repr

/-- The loop `for scanner.Scan()` of `handleStreamingProxy` on the unread upstream
body: `fmt.Fprintf(w, "%s\n", line)`, then a flush when the line is empty. The flag
says whether the scan ended with `scanner.Err() != nil`. -/
def relayLoop : Nat → List UInt8 → List RelayEvent × Bool
  | 0, _ => ([], false)
  | fuel + 1, data =>
    match scanLine data with
    | .eof => ([], false)
    | .tooLong => ([], true)
    | .token line rest =>
      let r := relayLoop fuel rest
      (.write (line ++ [10]) :: (if line = [] then .flush :: r.1 else r.1), r.2)

/-- The relay part of `handleStreamingProxy` (from the `http.Flusher` assertion to the
final flush) on a complete upstream body: the events on the downstream writer, and the
error returned if any. -/
def relayStream (supportsFlush : Bool) (body : List UInt8) :
    List RelayEvent × Option RelayError :=
  if ¬ supportsFlush then ([], some .noFlusher)
  else
    let r := relayLoop (body.length + 1) body
    if r.2 then (r.1, some .readStream) else (r.1 ++ [.flush], none)

/-- The bytes written downstream, in order. -/
def writtenBytes (events : List RelayEvent) : List UInt8 :=
  events.flatMap (fun e =>
    match e with
    | .write data => data
    | .flush => [])

/-- Splitting at `\n`, with `cur` the bytes of the line under way: every `\n` ends a
line, and bytes left at the end form a last line. -/
def splitLinesFrom : List UInt8 → List UInt8 → List (List UInt8)
  | [], cur => if cur = [] then [] else [cur]
  | b :: rest, cur =>
    if b = 10 then cur :: splitLinesFrom rest [] else splitLinesFrom rest (cur ++ [b])

/-- The lines of a body: the body split at `\n`. -/
def bodyLines (body : List UInt8) : List (List UInt8) :=
  splitLinesFrom body []

/-! ## `evaluator/client.go`: the intent extractor -/

/-- Go `strings.Join`. -/
def stringsJoin : List String → String → String
  | [], _ => ""
  | [a], _ => a
  | a :: b :: rest, sep => a ++ sep ++ stringsJoin (b :: rest) sep

/-- The function isAuxiliaryContent of `evaluator/client.go`. -/
def isAuxiliaryContent (text : String) : Bool :=
  if stringsContains text "<system-reminder>" then true
  else if stringsContains text "<tool_result>" || stringsContains text "tool_result" then true
  else if stringsContains text "<command-name>" ||
      stringsContains text "<local-command-stdout>" then true
  else if stringsHasPrefix text "User has answered your questions:" then true
  else if stringsHasPrefix text "File created successfully" ||
      stringsHasPrefix text "Todos have been modified" ||
      stringsContains text "tool_use_id" then true
  else false

/-- The inner loop of `extractUserIntent` over the content blocks of one message, with
the texts collected so far. -/
def collectUserTexts : List ContentBlock → List String → List String
  | [], userTexts => userTexts
  | content :: rest, userTexts =>
    if content.Type_ ≠ "text" then collectUserTexts rest userTexts
    else
      let text := stringsTrimSpace content.Text
      if isAuxiliaryContent text then collectUserTexts rest userTexts
      else if text ≠ "" then collectUserTexts rest (userTexts ++ [text])
      else collectUserTexts rest userTexts

/-- The outer loop of `extractUserIntent`, `for i := len(messages) - 1; i >= 0; i--`,
over the messages listed from the last to the first. -/
def extractUserIntentLoop : List Message → String
  | [] => ""
  | msg :: earlier =>
    if msg.Role ≠ "user" then extractUserIntentLoop earlier
    else
      let userTexts := collectUserTexts msg.Content []
      if userTexts.length > 0 then stringsJoin userTexts " "
      else extractUserIntentLoop earlier

/-- The function extractUserIntent of `evaluator/client.go`. -/
def extractUserIntent (messages : List Message) : String :=
  extractUserIntentLoop messages.reverse

/-- The texts of a message that count for the intent: of its `text` blocks, the
trimmed texts that are neither auxiliary nor empty, in block order. -/
def intentTexts (msg : Message) : List String :=
  ((msg.Content.filter (fun b => b.Type_ = "text")).map
    (fun b => stringsTrimSpace b.Text)).filter (fun t => ¬ isAuxiliaryContent t ∧ t ≠ "")

/-- The texts of the non-auxiliary text blocks of a message, as the spec words it:
the block texts as they are, judged auxiliary or not as they are. -/
def statedBlockTexts (msg : Message) : List String :=
  (msg.Content.filter (fun b => b.Type_ = "text" ∧ ¬ isAuxiliaryContent b.Text)).map
    (fun b => b.Text)

/-- The intent as the spec words it, over the messages listed from the last to the
first: the texts of the non-auxiliary text blocks of the last user message that has
one, joined with single spaces. -/
def statedUserIntentLoop : List Message → String
  | [] => ""
  | msg :: earlier =>
    if msg.Role = "user" ∧ statedBlockTexts msg ≠ [] then stringsJoin (statedBlockTexts msg) " "
    else statedUserIntentLoop earlier

/-- The intent as the spec words it. -/
def statedUserIntent (messages : List Message) : String :=
  statedUserIntentLoop messages.reverse

/-! ## Go standard library: `encoding/json` on values

JSON texts are taken as the values they denote. Decoding into the structs of
`models/request.go` follows `encoding/json`: a key selects the field with exactly that
name, else the first field whose name equals it under case folding (`fold`); unknown
keys are skipped; `null` leaves a field as it is; a value of the wrong kind is a type
error, which makes the whole `Unmarshal` return an error. -/

/-- A JSON value; a number is kept as its literal. -/
inductive Json where
  | null
  | bool (b : Bool)
  | number (literal : String)
  | string (s : String)
  | array (items : List Json)
  | object (members : List (String × Json))

/-- The field a key is decoded into, among the field names of a struct in order. -/
def resolveField (fold : String → String → Bool) (fields : List String) (key : String) :
    Option String :=
  match fields.find? (fun f => f = key) with
  | some f => some f
  | none => fields.find? (fun f => fold f key)

/-- Decoding a value into a `string` field that holds `current`: the new value, or
`none` on a type error. -/
def decodeStringField (current : String) (value : Json) : Option String :=
  match value with
  | .string s => some s
  | .null => some current
  | _ => none

/-- One member of a JSON object decoded into a `CacheControl`; the flag records a type
error. -/
def decodeCacheControlMember (fold : String → String → Bool) (st : CacheControl × Bool)
    (member : String × Json) : CacheControl × Bool :=
  if resolveField fold ["type"] member.1 = some "type" then
    match decodeStringField st.1.Type_ member.2 with
    | some s => ({ st.1 with Type_ := s }, st.2)
    | none => (st.1, true)
  else st

/-- Decoding a value into a `CacheControl` field that holds `current`. -/
def decodeCacheControl (fold : String → String → Bool) (current : CacheControl)
    (value : Json) : CacheControl × Bool :=
  match value with
  | .object members => members.foldl (decodeCacheControlMember fold) (current, false)
  | .null => (current, false)
  | _ => (current, true)

/-- One member of a JSON object decoded into a `ContentBlock`. -/
def decodeContentBlockMember (fold : String → String → Bool) (st : ContentBlock × Bool)
    (member : String × Json) : ContentBlock × Bool :=
  match resolveField fold ["type", "text", "cache_control"] member.1 with
  | none => st
  | some field =>
    if field = "type" then
      match decodeStringField st.1.Type_ member.2 with
      | some s => ({ st.1 with Type_ := s }, st.2)
      | none => (st.1, true)
    else if field = "text" then
      match decodeStringField st.1.Text member.2 with
      | some s => ({ st.1 with Text := s }, st.2)
      | none => (st.1, true)
    else
      let r := decodeCacheControl fold st.1.CacheControl member.2
      ({ st.1 with CacheControl := r.1 }, st.2 || r.2)

/-- Decoding one array element into a fresh `ContentBlock`. -/
def decodeContentBlock (fold : String → String → Bool) (value : Json) : ContentBlock × Bool :=
  match value with
  | .object members => members.foldl (decodeContentBlockMember fold) (⟨"", "", ⟨""⟩⟩, false)
  | .null => (⟨"", "", ⟨""⟩⟩, false)
  | _ => (⟨"", "", ⟨""⟩⟩, true)

/-- The call `json.Unmarshal(aux.Content, &contentBlocks)`: the blocks, or `none` when
it returns an error. -/
def decodeContentBlocks (fold : String → String → Bool) (raw : Json) :
    Option (List ContentBlock) :=
  match raw with
  | .null => some []
  | .array items =>
    let decoded := items.map (decodeContentBlock fold)
    if decoded.any (fun r => r.2) then none else some (decoded.map (fun r => r.1))
  | _ => none

/-- The call `json.Unmarshal(aux.Content, &contentStr)`. -/
def decodeContentString (raw : Json) : Option String :=
  decodeStringField "" raw

/-- The auxiliary struct of `Message.UnmarshalJSON` while it is decoded: the raw
`content`, the role, and whether a type error occurred. -/
structure AuxMessage where
  Content : Option Json
  Role : String
  typeError : Bool

/-- One member of the JSON object decoded into the auxiliary struct (fields `content`,
then `role` of the embedded alias). -/
def decodeAuxMember (fold : String → String → Bool) (aux : AuxMessage)
    (member : String × Json) : AuxMessage :=
  match resolveField fold ["content", "role"] member.1 with
  | none => aux
  | some field =>
    if field = "content" then { aux with Content := some member.2 }
    else
      match decodeStringField aux.Role member.2 with
      | some s => { aux with Role := s }
      | none => { aux with typeError := true }

/-- Errors of `Message.UnmarshalJSON`. -/
inductive MessageDecodeError where
  | message
  | content
deriving DecidableEq, Repr

/-- The method Message.UnmarshalJSON of `models/request.go`, on a fresh message. -/
def Message.UnmarshalJSON (fold : String → String → Bool) (data : Json) :
    Except MessageDecodeError Message :=
  let decoded : Option AuxMessage :=
    match data with
    | .object members => some (members.foldl (decodeAuxMember fold) ⟨none, "", false⟩)
    | .null => some ⟨none, "", false⟩
    | _ => none
  match decoded with
  | none => .error .message
  | some aux =>
    if aux.typeError then .error .message
    else
      match aux.Content with
      | none => .error .content
      | some raw =>
        match decodeContentBlocks fold raw with
        | some contentBlocks => .ok { Role := aux.Role, Content := contentBlocks }
        | none =>
          match decodeContentString raw with
          | none => .error .content
          | some contentStr =>
            .ok { Role := aux.Role, Content := [⟨"text", contentStr, ⟨""⟩⟩] }

/-- Encoding of a `ContentBlock`: `text` has `omitempty`; `cache_control` is a struct,
which `omitempty` never omits. -/
def encodeContentBlock (b : ContentBlock) : Json :=
  .object ([("type", .string b.Type_)] ++
    (if b.Text = "" then [] else [("text", .string b.Text)]) ++
    [("cache_control", .object [("type", .string b.CacheControl.Type_)])])

/-- The method Message.MarshalJSON of `models/request.go`. `Content` is emitted as an
array (Go emits `null` for a nil slice, which the list model does not tell from an
empty one). -/
def Message.MarshalJSON (m : Message) : Json :=
  .object [("role", .string m.Role), ("content", .array (m.Content.map encodeContentBlock))]

/-- What `json.Unmarshal` into `struct { DifficultyLevel int }` can do to the field: it
leaves the field, or sets it to the integer that a number literal of the text denotes;
so a value in `1..5` that it sets is a digit of the text. -/
def ReadsLevelFromText (jsonUnmarshal : String → Int → Bool × Int) : Prop :=
  ∀ (text : String) (current : Int),
    (jsonUnmarshal text current).2 = current ∨ (jsonUnmarshal text current).2 < 1 ∨
      (jsonUnmarshal text current).2 > 5 ∨ ∃ char ∈ text.data, isLevelDigit char = true

/-- A sample decoder: it knows two objects and fails on every other text. -/
def sampleUnmarshal (text : String) (current : Int) : Bool × Int :=
  if text = "\x7b\"difficulty_level\": 2\x7d" then (true, 2)
  else if text = "\x7b\"difficulty_level\": 9\x7d" then (true, 9)
  else (false, current)

/-! ## `config/config.go`: the role views -/

/-- GetEvaluatorService of `config/config.go`. -/
def GetEvaluatorService (Cfg : Option Config) : Except ConfigError Service :=
  match Cfg with
  | none => .error .notLoaded
  | some cfg =>
    match cfg.Services.find? (fun svc => svc.Role = "evaluator") with
    | some svc => .ok svc
    | none => .error .noEvaluator

/-- GetAllExecutorServices of `config/config.go`. -/
def GetAllExecutorServices (Cfg : Option Config) : Except ConfigError (List Service) :=
  match Cfg with
  | none => .error .notLoaded
  | some cfg =>
    let executors := cfg.Services.filter (fun svc => svc.Role = "executor")
    if executors.length = 0 then .error .noExecutors else .ok executors

/-! ## `evaluator/client.go`: `EvaluateDifficulty` -/

/-- Client of `evaluator/client.go` (the HTTP client aside). -/
structure Client where
  contextManager : ContextManager
  maxRetries : Nat

/-- NewClient of `evaluator/client.go`. -/
def NewClient : Client :=
  { contextManager := NewContextManager, maxRetries := 3 }

/-- Failures of an HTTP exchange before a reply is in hand: building the request,
sending it, reading the body. -/
inductive TransportError where
  | createRequest
  | send
  | readBody
deriving DecidableEq, Repr

/-- The reply of the evaluator to one `doRequest`: its status code and its body decoded
into the `content` array (`none` when the body does not decode). -/
structure HttpReply where
  StatusCode : Int
  Content : Option (List ReplyContent)
deriving DecidableEq, Repr

/-- Errors of one `doRequest`. -/
inductive AttemptError where
  | transport (err : TransportError)
  | reply (err : DoRequestError)
deriving DecidableEq, Repr

/-- The function doRequest of `evaluator/client.go`, given what the HTTP exchange
produced. -/
def doRequest (jsonUnmarshal : String → Int → Bool × Int)
    (exchange : Except TransportError HttpReply) : Except AttemptError EvaluatorResponse :=
  match exchange with
  | .error err => .error (.transport err)
  | .ok reply =>
    match doRequestFinish jsonUnmarshal reply.StatusCode reply.Content with
    | .error err => .error (.reply err)
    | .ok response => .ok response

/-- What the world does during one `EvaluateDifficulty`: the HTTP exchange of the
attempt with loop index `i`, whether `ctx.Done()` wins the `select` of the backoff that
follows attempt `i`, and the value of `time.Now()`. -/
structure EvalWorld where
  exchange : Nat → Except TransportError HttpReply
  ctxDone : Nat → Bool
  now : Int

/-- The retry loop of `EvaluateDifficulty` when it stops: the number of `doRequest`
calls, the backoffs waited in full (in seconds, in order), the variables `response`
and `lastErr`, and whether the loop returned `ctx.Err()` from a backoff. -/
structure RetryRun where
  calls : Nat
  waits : List Nat
  response : Option EvaluatorResponse
  lastErr : Option AttemptError
  cancelled : Bool

/-- The loop `for i := 0; i < c.maxRetries; i++` of `EvaluateDifficulty`, started at
index `i` with the current `response` and `lastErr`. The backoff after attempt `i` is
`1<<uint(i)` seconds. -/
def retryLoop (jsonUnmarshal : String → Int → Bool × Int) (world : EvalWorld)
    (maxRetries : Nat) :
    Nat → Nat → Option EvaluatorResponse → Option AttemptError → RetryRun
  | 0, _, response, lastErr => ⟨0, [], response, lastErr, false⟩
  | fuel + 1, i, response, lastErr =>
    if i < maxRetries then
      match doRequest jsonUnmarshal (world.exchange i) with
      | .ok resp => ⟨1, [], some resp, none, false⟩
      | .error err =>
        if i + 1 < maxRetries then
          if world.ctxDone i then ⟨1, [], none, some err, true⟩
          else
            let r := retryLoop jsonUnmarshal world maxRetries fuel (i + 1) none (some err)
            { r with calls := r.calls + 1, waits := 2 ^ i :: r.waits }
        else
          let r := retryLoop jsonUnmarshal world maxRetries fuel (i + 1) none (some err)
          { r with calls := r.calls + 1 }
    else ⟨0, [], response, lastErr, false⟩

/-- Errors returned by `EvaluateDifficulty`. -/
inductive EvalError where
  | evaluatorService (err : ConfigError)
  | cancelled
  | requestFailed (lastErr : AttemptError)
deriving DecidableEq, Repr

/-- One run of `EvaluateDifficulty`: what it returns (`none` for a panic), the session
store afterwards, the number of `doRequest` calls and the backoffs waited in full. -/
structure EvalRun where
  result : Option (Except EvalError EvaluatorResponse)
  contextManager : ContextManager
  calls : Nat
  waits : List Nat

/-- The reasoning of the fallback response. -/
def fallbackReasoning : String := "决策者服务不可用，使用默认中等难度"

/-- The summary `EvaluateDifficulty` records after a successful attempt. -/
def requestSummary (world : EvalWorld) (request : ClaudeRequest)
    (response : EvaluatorResponse) : RequestSummary :=
  { Timestamp := world.now, Model := request.Model, MessageCount := request.Messages.length,
    TokenCount := 0, DifficultyLevel := response.DifficultyLevel, ResponseTime := 0 }

/-- EvaluateDifficulty of `evaluator/client.go`. `GetContext` only reads the store, to
build the prompt sent in each attempt. -/
def EvaluateDifficulty (jsonUnmarshal : String → Int → Bool × Int) (c : Client)
    (Cfg : Option Config) (world : EvalWorld) (request : ClaudeRequest) : EvalRun :=
  match ExtractUserInfo request.Metadata with
  | none => ⟨none, c.contextManager, 0, []⟩
  | some (userID, sessionID) =>
    match GetEvaluatorService Cfg with
    | .error err => ⟨some (.error (.evaluatorService err)), c.contextManager, 0, []⟩
    | .ok _ =>
      let run := retryLoop jsonUnmarshal world c.maxRetries c.maxRetries 0 none none
      if run.cancelled then ⟨some (.error .cancelled), c.contextManager, run.calls, run.waits⟩
      else
        match run.lastErr with
        | some lastErr =>
          match Cfg with
          | none => ⟨none, c.contextManager, run.calls, run.waits⟩
          | some cfg =>
            if cfg.Features.EvaluatorFallback then
              ⟨some (.ok { DifficultyLevel := 3, Reasoning := fallbackReasoning }),
                c.contextManager, run.calls, run.waits⟩
            else ⟨some (.error (.requestFailed lastErr)), c.contextManager, run.calls, run.waits⟩
        | none =>
          match run.response with
          | none => ⟨none, c.contextManager, run.calls, run.waits⟩
          | some response =>
            ⟨some (.ok response),
              c.contextManager.UpdateContext userID sessionID
                (requestSummary world request response),
              run.calls, run.waits⟩

/-- Attempt `k` is the first to succeed, with `response`: every earlier attempt failed
and its backoff was waited in full. -/
def firstSuccessAt (jsonUnmarshal : String → Int → Bool × Int) (world : EvalWorld) (k : Nat)
    (response : EvaluatorResponse) : Prop :=
  (∀ i, i < k → (∃ err, doRequest jsonUnmarshal (world.exchange i) = .error err) ∧
      world.ctxDone i = false) ∧
    doRequest jsonUnmarshal (world.exchange k) = .ok response

/-- Every one of the three attempts fails and no backoff is cut short. -/
def allAttemptsFail (jsonUnmarshal : String → Int → Bool × Int) (world : EvalWorld) : Prop :=
  (∀ i, i < 3 → ∃ err, doRequest jsonUnmarshal (world.exchange i) = .error err) ∧
    ∀ i, i < 2 → world.ctxDone i = false

/-- A sample world in which the evaluator answers every attempt with status 500. -/
def sampleWorldDown : EvalWorld where
  exchange := fun _ => .ok ⟨500, none⟩
  ctxDone := fun _ => false
  now := 0

/-- A sample world in which the first attempt cannot be sent and the second is answered
with an object of level 2. -/
def sampleWorldSecond : EvalWorld where
  exchange := fun i =>
    if i = 0 then .error .send
    else .ok ⟨200, some [⟨"text", "\x7b\"difficulty_level\": 2\x7d"⟩]⟩
  ctxDone := fun _ => false
  now := 0

/-- The sample configuration with an evaluator service and the given fallback flag. -/
def sampleEvalConfig (fallback : Bool) : Config :=
  { sampleConfig with
    Services := ⟨"eval", "evaluator", "https://eval.example.com/v1/messages", "k0", "evaluator",
      true⟩ :: sampleConfig.Services
    Features := ⟨fallback, false, true⟩ }

/-- A sample request of user `ABC` in session `XYZ`, with one message. -/
def sampleRequest : ClaudeRequest :=
  { Model := "claude-3-5-sonnet"
    Messages := [⟨"user", [⟨"text", "Write a quicksort", ⟨""⟩⟩]⟩]
    System := []
    Tools := []
    Metadata := ⟨"user_ABC_account__session_XYZ"⟩
    MaxTokens := 0
    Stream := false }

/-- A sample library: a service URL is its host, and header keys are kept as they are
(the keys of the examples are canonical). -/
def sampleLib : NetLib where
  urlParse := fun s => some ⟨"https", s, "/v1/messages", ""⟩
  urlString := fun u => u.Scheme ++ "://" ++ u.Host ++ u.Path ++ "?" ++ u.RawQuery
  newRequestOK := fun _ _ => true
  canonicalKey := fun k => k

/-- A sample client request with its own `Authorization` and a header of two values. -/
def sampleOriginalRequest : OriginalRequest where
  Method := "POST"
  RawQuery := "beta=true"
  Header := [("Authorization", ["Bearer client-token"]), ("Content-Type", ["application/json"]),
    ("X-Trace", ["a", "b"])]

/-- A sample provider without thinking support. -/
def sampleService : Service :=
  ⟨"medium-service", "medium", "medium.example.com", "k2", "executor", false⟩

/-! ## `proxy/handler.go`: the warm-up broadcast -/

/-- An upstream `*http.Response` received in full. -/
structure UpstreamResponse where
  StatusCode : Int
  Header : Header
  Body : List UInt8
deriving DecidableEq, Repr

/-- The local type warmupResult of `handleWarmupRequest`. -/
structure WarmupResult where
  service : Service
  response : Option UpstreamResponse
  err : Option TransportError
deriving DecidableEq, Repr

/-- The test `result.err == nil && result.response != nil` of the collecting loop. -/
def WarmupResult.isSuccess (result : WarmupResult) : Bool :=
  result.err.isNone && result.response.isSome

/-- What the world does during one warm-up: the answer to the request sent to the
executor of index `i`, the indices of the executors in the order in which their tasks
put a result on the channel, whether the writer is an `http.Flusher`, and whether
`io.Copy` to the client fails. -/
structure WarmupWorld (B : Type) where
  send : Nat → TargetRequest B → Except TransportError UpstreamResponse
  completion : List Nat
  supportsFlush : Bool
  copyFails : Bool

/-- The task `go func(svc *models.Service)` of the fan-out: the one result it puts on
the channel. -/
def warmupTask {B V : Type} (codec : JsonCodec B V) (lib : NetLib)
    (originalReq : OriginalRequest) (requestBody : B)
    (send : TargetRequest B → Except TransportError UpstreamResponse) (svc : Service) :
    WarmupResult :=
  match createTargetRequest codec lib originalReq svc requestBody with
  | .error _ => { service := svc, response := none, err := some .createRequest }
  | .ok req =>
    match send req with
    | .error err => { service := svc, response := none, err := some err }
    | .ok resp => { service := svc, response := some resp, err := none }

/-- The results on the channel, in the order they are produced. -/
def warmupResults {B V : Type} (codec : JsonCodec B V) (lib : NetLib)
    (originalReq : OriginalRequest) (requestBody : B) (world : WarmupWorld B)
    (executors : List Service) : List WarmupResult :=
  world.completion.filterMap (fun i =>
    (executors.get? i).map (warmupTask codec lib originalReq requestBody (world.send i)))

/-- The variables of the collecting loop of `handleWarmupRequest`, and the responses
whose bodies it closed. -/
structure WarmupTally where
  firstSuccessResponse : Option UpstreamResponse
  firstSuccessService : Option Service
  successCount : Nat
  failCount : Nat
  closed : List UpstreamResponse
deriving DecidableEq, Repr

/-- One iteration of `for result := range resultChan`. -/
def tallyResult (tally : WarmupTally) (result : WarmupResult) : WarmupTally :=
  match result.err, result.response with
  | none, some response =>
    match tally.firstSuccessResponse with
    | none =>
      { tally with
        successCount := tally.successCount + 1
        firstSuccessResponse := some response
        firstSuccessService := some result.service }
    | some _ =>
      { tally with
        successCount := tally.successCount + 1
        closed := tally.closed ++ [response] }
  | _, _ => { tally with failCount := tally.failCount + 1 }

/-- The collecting loop of `handleWarmupRequest`. -/
def collectResults (results : List WarmupResult) : WarmupTally :=
  results.foldl tallyResult ⟨none, none, 0, 0, []⟩

/-- Errors returned by `handleWarmupRequest`. -/
inductive WarmupError where
  | executors (err : ConfigError)
  | allFailed
  | noFlusher
  | readStream
  | copyBody
deriving DecidableEq, Repr

/-- The totals `handleWarmupRequest` logs. -/
structure WarmupLog where
  total : Nat
  success : Nat
  failed : Nat
deriving DecidableEq, Repr

/-- What `handleWarmupRequest` sent to the client when it returns no error: the
canonical response, the status written and the events on the writer. -/
structure WarmupDone where
  canonical : UpstreamResponse
  status : Int
  events : List RelayEvent
deriving DecidableEq, Repr

/-- The relay of the canonical response in `handleWarmupRequest`: the streaming loop
when the client asked for a stream, `io.Copy` otherwise. -/
def relayWarmup (stream supportsFlush copyFails : Bool) (response : UpstreamResponse) :
    Except WarmupError WarmupDone :=
  if stream then
    if ¬ supportsFlush then .error .noFlusher
    else
      let r := relayLoop (response.Body.length + 1) response.Body
      if r.2 then .error .readStream
      else .ok { canonical := response, status := response.StatusCode,
                 events := r.1 ++ [.flush] }
  else if copyFails then .error .copyBody
  else .ok { canonical := response, status := response.StatusCode,
             events := [.write response.Body] }

/-- One run of `handleWarmupRequest`: the totals logged (none when the executor list
cannot be had) and what the handler returns. -/
structure WarmupRun where
  logged : Option WarmupLog
  result : Except WarmupError WarmupDone

/-- The function handleWarmupRequest of `proxy/handler.go`. -/
def handleWarmupRequest {B V : Type} (codec : JsonCodec B V) (lib : NetLib)
    (Cfg : Option Config) (world : WarmupWorld B) (originalReq : OriginalRequest)
    (claudeReq : ClaudeRequest) (requestBody : B) : WarmupRun :=
  match GetAllExecutorServices Cfg with
  | .error err => ⟨none, .error (.executors err)⟩
  | .ok executors =>
    let results := warmupResults codec lib originalReq requestBody world executors
    let tally := collectResults results
    let logged : WarmupLog := ⟨executors.length, tally.successCount, tally.failCount⟩
    match tally.firstSuccessResponse with
    | none => ⟨some logged, .error .allFailed⟩
    | some response =>
      ⟨some logged, relayWarmup claudeReq.Stream world.supportsFlush world.copyFails response⟩

/-- An upstream body that is one line of `maxScanTokenSize` bytes. -/
@[irreducible]
def longLineBody : List UInt8 := List.replicate maxScanTokenSize 97

/-- A sample warm-up world on two executors: the second one answers first, with a body
that is one long line; the first one cannot be reached. -/
def sampleWarmupWorld : WarmupWorld (JsonObject String) where
  send := fun i _ => if i = 1 then .ok ⟨200, [], longLineBody⟩ else .error .send
  completion := [1, 0]
  supportsFlush := true
  copyFails := false

/-! ## `evaluator/client.go`: the current task of the prompt -/

/-- The sentinel `extractRecentContext` returns when it finds no text. -/
def noTaskSentinel : String := "无法提取有效的用户任务内容"

/-- The inner loop of `extractRecentContext` over the content blocks of one user
message: the first `text` block that is not auxiliary as it stands and whose trimmed
text is non-empty and shorter than 200 bytes (the loop breaks there). -/
def firstShortText : List ContentBlock → Option String
  | [] => none
  | content :: rest =>
    if content.Type_ = "text" ∧ ¬ isAuxiliaryContent content.Text then
      let text := stringsTrimSpace content.Text
      if text ≠ "" ∧ (utf8Bytes text).length < 200 then some text
      else firstShortText rest
    else firstShortText rest

/-- The outer loop of `extractRecentContext`,
`for i := len(messages) - 1; i >= 0 && userMsgCount < recentCount; i--`, over the messages
listed from the last to the first; each text found is put in front of `contextParts`. -/
def extractRecentContextLoop (recentCount : Int) : List Message → Nat → List String →
    List String
  | [], _, contextParts => contextParts
  | msg :: earlier, userMsgCount, contextParts =>
    if (userMsgCount : Int) < recentCount then
      if msg.Role ≠ "user" then
        extractRecentContextLoop recentCount earlier userMsgCount contextParts
      else
        match firstShortText msg.Content with
        | some text =>
          extractRecentContextLoop recentCount earlier (userMsgCount + 1) (text :: contextParts)
        | none => extractRecentContextLoop recentCount earlier (userMsgCount + 1) contextParts
    else contextParts

/-- The function extractRecentContext of `evaluator/client.go`. -/
def extractRecentContext (messages : List Message) (recentCount : Int) : String :=
  let contextParts := extractRecentContextLoop recentCount messages.reverse 0 []
  if contextParts.length > 0 then stringsJoin contextParts " → "
  else noTaskSentinel

/-- The task text of `buildEvaluationPrompt` before its length is limited: the intent,
or the recent context when the intent is empty. -/
def extractedTask (messages : List Message) : String :=
  let currentTask := extractUserIntent messages
  if currentTask = "" then extractRecentContext messages 3 else currentTask

/-- The length limit of `buildEvaluationPrompt`:
`if len(currentTask) > 500 { currentTask = currentTask[:500] + "..." }`, on the bytes of
the string. -/
def limitTask (currentTask : String) : List UInt8 :=
  if (utf8Bytes currentTask).length > 500 then
    (utf8Bytes currentTask).take 500 ++ utf8Bytes "..."
  else utf8Bytes currentTask

/-- The variable `currentTask` of `buildEvaluationPrompt` as it enters the template
data, as bytes (the cut at byte 500 may fall inside a character). -/
def currentTask (messages : List Message) : List UInt8 :=
  limitTask (extractedTask messages)

/-- The method `Context.Header(key, value)` of the gin library, which
`handleStreamingProxy` writes response headers with: `Header().Set(key, value)`, and
`Header().Del(key)` when the value is empty. -/
def ginHeader (lib : NetLib) (h : Header) (key value : String) : Header :=
  if value = "" then h.filter (fun kv => kv.1 ≠ lib.canonicalKey key)
  else Header.set lib h key value

/-- The response headers `handleStreamingProxy` sets: the four headers of the proxy,
then every upstream header except `Content-Type`, `Cache-Control` and `Connection`,
over the entries of the upstream header in iteration order. `downstream` holds the
headers the response has before. -/
def streamingHeaders (lib : NetLib) (downstream upstream : Header) : Header :=
  let h := ginHeader lib downstream "Content-Type" "text/event-stream"
  let h := ginHeader lib h "Cache-Control" "no-cache"
  let h := ginHeader lib h "Connection" "keep-alive"
  let h := ginHeader lib h "X-Accel-Buffering" "no"
  upstream.foldl (fun acc kv =>
    if kv.1 ≠ "Content-Type" ∧ kv.1 ≠ "Cache-Control" ∧ kv.1 ≠ "Connection" then
      kv.2.foldl (fun acc2 value => ginHeader lib acc2 kv.1 value) acc
    else acc) h

/-! ## `evaluator/client.go`: the history context of the prompt -/

/-- Go `time.Duration.Milliseconds`: the nanoseconds divided by `1e6`, towards zero. -/
def durationMilliseconds (d : Int) : Int :=
  Int.tdiv d 1000000

/-- One line of the history block:
`fmt.Sprintf("\n%d. 模型: %s, 难度: %d, 消息数: %d, 耗时: %dms", ...)`. -/
def historyLine (index : Int) (hist : RequestSummary) : String :=
  "\n" ++ fmtInt index ++ ". 模型: " ++ hist.Model ++ ", 难度: " ++ fmtInt hist.DifficultyLevel ++
    ", 消息数: " ++ fmtInt hist.MessageCount ++ ", 耗时: " ++
    fmtInt (durationMilliseconds hist.ResponseTime) ++ "ms"

/-- The header of the history block: `fmt.Sprintf("\n\n用户最近的请求历史（%d条）：", n)`. -/
def historyHeader (count : Int) : String :=
  "\n\n用户最近的请求历史（" ++ fmtInt count ++ "条）："

/-- The loop `for i := startIdx; i < historyCount; i++` of `buildEvaluationPrompt`,
started at `i` with the text built so far. -/
def historyLoop (history : List RequestSummary) (startIdx : Nat) : Nat → Nat → String → String
  | 0, _, contextInfo => contextInfo
  | fuel + 1, i, contextInfo =>
    if h : i < history.length then
      historyLoop history startIdx fuel (i + 1)
        (contextInfo ++ historyLine ((i : Int) - (startIdx : Int) + 1) history[i])
    else contextInfo

/-- The variable `contextInfo` of `buildEvaluationPrompt`. -/
def historyContext (cfg : EvaluatorConfig) (history : List RequestSummary) : String :=
  if cfg.IncludeHistory = true ∧ history.length > 0 then
    let maxRounds : Int := if cfg.MaxHistoryRounds ≤ 0 then 3 else cfg.MaxHistoryRounds
    let historyCount : Int := history.length
    let startIdx : Int := if historyCount > maxRounds then historyCount - maxRounds else 0
    historyLoop history startIdx.toNat history.length startIdx.toNat
      (historyHeader (historyCount - startIdx))
  else ""

/-- The lines of the history block as the spec words them: the summaries in order,
numbered from `i`. -/
def statedHistoryLines : Nat → List RequestSummary → String
  | _, [] => ""
  | i, hist :: rest => historyLine i hist ++ statedHistoryLines (i + 1) rest

/-- The history block as the spec words it for `rounds` rounds: a header stating the
count `min(N, rounds)`, then the most recent `min(N, rounds)` summaries in order,
numbered from 1. -/
def statedHistoryContext (rounds : Nat) (history : List RequestSummary) : String :=
  historyHeader (min history.length rounds : Nat) ++
    statedHistoryLines 1 (lastN (min history.length rounds) history)

/-- The number of rounds `buildEvaluationPrompt` works with: `max_history_rounds`, and 3
when that is not positive. -/
def effectiveRounds (cfg : EvaluatorConfig) : Nat :=
  if cfg.MaxHistoryRounds ≤ 0 then 3 else cfg.MaxHistoryRounds.toNat

/-- A sample evaluator configuration with the given number of history rounds. -/
def sampleEvaluatorConfig (rounds : Int) : EvaluatorConfig :=
  { PromptTemplate := "task: \x7b\x7b.CurrentTask\x7d\x7d", IncludeHistory := true,
    MaxHistoryRounds := rounds, Model := "claude-3-haiku-20240307", MaxTokens := 100 }

/-! ## `evaluator/client.go`: rendering the prompt template -/

/-- Go `strings.ReplaceAll(s, old, new)` for a non-empty `old`, on the bytes of the
strings: every non-overlapping instance of `old`, found from the left, is replaced by
`new`. `skip` counts the bytes of a matched instance still to be passed over. -/
def replaceAllFrom (old new : List UInt8) : Nat → List UInt8 → List UInt8
  | _, [] => []
  | 0, b :: rest =>
    if old.isPrefixOf (b :: rest) then new ++ replaceAllFrom old new (old.length - 1) rest
    else b :: replaceAllFrom old new 0 rest
  | skip + 1, _ :: rest => replaceAllFrom old new skip rest

/-- Go `strings.ReplaceAll` for a non-empty `old`. -/
def stringsReplaceAll (s old new : List UInt8) : List UInt8 :=
  replaceAllFrom old new 0 s

/-- The keys of the map `templateData` of `buildEvaluationPrompt`. -/
inductive TemplateKey where
  | Model
  | MessageCount
  | CurrentTask
  | HistoryContext
deriving DecidableEq, Repr, Fintype

/-- The name of a key, as it stands in the map. -/
def TemplateKey.name : TemplateKey → String
  | .Model => "Model"
  | .MessageCount => "MessageCount"
  | .CurrentTask => "CurrentTask"
  | .HistoryContext => "HistoryContext"

/-- A value of the map `templateData`: a string (held as its bytes) or an int. -/
inductive TemplateValue where
  | str (bytes : List UInt8)
  | int (n : Int)
deriving DecidableEq, Repr

/-- The placeholder of a key: `fmt.Sprintf("{{.%s}}", key)`. -/
def placeholder (key : TemplateKey) : List UInt8 :=
  utf8Bytes ("\x7b\x7b." ++ key.name ++ "\x7d\x7d")

/-- The type switch of `renderTemplate`: a string as it is, an int with `%d`. -/
def replacement : TemplateValue → List UInt8
  | .str v => v
  | .int v => utf8Bytes (fmtInt v)

/-- The function renderTemplate of `evaluator/client.go`. The Go loop ranges over a
map, whose iteration order is not specified: `order` lists the keys in the order the
loop visits them, each key once. -/
def renderTemplate (order : List TemplateKey) (template : List UInt8)
    (data : TemplateKey → TemplateValue) : List UInt8 :=
  order.foldl (fun result key =>
    stringsReplaceAll result (placeholder key) (replacement (data key))) template

/-- The function buildEvaluationPrompt of `evaluator/client.go`, for the evaluator
settings `cfg`, the request and the user context of the evaluator request, and the
order in which `renderTemplate` visits the keys. -/
def buildEvaluationPrompt (cfg : EvaluatorConfig) (order : List TemplateKey)
    (originalRequest : ClaudeRequest) (userContext : UserContext) : List UInt8 :=
  let contextInfo := historyContext cfg userContext.RequestHistory
  let messageCount : Int := originalRequest.Messages.length
  let model := originalRequest.Model
  let templateData : TemplateKey → TemplateValue := fun key =>
    match key with
    | .Model => .str (utf8Bytes model)
    | .MessageCount => .int messageCount
    | .CurrentTask => .str (currentTask originalRequest.Messages)
    | .HistoryContext => .str (utf8Bytes contextInfo)
  renderTemplate order (utf8Bytes cfg.PromptTemplate) templateData

/-- A piece of a template: literal text, or the placeholder of a key. -/
inductive TemplatePart where
  | text (bytes : List UInt8)
  | slot (key : TemplateKey)
deriving DecidableEq, Repr

/-- The bytes of a piece. -/
def TemplatePart.bytes : TemplatePart → List UInt8
  | .text t => t
  | .slot key => placeholder key

/-- The template a list of pieces spells. -/
def templateBytes (parts : List TemplatePart) : List UInt8 :=
  parts.flatMap TemplatePart.bytes

/-- Text in which every `{` is followed by a byte other than `{` (so it does not end
in `{` either): no placeholder can start in it or be completed by it. -/
def plainText : List UInt8 → Bool
  | [] => true
  | [b] => b ≠ 123
  | b :: c :: rest => (b ≠ 123 || c ≠ 123) && plainText (c :: rest)

/-- A piece with its placeholder filled in: the text as it is, the value of the key. -/
def TemplatePart.filled (data : TemplateKey → TemplateValue) : TemplatePart → List UInt8
  | .text t => t
  | .slot key => replacement (data key)

/-- Sample template data: the model `m`, two messages, the given task and no history. -/
def sampleTemplateData (task : String) : TemplateKey → TemplateValue
  | .Model => .str (utf8Bytes "m")
  | .MessageCount => .int 2
  | .CurrentTask => .str (utf8Bytes task)
  | .HistoryContext => .str []

/-- A sample template in pieces: the four placeholders between texts, the last text
holding the braces of a JSON object. -/
def sampleTemplateParts : List TemplatePart :=
  [.text (utf8Bytes "model: "), .slot .Model, .text (utf8Bytes "\ncount: "),
    .slot .MessageCount, .text (utf8Bytes "\ntask: "), .slot .CurrentTask,
    .slot .HistoryContext,
    .text (utf8Bytes "\nanswer as \x7b\"difficulty_level\": n\x7d")]

/-- One substitution seen on the pieces: the placeholder of `key` becomes the text
`value`, every other piece stays. -/
def TemplatePart.fill (key : TemplateKey) (value : List UInt8) (part : TemplatePart) :
    TemplatePart :=
  if part = .slot key then .text value else part

/-- Every literal text among the pieces is plain. -/
def PlainTexts (parts : List TemplatePart) : Prop :=
  ∀ t, TemplatePart.text t ∈ parts → plainText t = true

/-- The test for a piece: a literal text is plain. -/
def TemplatePart.isPlain : TemplatePart → Bool
  | .text t => plainText t
  | .slot _ => true

/-- The test that every literal text among the pieces is plain. -/
def plainParts (parts : List TemplatePart) : Bool :=
  parts.all TemplatePart.isPlain

/-! ## `extractDifficultyLevel`: the digit after the token -/

/-- A value of type `interface{}` as `json.Unmarshal` stores it: `nil`, a `bool`, a
`float64` for every JSON number, a `string`, a `[]interface{}` or a
`map[string]interface{}`. A `float64` is held as the literal `json.Marshal` prints for
it. -/
inductive GoValue where
  | nil
  | bool (b : Bool)
  | float64 (printed : String)
  | string (s : String)
  | slice (items : List GoValue)
  | map (entries : List (String × GoValue))

/-- Go map assignment `m[key] = value`. -/
def JsonObject.set {V : Type} (m : JsonObject V) (key : String) (value : V) : JsonObject V :=
  if m.any (fun kv => kv.1 = key) then
    m.map (fun kv => if kv.1 = key then (key, value) else kv)
  else m ++ [(key, value)]

/-- The map a list of decoded members fills, each member assigned in document order. -/
def mapOfMembers (entries : List (String × GoValue)) : JsonObject GoValue :=
  entries.foldl (fun m kv => JsonObject.set m kv.1 kv.2) ([] : JsonObject GoValue)

mutual
/-- Decoding a JSON value into an `interface{}`. `readFloat64 literal` is the literal
`json.Marshal` prints for the `float64` that `strconv.ParseFloat` reads from a number
literal, `none` when the literal is out of range. -/
def decodeInterface (readFloat64 : String → Option String) : Json → Option GoValue
  | .null => some .nil
  | .bool b => some (.bool b)
  | .number literal =>
    match readFloat64 literal with
    | some printed => some (.float64 printed)
    | none => none
  | .string s => some (.string s)
  | .array items =>
    match decodeInterfaceItems readFloat64 items with
    | some values => some (.slice values)
    | none => none
  | .object members =>
    match decodeInterfaceMembers readFloat64 members with
    | some entries => some (.map (mapOfMembers entries))
    | none => none
/-- Decoding the items of a JSON array. -/
def decodeInterfaceItems (readFloat64 : String → Option String) :
    List Json → Option (List GoValue)
  | [] => some []
  | item :: rest =>
    match decodeInterface readFloat64 item, decodeInterfaceItems readFloat64 rest with
    | some value, some values => some (value :: values)
    | _, _ => none
/-- Decoding the members of a JSON object, in document order, each with its key; the
map is filled from them by assignment, so a later member replaces an earlier one of the
same key. -/
def decodeInterfaceMembers (readFloat64 : String → Option String) :
    List (String × Json) → Option (List (String × GoValue))
  | [] => some []
  | (key, item) :: rest =>
    match decodeInterface readFloat64 item, decodeInterfaceMembers readFloat64 rest with
    | some value, some entries => some ((key, value) :: entries)
    | _, _ => none
end

/-- The order in which `json.Marshal` writes the keys of a map: sorted, by the bytes of
the keys, which is the order of their code points. -/
def sortByKey {V : Type} (m : JsonObject V) : JsonObject V :=
  m.insertionSort (fun a b => decide (a.1.data ≤ b.1.data))

mutual
/-- Encoding an `interface{}` as a JSON value. -/
def encodeInterface : GoValue → Json
  | .nil => .null
  | .bool b => .bool b
  | .float64 printed => .number printed
  | .string s => .string s
  | .slice items => .array (encodeInterfaceItems items)
  | .map entries => .object (sortByKey (encodeInterfaceEntries entries))
/-- Encoding the items of a slice. -/
def encodeInterfaceItems : List GoValue → List Json
  | [] => []
  | item :: rest => encodeInterface item :: encodeInterfaceItems rest
/-- Encoding the entries of a map. -/
def encodeInterfaceEntries : List (String × GoValue) → List (String × Json)
  | [] => []
  | (key, item) :: rest => (key, encodeInterface item) :: encodeInterfaceEntries rest
end

/-- The codec `sanitizeRequestForExecutor` works with, on bodies that are JSON objects
given by their members in document order: `json.Unmarshal` into a
`map[string]interface{}` and `json.Marshal` of that map. -/
def interfaceCodec (readFloat64 : String → Option String) :
    JsonCodec (JsonObject Json) GoValue where
  unmarshal := fun body =>
    match decodeInterfaceMembers readFloat64 body with
    | some entries => some (mapOfMembers entries)
    | none => none
  marshal := fun m => some (sortByKey (encodeInterfaceEntries m))

/-- The `float64` nearest to an integer `n < 2 ^ 54`, as an integer: a `float64` has 53
significant bits, so every integer below `2 ^ 53` is a value, from there to `2 ^ 54`
the even integers are, and an odd integer lies halfway between two values, of which the
one with an even significand is taken. -/
def float64OfInteger (n : Nat) : Nat :=
  if n < 2 ^ 53 then n
  else if n % 2 = 0 then n
  else if (n / 2) % 2 = 0 then n - 1
  else n + 1

/-- A stand-in for examples of `readFloat64`: exact on the literal of an integer
`0 ≤ n < 10 ^ 16`, for which `json.Marshal` prints the integer the `float64` equals in
full; every other literal is given back as it is. -/
def sampleReadFloat64 (literal : String) : Option String :=
  if literal.data ≠ [] ∧ literal.data.all Char.isDigit = true then
    let n := literal.data.foldl (fun acc c => acc * 10 + (c.toNat - 48)) 0
    if n < 10 ^ 16 then some (toString (float64OfInteger n)) else some literal
  else some literal

/-- The reasoning of the fallback result as the spec words it. -/
def statedFallbackReasoning : String := "evaluator unavailable, default medium"

/-! # Properties -/

/-! ## UTF-8 bytes against runes -/

set_option maxRecDepth 100000 in
theorem leadByte_ge_fin : ∀ n : Fin 256,
    128 ≤ ((⟨⟨n⟩⟩ : UInt8) ||| 0xc0).toNat ∧ 128 ≤ ((⟨⟨n⟩⟩ : UInt8) ||| 0xe0).toNat ∧
      128 ≤ ((⟨⟨n⟩⟩ : UInt8) ||| 0xf0).toNat := by
  decide

theorem leadByte_ge (y : UInt8) :
    128 ≤ (y ||| 0xc0).toNat ∧ 128 ≤ (y ||| 0xe0).toNat ∧ 128 ≤ (y ||| 0xf0).toNat := by
  rcases y with ⟨⟨n⟩⟩
  exact leadByte_ge_fin n

theorem utf8EncodeChar_ne_nil (c : Char) : String.utf8EncodeChar c ≠ [] := by
  unfold String.utf8EncodeChar
  simp only
  split_ifs <;> simp

/-- An encoding that starts with an ASCII byte is that single byte. -/
theorem utf8EncodeChar_ascii (c : Char) (b : UInt8) (hb : b.toNat < 128) (rest : List UInt8)
    (h : String.utf8EncodeChar c = b :: rest) : rest = [] ∧ c.val.toNat = b.toNat := by
  unfold String.utf8EncodeChar at h
  simp only at h
  split_ifs at h with h1 h2 h3
  · simp only [List.cons.injEq] at h
    obtain ⟨h, rfl⟩ := h
    refine ⟨rfl, ?_⟩
    subst h
    have : c.val.toNat ≤ 127 := h1
    simp [UInt32.toUInt8, Nat.toUInt8, UInt8.ofNat, UInt8.toNat, Fin.ofNat]
    omega
  · simp only [List.cons.injEq] at h
    have := (leadByte_ge ((c.val >>> 6).toUInt8 &&& 0x1f)).1
    rw [h.1] at this
    omega
  · simp only [List.cons.injEq] at h
    have := (leadByte_ge ((c.val >>> 12).toUInt8 &&& 0x0f)).2.1
    rw [h.1] at this
    omega
  · simp only [List.cons.injEq] at h
    have := (leadByte_ge ((c.val >>> 18).toUInt8 &&& 0x07)).2.2
    rw [h.1] at this
    omega

theorem char_eq_of_toNat (c d : Char) (h : c.val.toNat = d.val.toNat) : c = d := by
  apply Char.ext
  exact UInt32.toNat.inj h

/-- A byte prefix made of ASCII characters is a rune prefix. -/
theorem asciiPrefix_of_bytes (p : List Char) (hp : ∀ a ∈ p, a.val.toNat < 128) (l : List Char)
    (h : (l.flatMap String.utf8EncodeChar).take p.length = p.flatMap String.utf8EncodeChar) :
    l.take p.length = p := by
  induction p generalizing l with
  | nil => simp
  | cons a p ih =>
    have ha : a.val.toNat < 128 := hp a (List.mem_cons_self _ _)
    have hea : String.utf8EncodeChar a = [a.val.toUInt8] := by
      unfold String.utf8EncodeChar
      have : a.val ≤ 0x7f := by
        show a.val.toNat ≤ 127
        omega
      simp [this]
    cases l with
    | nil => simp [hea] at h
    | cons c l =>
      obtain ⟨b0, r0, hc⟩ := List.exists_cons_of_ne_nil (utf8EncodeChar_ne_nil c)
      simp only [List.flatMap_cons, hc, hea, List.length_cons, List.cons_append,
        List.take_succ_cons, List.cons.injEq, List.singleton_append] at h
      obtain ⟨hb, hrest⟩ := h
      have hb128 : b0.toNat < 128 := by
        rw [hb]
        simp [UInt32.toUInt8, Nat.toUInt8, UInt8.ofNat, UInt8.toNat, Fin.ofNat]
        omega
      obtain ⟨hr0, hval⟩ := utf8EncodeChar_ascii c b0 hb128 r0 hc
      subst hr0
      have hca : c = a := by
        apply char_eq_of_toNat
        rw [hval, hb]
        simp [UInt32.toUInt8, Nat.toUInt8, UInt8.ofNat, UInt8.toNat, Fin.ofNat]
        omega
      subst hca
      simp only [List.nil_append] at hrest
      simp only [List.length_cons, List.take_succ_cons, List.cons.injEq, true_and]
      exact ih (fun x hx => hp x (List.mem_cons_of_mem _ hx)) l hrest

theorem flatMap_utf8_length_ge (l : List Char) :
    l.length ≤ (l.flatMap String.utf8EncodeChar).length := by
  induction l with
  | nil => simp
  | cons c l ih =>
    obtain ⟨b0, r0, hc⟩ := List.exists_cons_of_ne_nil (utf8EncodeChar_ne_nil c)
    simp only [List.flatMap_cons, hc, List.length_append, List.length_cons]
    omega

/-- The byte-level test `userIDStr[:5] == "user_"` is the rune-level prefix test. -/
theorem userPrefix_bytes_iff (x : String) :
    (utf8Bytes x).take 5 = utf8Bytes "user_" ↔ x.data.take 5 = "user_".data := by
  constructor
  · intro h
    exact asciiPrefix_of_bytes "user_".data (by decide) x.data h
  · intro h
    have hx : x.data = "user_".data ++ x.data.drop 5 := by
      conv_lhs => rw [← List.take_append_drop 5 x.data, h]
    unfold utf8Bytes
    rw [hx, List.flatMap_append]
    have h5 : ("user_".data.flatMap String.utf8EncodeChar).length = 5 := by decide
    rw [List.take_append_of_le_length (by omega)]
    exact List.take_of_length_le (by omega)

/-- When the prefix test succeeds, the byte-length test `len(userIDStr) > 5` says that
a sixth rune exists. -/
theorem userLen_bytes_iff (x : String) (h : x.data.take 5 = "user_".data) :
    (utf8Bytes x).length > 5 ↔ x.data.length > 5 := by
  have hx : x.data = "user_".data ++ x.data.drop 5 := by
    conv_lhs => rw [← List.take_append_drop 5 x.data, h]
  have h5 : ("user_".data.flatMap String.utf8EncodeChar).length = 5 := by decide
  have hlen : (utf8Bytes x).length =
      5 + ((x.data.drop 5).flatMap String.utf8EncodeChar).length := by
    unfold utf8Bytes
    rw [hx, List.flatMap_append, List.length_append, h5]
    simp
  have hge := flatMap_utf8_length_ge (x.data.drop 5)
  have hl5 : x.data.length = 5 + (x.data.drop 5).length := by
    have h1 := congrArg List.length hx
    rw [List.length_append] at h1
    have h2 : "user_".data.length = 5 := by decide
    omega
  constructor
  · intro hgt
    rw [hlen] at hgt
    by_contra hcon
    have : (x.data.drop 5).length = 0 := by omega
    have hnil : x.data.drop 5 = [] := List.length_eq_zero.mp this
    rw [hnil] at hgt
    simp at hgt
  · intro hgt
    rw [hlen]
    omega

/-! ## The search loops of `ExtractUserInfo` -/

theorem runeSlice_window (parts : List Char) (i k : Nat) :
    runeSlice parts i (i + k) = (parts.drop i).take k := by
  simp [runeSlice]

/-- A window that spells the pattern agrees with it position by position. -/
theorem window_getElem (parts pat : List Char) (t : Nat)
    (h : (parts.drop t).take pat.length = pat) (m : Nat) (hm : m < pat.length) :
    parts[t + m]? = pat[m]? := by
  have h1 : ((parts.drop t).take pat.length)[m]? = pat[m]? := by rw [h]
  rw [List.getElem?_take_of_lt hm, List.getElem?_drop] at h1
  exact h1

theorem window_occurs (parts pat : List Char) (t k : Nat)
    (h : (parts.drop t).take k = pat) : pat <:+: parts := by
  rw [← h]
  exact ( List.take_prefix k (parts.drop t)).isInfix.trans (List.drop_suffix t parts).isInfix

theorem accountLoop_past_end (parts : List Char) (fuel i : Nat)
    (h : (parts.length : Int) - 8 ≤ (i : Int)) : accountLoop parts fuel i = some ("", "") := by
  cases fuel with
  | zero => rfl
  | succ f =>
    unfold accountLoop
    rw [if_neg (by omega)]

/-- Iterations that see no `_account` only advance the index. -/
theorem accountLoop_skip (parts : List Char) (fuel i k : Nat) (hik : i ≤ k)
    (hfuel : k - i ≤ fuel)
    (hno : ∀ t, i ≤ t → t < k → runeSlice parts t (t + 8) ≠ "_account".data) :
    accountLoop parts fuel i = accountLoop parts (fuel - (k - i)) k := by
  induction fuel generalizing i with
  | zero =>
    have : k = i := by omega
    subst this
    simp
  | succ f ih =>
    rcases Nat.eq_or_lt_of_le hik with heq | hlt
    · subst heq
      simp
    · by_cases hg : (i : Int) < (parts.length : Int) - 8
      · have hstep : accountLoop parts (f + 1) i = accountLoop parts f (i + 1) := by
          conv_lhs => unfold accountLoop
          rw [if_pos hg, if_neg (hno i (le_refl _) hlt)]
        rw [hstep, ih (i + 1) (by omega) (by omega)
          (fun t h1 h2 => hno t (by omega) h2)]
        congr 1
        omega
      · have hstep : accountLoop parts (f + 1) i = some ("", "") := by
          conv_lhs => unfold accountLoop
          rw [if_neg hg]
        rw [hstep, accountLoop_past_end parts _ k (by omega)]

theorem accountLoop_hit (parts : List Char) (fuel k : Nat)
    (hk : k + 8 < parts.length) (h5 : 5 ≤ k)
    (hwin : runeSlice parts k (k + 8) = "_account".data) :
    accountLoop parts (fuel + 1) k =
      some (String.mk (runeSlice parts 5 k), sessionLoop parts parts.length (k + 8)) := by
  conv_lhs => unfold accountLoop
  rw [if_pos (by omega), if_pos hwin, if_neg (by omega)]

/-- The outer loop returns at the first `_account` window. -/
theorem accountLoop_first (parts : List Char) (k : Nat)
    (hk : k + 8 < parts.length) (h5 : 5 ≤ k)
    (hwin : runeSlice parts k (k + 8) = "_account".data)
    (hno : ∀ t, t < k → runeSlice parts t (t + 8) ≠ "_account".data) :
    accountLoop parts parts.length 0 =
      some (String.mk (runeSlice parts 5 k), sessionLoop parts parts.length (k + 8)) := by
  rw [accountLoop_skip parts parts.length 0 k (Nat.zero_le _) (by omega)
    (fun t _ h2 => hno t h2)]
  obtain ⟨f, hf⟩ : ∃ f, parts.length - (k - 0) = f + 1 := ⟨parts.length - k - 1, by omega⟩
  rw [hf]
  exact accountLoop_hit parts f k hk h5 hwin

/-- Without any `_account` window the outer loop leaves both results empty. -/
theorem accountLoop_none (parts : List Char) (fuel i : Nat)
    (hno : ∀ t, i ≤ t → runeSlice parts t (t + 8) ≠ "_account".data) :
    accountLoop parts fuel i = some ("", "") := by
  induction fuel generalizing i with
  | zero => rfl
  | succ f ih =>
    unfold accountLoop
    by_cases hg : (i : Int) < (parts.length : Int) - 8
    · rw [if_pos hg, if_neg (hno i (le_refl _))]
      exact ih (i + 1) (fun t ht => hno t (by omega))
    · rw [if_neg hg]

/-- What the outer loop can return when it has fuel for every index below the length. -/
theorem accountLoop_cases (parts : List Char) (fuel i : Nat) (hfuel : parts.length ≤ fuel + i) :
    (accountLoop parts fuel i = some ("", "") ∧
      ∀ t, i ≤ t → t + 8 < parts.length → runeSlice parts t (t + 8) ≠ "_account".data) ∨
    (∃ k, i ≤ k ∧ k + 8 < parts.length ∧ runeSlice parts k (k + 8) = "_account".data ∧
      (∀ t, i ≤ t → t < k → runeSlice parts t (t + 8) ≠ "_account".data) ∧
      accountLoop parts fuel i = if k < 5 then none else
        some (String.mk (runeSlice parts 5 k), sessionLoop parts parts.length (k + 8))) := by
  induction fuel generalizing i with
  | zero =>
    left
    exact ⟨rfl, fun t h1 h2 => by omega⟩
  | succ f ih =>
    by_cases hg : (i : Int) < (parts.length : Int) - 8
    · by_cases hw : runeSlice parts i (i + 8) = "_account".data
      · right
        refine ⟨i, le_refl _, by omega, hw, fun t h1 h2 => by omega, ?_⟩
        conv_lhs => unfold accountLoop
        rw [if_pos hg, if_pos hw]
      · have hstep : accountLoop parts (f + 1) i = accountLoop parts f (i + 1) := by
          conv_lhs => unfold accountLoop
          rw [if_pos hg, if_neg hw]
        rcases ih (i + 1) (by omega) with ⟨h1, h2⟩ | ⟨k, h1, h2, h3, h4, h5⟩
        · left
          refine ⟨hstep.trans h1, fun t ht1 ht2 => ?_⟩
          rcases Nat.eq_or_lt_of_le ht1 with heq | hlt
          · subst heq; exact hw
          · exact h2 t hlt ht2
        · right
          refine ⟨k, by omega, h2, h3, fun t ht1 ht2 => ?_, hstep.trans h5⟩
          rcases Nat.eq_or_lt_of_le ht1 with heq | hlt
          · subst heq; exact hw
          · exact h4 t hlt ht2
    · left
      refine ⟨?_, fun t h1 h2 => by omega⟩
      conv_lhs => unfold accountLoop
      rw [if_neg hg]

/-- The inner loop returns at once when `__session_` and a non-empty rest start at `j`. -/
theorem sessionLoop_hit (parts : List Char) (fuel j : Nat) (rest : List Char)
    (h : parts.drop j = "__session_".data ++ rest) (hr : rest ≠ []) :
    sessionLoop parts (fuel + 1) j = String.mk rest := by
  have h10 : "__session_".data.length = 10 := by decide
  have hlen : parts.length - j = 10 + rest.length := by
    have := congrArg List.length h
    rw [List.length_drop, List.length_append, h10] at this
    exact this
  have hrl : 0 < rest.length := List.length_pos.mpr hr
  have hwin : runeSlice parts j (j + "__session_".data.length) = "__session_".data := by
    rw [runeSlice_window, h, List.take_left]
  have hdrop : parts.drop (j + "__session_".data.length) = rest := by
    rw [← List.drop_drop, h, List.drop_left]
  conv_lhs => unfold sessionLoop
  rw [if_pos (by rw [h10]; omega), if_pos hwin, hdrop]

theorem sessionLoop_past_end (parts : List Char) (fuel j : Nat)
    (h : parts.length ≤ j + 10) : sessionLoop parts fuel j = "" := by
  have h10 : "__session_".data.length = 10 := by decide
  cases fuel with
  | zero => rfl
  | succ f =>
    unfold sessionLoop
    rw [if_neg (by rw [h10]; omega)]

/-- The outer loop gives the same result for any two fuels that cover the indices left. -/
theorem accountLoop_fuel (parts : List Char) (fuel1 fuel2 i : Nat)
    (h1 : parts.length ≤ fuel1 + i) (h2 : parts.length ≤ fuel2 + i) :
    accountLoop parts fuel1 i = accountLoop parts fuel2 i := by
  induction fuel1 generalizing fuel2 i with
  | zero =>
    rw [accountLoop_past_end parts 0 i (by omega), accountLoop_past_end parts fuel2 i (by omega)]
  | succ f ih =>
    cases fuel2 with
    | zero =>
      rw [accountLoop_past_end parts (f + 1) i (by omega),
        accountLoop_past_end parts 0 i (by omega)]
    | succ g =>
      unfold accountLoop
      rw [ih g (i + 1) (by omega) (by omega)]

theorem sessionLoop_fuel (parts : List Char) (fuel1 fuel2 j : Nat)
    (h1 : parts.length ≤ fuel1 + j) (h2 : parts.length ≤ fuel2 + j) :
    sessionLoop parts fuel1 j = sessionLoop parts fuel2 j := by
  induction fuel1 generalizing fuel2 j with
  | zero =>
    rw [sessionLoop_past_end parts 0 j (by omega), sessionLoop_past_end parts fuel2 j (by omega)]
  | succ f ih =>
    cases fuel2 with
    | zero =>
      rw [sessionLoop_past_end parts (f + 1) j (by omega),
        sessionLoop_past_end parts 0 j (by omega)]
    | succ g =>
      unfold sessionLoop
      rw [ih g (j + 1) (by omega) (by omega)]

/-! ## `ExtractUserInfo` on the shape it round-trips -/

theorem formatUserID_data (u s : String) :
    (formatUserID u s).data =
      "user_".data ++ (u.data ++ ("_account".data ++ ("__session_".data ++ s.data))) := by
  have h : "_account__session_".data = "_account".data ++ "__session_".data := by decide
  unfold formatUserID
  rw [String.data_append, String.data_append, String.data_append, h]
  simp only [List.append_assoc]

theorem drop_two_append {α : Type} (a b c : List α) (k : Nat) (hk : k = a.length + b.length) :
    (a ++ (b ++ c)).drop k = c := by
  subst hk
  rw [← List.append_assoc, ← List.length_append, List.drop_left]

theorem string_eq_empty_of_data (s : String) (h : s.data = []) : s = "" := by
  cases s
  simp only at h
  subst h
  rfl

theorem formatUserID_length (u s : String) :
    (formatUserID u s).data.length = 5 + u.data.length + 18 + s.data.length := by
  have hP : "user_".data.length = 5 := by decide
  have hA : "_account".data.length = 8 := by decide
  have hS : "__session_".data.length = 10 := by decide
  rw [formatUserID_data]
  simp only [List.length_append, hP, hA, hS]
  omega

/-- On a formatted id both guards of `ExtractUserInfo` pass, so its value is that of the
outer loop. -/
theorem ExtractUserInfo_format_eq (u s : String) :
    ExtractUserInfo ⟨formatUserID u s⟩ =
      accountLoop (formatUserID u s).data (formatUserID u s).data.length 0 := by
  have hP : "user_".data.length = 5 := by decide
  have hlen := formatUserID_length u s
  have hne : formatUserID u s ≠ "" := by
    intro h
    rw [h] at hlen
    have h0 : "".data.length = 0 := rfl
    omega
  have htake : (formatUserID u s).data.take 5 = "user_".data := by
    rw [formatUserID_data, ← hP, List.take_left]
  have hbytes : (utf8Bytes (formatUserID u s)).length > 5 ∧
      (utf8Bytes (formatUserID u s)).take 5 = utf8Bytes "user_" :=
    ⟨(userLen_bytes_iff _ htake).mpr (by omega), (userPrefix_bytes_iff _).mpr htake⟩
  unfold ExtractUserInfo
  simp only
  rw [if_neg hne, if_pos hbytes]

theorem formatUserID_drop_user (u s : String) :
    (formatUserID u s).data.drop (5 + u.data.length) =
      "_account".data ++ ("__session_".data ++ s.data) := by
  have hP : "user_".data.length = 5 := by decide
  rw [formatUserID_data]
  exact drop_two_append _ _ _ _ (by rw [hP])

/-- The rune window right after the user part of a formatted id spells `_account`. -/
theorem formatUserID_window (u s : String) :
    runeSlice (formatUserID u s).data (5 + u.data.length) (5 + u.data.length + 8) =
      "_account".data := by
  have hA : "_account".data.length = 8 := by decide
  rw [runeSlice_window, formatUserID_drop_user, ← hA, List.take_left]

/-- On `user_<u>_account__session_<s>` whose first `_account` window is the one after
`u`, the function returns `(u, s)`. -/
theorem ExtractUserInfo_of_firstAccount (u s : String)
    (hno : ∀ p, p < 5 + u.data.length →
      runeSlice (formatUserID u s).data p (p + 8) ≠ "_account".data) :
    ExtractUserInfo ⟨formatUserID u s⟩ = some (u, s) := by
  have hP : "user_".data.length = 5 := by decide
  have hA : "_account".data.length = 8 := by decide
  have hlen := formatUserID_length u s
  have huser : runeSlice (formatUserID u s).data 5 (5 + u.data.length) = u.data := by
    rw [runeSlice_window, formatUserID_data, ← hP, List.drop_left, List.take_left]
  have hdrops : (formatUserID u s).data.drop (5 + u.data.length + 8) =
      "__session_".data ++ s.data := by
    rw [← List.drop_drop, formatUserID_drop_user, ← hA, List.drop_left]
  have hsess : sessionLoop (formatUserID u s).data (formatUserID u s).data.length
      (5 + u.data.length + 8) = s := by
    by_cases hs : s.data = []
    · rw [sessionLoop_past_end _ _ _ (by rw [hlen, hs]; simp)]
      exact (string_eq_empty_of_data s hs).symm
    · obtain ⟨f, hf⟩ : ∃ f, (formatUserID u s).data.length = f + 1 :=
        ⟨(formatUserID u s).data.length - 1, by omega⟩
      rw [hf, sessionLoop_hit _ f _ s.data hdrops hs]
  rw [ExtractUserInfo_format_eq,
    accountLoop_first _ (5 + u.data.length) (by omega) (by omega) (formatUserID_window u s) hno,
    huser, hsess]

theorem getElemOpt_mid {α : Type} (a b c : List α) (j : Nat) (hj : j < b.length) :
    (a ++ (b ++ c))[a.length + j]? = b[j]? := by
  rw [List.getElem?_append_right (by omega)]
  have : a.length + j - a.length = j := by omega
  rw [this, List.getElem?_append_left hj]

theorem getElemOpt_after {α : Type} (a b c : List α) :
    (a ++ (b ++ c))[a.length + b.length]? = c.head? := by
  rw [List.getElem?_append_right (by omega)]
  have : a.length + b.length - a.length = b.length := by omega
  rw [this, List.getElem?_append_right (le_refl _)]
  cases c <;> simp

theorem account_inner_ne_underscore (m : Nat) (h1 : 1 ≤ m) (h8 : m < 8) :
    "_account".data[m]? ≠ some '_' := by
  interval_cases m <;> decide

/-- A user part that neither contains `_account` nor begins with `account` puts the
first `_account` window of `user_<U>_account__session_<S>` right after itself. -/
theorem no_account_before (U S : String)
    (hinf : ¬ "_account".data <:+: U.data) (hpre : ¬ "account".data <+: U.data) :
    ∀ p, p < 5 + U.data.length →
      runeSlice (formatUserID U S).data p (p + 8) ≠ "_account".data := by
  intro p hp hwin
  have hP : "user_".data.length = 5 := by decide
  have hA : "_account".data.length = 8 := by decide
  have hdata := formatUserID_data U S
  rw [runeSlice_window, ← hA] at hwin
  have hget := window_getElem _ _ p hwin
  rw [hA] at hget
  have hxU : ∀ j, j < U.data.length → (formatUserID U S).data[5 + j]? = U.data[j]? := by
    intro j hj
    rw [hdata, ← hP]
    exact getElemOpt_mid _ _ _ j hj
  have hxA : (formatUserID U S).data[5 + U.data.length]? = some '_' := by
    rw [hdata, ← hP, getElemOpt_after]
    rfl
  rcases Nat.lt_or_ge p 4 with h4 | h4
  · have h0 := hget 0 (by omega)
    rw [hdata, Nat.add_zero, List.getElem?_append_left (by omega)] at h0
    interval_cases p <;> exact absurd h0 (by decide)
  · rcases Nat.eq_or_lt_of_le h4 with h4e | h4l
    · subst h4e
      rcases Nat.lt_or_ge U.data.length 7 with hU7 | hU7
      · have h := hget (U.data.length + 1) (by omega)
        have e : 4 + (U.data.length + 1) = 5 + U.data.length := by omega
        rw [e, hxA] at h
        exact account_inner_ne_underscore _ (by omega) (by omega) h.symm
      · apply hpre
        have htake : U.data.take 7 = "account".data := by
          apply List.ext_getElem?
          intro j
          rcases Nat.lt_or_ge j 7 with hj | hj
          · rw [List.getElem?_take_of_lt hj, ← hxU j (by omega)]
            have h := hget (j + 1) (by omega)
            have e : 4 + (j + 1) = 5 + j := by omega
            rw [e] at h
            rw [h]
            interval_cases j <;> rfl
          · rw [List.getElem?_eq_none (by simp; omega), List.getElem?_eq_none (by
              have : "account".data.length = 7 := by decide
              omega)]
        rw [← htake]
        exact List.take_prefix _ _
    · rcases Nat.lt_or_ge U.data.length (p - 5 + 8) with hs | hs
      · have h := hget (U.data.length - (p - 5)) (by omega)
        have e : p + (U.data.length - (p - 5)) = 5 + U.data.length := by omega
        rw [e, hxA] at h
        exact account_inner_ne_underscore _ (by omega) (by omega) h.symm
      · apply hinf
        apply window_occurs U.data "_account".data (p - 5) 8
        apply List.ext_getElem?
        intro m
        rcases Nat.lt_or_ge m 8 with hm | hm
        · rw [List.getElem?_take_of_lt hm, List.getElem?_drop, ← hxU _ (by omega)]
          have h := hget m hm
          have e : 5 + (p - 5 + m) = p + m := by omega
          rw [e]
          exact h
        · rw [List.getElem?_eq_none (by simp; omega), List.getElem?_eq_none (by omega)]

/-- C1: for every non-empty user part `U` that contains no `_account` and does not begin
with `account`, and every non-empty session part `S`, `ExtractUserInfo` on
`user_<U>_account__session_<S>` returns exactly `(U, S)`. -/
theorem ExtractUserInfo_canonical (U S : String) (_hU : U ≠ "") (_hS : S ≠ "")
    (hinf : ¬ "_account".data <:+: U.data) (hpre : ¬ "account".data <+: U.data) :
    ExtractUserInfo ⟨"user_" ++ U ++ "_account__session_" ++ S⟩ = some (U, S) :=
  ExtractUserInfo_of_firstAccount U S (no_account_before U S hinf hpre)

/-- Witness for C1 at the spec's own example `user_ABC_account__session_XYZ`. -/
theorem ExtractUserInfo_canonical_witness :
    ExtractUserInfo ⟨"user_" ++ "ABC" ++ "_account__session_" ++ "XYZ"⟩ = some ("ABC", "XYZ") :=
  ExtractUserInfo_canonical "ABC" "XYZ" (by decide) (by decide) (by decide) (by decide)

/-- The defect behind C2 in general: on `user_<U>_account`, with `U` as in the claim,
the loop guard `i < len(parts)-8` excludes the index of the final `_account`, so the
result is `("", "")` for every such `U`. -/
theorem ExtractUserInfo_userOnly_stops_short (U : String)
    (hinf : ¬ "_account".data <:+: U.data) (hpre : ¬ "account".data <+: U.data) :
    ExtractUserInfo ⟨"user_" ++ U ++ "_account"⟩ = some ("", "") := by
  have hP : "user_".data.length = 5 := by decide
  have hA : "_account".data.length = 8 := by decide
  have hdata : ("user_" ++ U ++ "_account").data = "user_".data ++ (U.data ++ "_account".data) := by
    rw [String.data_append, String.data_append, List.append_assoc]
  have hlen : ("user_" ++ U ++ "_account").data.length = 5 + U.data.length + 8 := by
    rw [hdata]
    simp only [List.length_append, hP, hA]
    omega
  have hfmt : (formatUserID U "").data = ("user_" ++ U ++ "_account").data ++ "__session_".data := by
    rw [formatUserID_data, hdata]
    have h0 : "".data = [] := rfl
    rw [h0, List.append_nil]
    simp only [List.append_assoc]
  have hne : "user_" ++ U ++ "_account" ≠ "" := by
    intro h
    rw [h] at hlen
    have h0 : "".data.length = 0 := rfl
    omega
  have htake : ("user_" ++ U ++ "_account").data.take 5 = "user_".data := by
    rw [hdata, ← hP, List.take_left]
  have hbytes : (utf8Bytes ("user_" ++ U ++ "_account")).length > 5 ∧
      (utf8Bytes ("user_" ++ U ++ "_account")).take 5 = utf8Bytes "user_" :=
    ⟨(userLen_bytes_iff _ htake).mpr (by omega), (userPrefix_bytes_iff _).mpr htake⟩
  have hno : ∀ t, 0 ≤ t → t < 5 + U.data.length →
      runeSlice ("user_" ++ U ++ "_account").data t (t + 8) ≠ "_account".data := by
    intro t _ ht hw
    apply no_account_before U "" hinf hpre t ht
    rw [runeSlice_window] at hw ⊢
    rw [hfmt, List.drop_append_of_le_length (by omega),
      List.take_append_of_le_length (by rw [List.length_drop]; omega)]
    exact hw
  unfold ExtractUserInfo
  simp only
  rw [if_neg hne, if_pos hbytes,
    accountLoop_skip _ _ 0 (5 + U.data.length) (Nat.zero_le _) (by omega) hno,
    accountLoop_past_end _ _ _ (by omega)]

/-- C2 (code defect): on the repository test's own input `user_<64 hex digits>_account`
the outer loop stops one index short of the final `_account`, so the function returns
`("", "")` where the test expects the user id. -/
theorem ExtractUserInfo_userOnly_test_input :
    ExtractUserInfo
      ⟨"user_4d9e1ae2fbecbcb2af13c108249fe9dcd2c3dc9f9bb8a482196b2fea322b71d9_account"⟩ =
      some ("", "") := by
  decide

/-- C3 (as stated, refuted): `user_ABC_accountX` does not match
`^user_(.+?)_account__session_(.+)$`, yet the function returns the user id `ABC`, as
the repository's user-without-session case intends. -/
theorem ExtractUserInfo_mismatch_counterexample :
    ¬ matchesCanonicalShape "user_ABC_accountX" ∧
      ExtractUserInfo ⟨"user_ABC_accountX"⟩ = some ("ABC", "") ∧
      ExtractUserInfo ⟨"user_ABC_accountX"⟩ ≠ some ("", "") := by
  refine ⟨?_, by decide, by decide⟩
  rintro ⟨u, s, _, _, _, _, h⟩
  have hlen := formatUserID_length u s
  rw [← h] at hlen
  have h17 : "user_ABC_accountX".data.length = 17 := by decide
  omega

/-- C3 (amended): a user id that does not begin with `user_`, or contains no occurrence
of `_account`, yields `("", "")`; the empty string and `user_12345` are such ids. -/
theorem ExtractUserInfo_parse_failure (x : String)
    (h : ¬ "user_".data <+: x.data ∨ ¬ "_account".data <:+: x.data) :
    ExtractUserInfo ⟨x⟩ = some ("", "") := by
  unfold ExtractUserInfo
  simp only
  split_ifs with h1 h2
  · rfl
  · rcases h with h | h
    · exfalso
      apply h
      have := (userPrefix_bytes_iff x).mp h2.2
      rw [← this]
      exact List.take_prefix _ _
    · apply accountLoop_none
      intro t _ hw
      rw [runeSlice_window] at hw
      exact h (window_occurs _ _ t 8 hw)
  · rfl

/-- Witness for C3 (amended) at the two ids the claim names. -/
theorem ExtractUserInfo_parse_failure_witness :
    ExtractUserInfo ⟨""⟩ = some ("", "") ∧ ExtractUserInfo ⟨"user_12345"⟩ = some ("", "") :=
  ⟨ExtractUserInfo_parse_failure "" (Or.inl (by decide)),
    ExtractUserInfo_parse_failure "user_12345" (Or.inr (by decide))⟩

/-- C4 (as stated, refuted in both directions): `user_A_account__session_` is a fixed
point of parse-then-reformat without matching `^user_(.+?)_account__session_(.+)$`,
and `user_A_accountB_account__session_S` matches it without being a fixed point. -/
theorem roundtrip_counterexample :
    (ExtractUserInfo ⟨"user_A_account__session_"⟩ = some ("A", "") ∧
        formatUserID "A" "" = "user_A_account__session_" ∧
        ¬ matchesCanonicalShape "user_A_account__session_") ∧
      (ExtractUserInfo ⟨"user_A_accountB_account__session_S"⟩ = some ("A", "S") ∧
        formatUserID "A" "S" ≠ "user_A_accountB_account__session_S" ∧
        matchesCanonicalShape "user_A_accountB_account__session_S") := by
  refine ⟨⟨by decide, by decide, ?_⟩, by decide, by decide, ?_⟩
  · rintro ⟨u, s, hu, hs, _, _, h⟩
    have hlen := formatUserID_length u s
    rw [← h] at hlen
    have h24 : "user_A_account__session_".data.length = 24 := by decide
    have hu1 : u.data.length ≠ 0 := fun h0 =>
      hu (string_eq_empty_of_data u (List.length_eq_zero.mp h0))
    have hs1 : s.data.length ≠ 0 := fun h0 =>
      hs (string_eq_empty_of_data s (List.length_eq_zero.mp h0))
    omega
  · exact ⟨"A_accountB", "S", by decide, by decide, by decide, by decide, by decide⟩

/-- C4 (amended): whenever `ExtractUserInfo x` returns a pair `(u, s)`, reformatting it
with the canonical template gives back `x` exactly when `x` is
`user_<u>_account__session_<s>` with that `_account` the first one in `x` (either part
may be empty). -/
theorem roundtrip_iff_firstAccountShape (x u s : String)
    (hx : ExtractUserInfo ⟨x⟩ = some (u, s)) :
    formatUserID u s = x ↔ firstAccountShape x := by
  constructor
  · intro h
    refine ⟨u, s, h.symm, ?_⟩
    subst h
    rw [ExtractUserInfo_format_eq] at hx
    have hlen := formatUserID_length u s
    have hwin := formatUserID_window u s
    rcases accountLoop_cases (formatUserID u s).data (formatUserID u s).data.length 0
      (by omega) with ⟨_, hnone⟩ | ⟨k, _, hk, _, hfirst, hres⟩
    · exact absurd hwin (hnone (5 + u.data.length) (Nat.zero_le _) (by omega))
    · rw [hx] at hres
      by_cases hk5 : k < 5
      · rw [if_pos hk5] at hres
        exact absurd hres (by simp)
      · rw [if_neg hk5] at hres
        have hu : u = String.mk (runeSlice (formatUserID u s).data 5 k) :=
          congrArg Prod.fst (Option.some.inj hres)
        have hul : u.data.length = k - 5 := by
          have := congrArg (fun t : String => t.data.length) hu
          simp only [runeSlice, List.length_take, List.length_drop] at this
          omega
        intro p hp
        exact hfirst p (Nat.zero_le _) (by omega)
  · rintro ⟨u', s', hx', hno⟩
    subst hx'
    rw [ExtractUserInfo_of_firstAccount u' s' hno] at hx
    have h := Option.some.inj hx
    have h1 : u' = u := congrArg Prod.fst h
    have h2 : s' = s := congrArg Prod.snd h
    rw [h1, h2]

/-- Witness for C4 (amended) at `user_A_account__session_`, parsed to `("A", "")`. -/
theorem roundtrip_iff_firstAccountShape_witness :
    formatUserID "A" "" = "user_A_account__session_" ↔
      firstAccountShape "user_A_account__session_" :=
  roundtrip_iff_firstAccountShape "user_A_account__session_" "A" "" (by decide)

/-! ## `extractDifficultyLevel` -/

theorem scanLevelDigit_range (text : List Char) (level : Int)
    (h : scanLevelDigit text = some level) : 1 ≤ level ∧ level ≤ 5 := by
  unfold scanLevelDigit at h
  cases hf : text.find? isLevelDigit with
  | none => rw [hf] at h; simp at h
  | some c =>
    rw [hf] at h
    simp only [Option.map_some', Option.some.injEq] at h
    have hc := List.find?_some hf
    unfold isLevelDigit at hc
    have hc2 : '1' ≤ c ∧ c ≤ '5' := of_decide_eq_true hc
    have h1 : (49 : Nat) ≤ c.toNat := hc2.1
    have h5 : c.toNat ≤ (53 : Nat) := hc2.2
    have h0 : ('0'.toNat : Int) = 48 := by decide
    rw [h0] at h
    omega

theorem extractLevelFromText_range (response : String) :
    1 ≤ extractLevelFromText response ∧ extractLevelFromText response ≤ 5 := by
  unfold extractLevelFromText
  simp only
  split
  · next level hl =>
    split at hl
    · split at hl
      · exact scanLevelDigit_range _ _ hl
      · exact absurd hl (by simp)
    · exact absurd hl (by simp)
  · split
    · next level hl => exact scanLevelDigit_range _ _ hl
    · exact ⟨by decide, by decide⟩

theorem extractLevelWhole_range (jsonUnmarshal : String → Int → Bool × Int) (response : String)
    (current : Int) :
    1 ≤ extractLevelWhole jsonUnmarshal response current ∧
      extractLevelWhole jsonUnmarshal response current ≤ 5 := by
  unfold extractLevelWhole
  simp only
  split_ifs with h
  · exact h.2
  · exact extractLevelFromText_range response

theorem extractDifficultyLevel_range (jsonUnmarshal : String → Int → Bool × Int)
    (response : String) :
    1 ≤ (extractDifficultyLevel jsonUnmarshal response).1 ∧
      (extractDifficultyLevel jsonUnmarshal response).1 ≤ 5 := by
  unfold extractDifficultyLevel
  simp only
  split_ifs with h1 h2
  · exact h2.2
  · exact extractLevelWhole_range _ _ _
  · exact extractLevelWhole_range _ _ _

/-- C5: whatever the evaluator's text and whatever `json.Unmarshal` does with it,
`extractDifficultyLevel` returns a level in `1..5`, so `doRequest` never takes its
`level < 1 || level > 5` error branch. -/
theorem extractDifficultyLevel_level_valid (jsonUnmarshal : String → Int → Bool × Int) :
    (∀ response : String,
        (extractDifficultyLevel jsonUnmarshal response).1 ∈ ({1, 2, 3, 4, 5} : Set Int)) ∧
      ∀ (statusCode : Int) (claudeResp : Option (List ReplyContent)) (level : Int),
        doRequestFinish jsonUnmarshal statusCode claudeResp ≠ .error (.invalidLevel level) := by
  constructor
  · intro response
    have h := extractDifficultyLevel_range jsonUnmarshal response
    simp only [Set.mem_insert_iff, Set.mem_singleton_iff]
    omega
  · intro statusCode claudeResp level
    unfold doRequestFinish
    split_ifs with h1
    · simp
    · split
      · simp
      · simp
      · next first rest =>
        have h := extractDifficultyLevel_range jsonUnmarshal first.Text
        split_ifs with h2
        · simp
        · simp only
          split_ifs with h3
          · omega
          · simp

/-! ## The session context store -/

theorem lastN_length {α : Type} (n : Nat) (l : List α) : (lastN n l).length = min l.length n := by
  unfold lastN
  rw [List.length_drop]
  omega

theorem lastN_append_singleton {α : Type} (n : Nat) (l : List α) (x : α) :
    lastN n (lastN n l ++ [x]) = lastN n (l ++ [x]) := by
  have hlen := lastN_length n l
  unfold lastN at hlen ⊢
  have hd : l.drop (l.length - n) ++ [x] = (l ++ [x]).drop (l.length - n) := by
    rw [List.drop_append_of_le_length (by omega)]
  rw [hd, List.drop_drop]
  congr 1
  simp only [List.length_drop, List.length_append, List.length_singleton]
  omega

/-- One `UpdateContext` call appends under its own key, keeping the last `maxHistory`
entries, and leaves every other key alone. -/
theorem storedHistory_UpdateContext (cm : ContextManager) (u s : String) (x : RequestSummary)
    (key : String) :
    storedHistory (cm.UpdateContext u s x) key =
      if key = contextKey u s then lastN cm.maxHistory (storedHistory cm key ++ [x])
      else storedHistory cm key := by
  unfold ContextManager.UpdateContext storedHistory
  simp only
  by_cases hk : key = contextKey u s
  · subst hk
    simp only [if_true]
    have htrim : ∀ l : List RequestSummary,
        (if l.length > cm.maxHistory then l.drop (l.length - cm.maxHistory) else l) =
          lastN cm.maxHistory l := by
      intro l
      unfold lastN
      split_ifs with h
      · rfl
      · have : l.length - cm.maxHistory = 0 := by omega
        rw [this, List.drop_zero]
    rw [htrim]
    cases cm.contexts (contextKey u s) <;> rfl
  · simp only [if_neg hk]

theorem maxHistory_UpdateContext (cm : ContextManager) (u s : String) (x : RequestSummary) :
    (cm.UpdateContext u s x).maxHistory = cm.maxHistory := rfl

theorem applyUpdates_snoc (cm : ContextManager) (calls : List UpdateCall) (c : UpdateCall) :
    applyUpdates cm (calls ++ [c]) =
      (applyUpdates cm calls).UpdateContext c.userID c.sessionID c.summary := by
  unfold applyUpdates
  rw [List.foldl_append]
  rfl

theorem maxHistory_applyUpdates (cm : ContextManager) (calls : List UpdateCall) :
    (applyUpdates cm calls).maxHistory = cm.maxHistory := by
  induction calls using List.reverseRecOn with
  | nil => rfl
  | append_singleton calls c ih => rw [applyUpdates_snoc, maxHistory_UpdateContext, ih]

theorem appendedUnder_snoc (key : String) (calls : List UpdateCall) (c : UpdateCall) :
    appendedUnder key (calls ++ [c]) =
      if key = contextKey c.userID c.sessionID then appendedUnder key calls ++ [c.summary]
      else appendedUnder key calls := by
  unfold appendedUnder
  rw [List.filter_append, List.map_append]
  by_cases hk : key = contextKey c.userID c.sessionID
  · simp [hk]
  · have hk2 : ¬ contextKey c.userID c.sessionID = key := fun h => hk h.symm
    simp [hk, hk2]

/-- From the empty store, the history under a key is the last ten summaries appended
under that key. -/
theorem storedHistory_applyUpdates (calls : List UpdateCall) (key : String) :
    storedHistory (applyUpdates NewContextManager calls) key =
      lastN 10 (appendedUnder key calls) := by
  induction calls using List.reverseRecOn with
  | nil => rfl
  | append_singleton calls c ih =>
    rw [applyUpdates_snoc, storedHistory_UpdateContext, maxHistory_applyUpdates,
      appendedUnder_snoc, ih]
    have h10 : NewContextManager.maxHistory = 10 := rfl
    rw [h10]
    split_ifs with hk
    · exact lastN_append_singleton 10 _ _
    · rfl

/-- C6: starting from an empty `ContextManager`, after any sequence of `UpdateContext`
calls the history stored under a store key has at most 10 entries and is the last
`min(n, 10)` of the `n` summaries appended under that key, in insertion order; and one
more append to a history of size 10 gives a history of size 10 that dropped the oldest
entry and ends with the new summary. -/
theorem UpdateContext_history_window (calls : List UpdateCall) (key : String) :
    (storedHistory (applyUpdates NewContextManager calls) key).length ≤ 10 ∧
      (storedHistory (applyUpdates NewContextManager calls) key).length =
        min (appendedUnder key calls).length 10 ∧
      storedHistory (applyUpdates NewContextManager calls) key =
        lastN (min (appendedUnder key calls).length 10) (appendedUnder key calls) ∧
      ∀ (u s : String) (x : RequestSummary), contextKey u s = key →
        (storedHistory (applyUpdates NewContextManager calls) key).length = 10 →
        (storedHistory ((applyUpdates NewContextManager calls).UpdateContext u s x) key).length
            = 10 ∧
          storedHistory ((applyUpdates NewContextManager calls).UpdateContext u s x) key =
            (storedHistory (applyUpdates NewContextManager calls) key).tail ++ [x] := by
  have hst := storedHistory_applyUpdates calls key
  have hlen : (storedHistory (applyUpdates NewContextManager calls) key).length =
      min (appendedUnder key calls).length 10 := by
    rw [hst, lastN_length]
  refine ⟨by omega, hlen, ?_, ?_⟩
  · rw [hst]
    unfold lastN
    congr 1
    omega
  · intro u s x hkey h10
    have hstep : storedHistory ((applyUpdates NewContextManager calls).UpdateContext u s x) key =
        (storedHistory (applyUpdates NewContextManager calls) key).tail ++ [x] := by
      rw [storedHistory_UpdateContext, if_pos hkey.symm, maxHistory_applyUpdates]
      have hm : NewContextManager.maxHistory = 10 := rfl
      rw [hm]
      unfold lastN
      rw [List.length_append, h10]
      cases hh : storedHistory (applyUpdates NewContextManager calls) key with
      | nil => rw [hh] at h10; simp at h10
      | cons a t => rfl
    refine ⟨?_, hstep⟩
    rw [hstep, List.length_append, List.length_tail, h10]
    rfl

/-- Witness for C6: an eleventh append under the key of ten sample calls. -/
theorem UpdateContext_history_window_witness :
    (storedHistory ((applyUpdates NewContextManager sampleCalls).UpdateContext "u" "s"
        (sampleSummary 10)) "u_s").length = 10 ∧
      storedHistory ((applyUpdates NewContextManager sampleCalls).UpdateContext "u" "s"
        (sampleSummary 10)) "u_s" =
        (storedHistory (applyUpdates NewContextManager sampleCalls) "u_s").tail ++
          [sampleSummary 10] :=
  (UpdateContext_history_window sampleCalls "u_s").2.2.2 "u" "s" (sampleSummary 10)
    (by decide) (by decide)

/-! ## Routing by difficulty level -/

/-- C7: for every level `L` in `1..5`, when `difficulty_mapping[L]` is the id of a
configured service the routing step forwards to a configured service with exactly that
id (the first such in the registry); when the map has no entry for `L`, or the mapped
id is not in the registry, it returns an error and forwards to no provider. -/
theorem routeByLevel_selects_mapped (cfg : Config) (L : Int) (stream : Bool)
    (_hL : 1 ≤ L ∧ L ≤ 5) :
    (∀ id, cfg.DifficultyMapping (fmtInt L) = some id →
        (∃ svc ∈ cfg.Services, svc.ID = id) →
        ∃ fwd, routeByLevel cfg L stream = .ok fwd ∧ fwd.service ∈ cfg.Services ∧
          fwd.service.ID = id ∧
          cfg.Services.find? (fun s => s.ID = id) = some fwd.service) ∧
      (cfg.DifficultyMapping (fmtInt L) = none →
        routeByLevel cfg L stream = .error (.noMapping L)) ∧
      (∀ id, cfg.DifficultyMapping (fmtInt L) = some id →
        (∀ svc ∈ cfg.Services, svc.ID ≠ id) →
        routeByLevel cfg L stream = .error (.targetService (.unknownServiceID id))) := by
  refine ⟨?_, ?_, ?_⟩
  · rintro id hmap ⟨svc, hmem, hid⟩
    cases hf : cfg.Services.find? (fun s => s.ID = id) with
    | none =>
      have := List.find?_eq_none.mp hf svc hmem
      simp [hid] at this
    | some t =>
      have ht := List.find?_some hf
      have htm := List.mem_of_find?_eq_some hf
      have htid : t.ID = id := of_decide_eq_true ht
      cases stream
      · refine ⟨.normal t, ?_, htm, htid, rfl⟩
        unfold routeByLevel GetServiceByID
        simp [hmap, hf]
      · refine ⟨.streaming t, ?_, htm, htid, rfl⟩
        unfold routeByLevel GetServiceByID
        simp [hmap, hf]
  · intro hmap
    unfold routeByLevel
    simp [hmap]
  · intro id hmap hno
    have hf : cfg.Services.find? (fun s => s.ID = id) = none := by
      apply List.find?_eq_none.mpr
      intro svc hmem
      simp [hno svc hmem]
    unfold routeByLevel GetServiceByID
    simp [hmap, hf]

/-- Witness for C7 on the sample configuration: level 2 is forwarded to
`medium-service`, level 4 has no mapping, level 3 maps to an unregistered id. -/
theorem routeByLevel_selects_mapped_witness :
    (∃ fwd, routeByLevel sampleConfig 2 true = .ok fwd ∧ fwd.service ∈ sampleConfig.Services ∧
        fwd.service.ID = "medium-service" ∧
        sampleConfig.Services.find? (fun s => s.ID = "medium-service") = some fwd.service) ∧
      routeByLevel sampleConfig 4 true = .error (.noMapping 4) ∧
      routeByLevel sampleConfig 3 true =
        .error (.targetService (.unknownServiceID "missing-service")) :=
  ⟨(routeByLevel_selects_mapped sampleConfig 2 true (by decide)).1 "medium-service"
      (by decide) ⟨sampleConfig.Services.get ⟨1, by decide⟩, by decide, by decide⟩,
    (routeByLevel_selects_mapped sampleConfig 4 true (by decide)).2.1 (by decide),
    (routeByLevel_selects_mapped sampleConfig 3 true (by decide)).2.2 "missing-service"
      (by decide) (by decide)⟩

/-! ## The request rewriter -/

theorem JsonObject.get_delete_self {V : Type} (m : JsonObject V) (key : String) :
    (m.delete key).get key = none := by
  unfold JsonObject.get JsonObject.delete
  induction m with
  | nil => rfl
  | cons kv m ih =>
    by_cases h : kv.1 = key
    · rw [List.filter_cons_of_neg (by simp [h])]
      exact ih
    · rw [List.filter_cons_of_pos (by simp [h]), List.find?_cons_of_neg _ (by simp [h])]
      exact ih

theorem JsonObject.get_delete_other {V : Type} (m : JsonObject V) (key other : String)
    (hne : other ≠ key) : (m.delete key).get other = m.get other := by
  unfold JsonObject.get JsonObject.delete
  induction m with
  | nil => rfl
  | cons kv m ih =>
    by_cases h : kv.1 = key
    · have h2 : ¬ kv.1 = other := fun e => hne (e.symm.trans h)
      rw [List.filter_cons_of_neg (by simp [h]), List.find?_cons_of_neg _ (by simp [h2])]
      exact ih
    · rw [List.filter_cons_of_pos (by simp [h])]
      by_cases h3 : kv.1 = other
      · rw [List.find?_cons_of_pos _ (by simp [h3]), List.find?_cons_of_pos _ (by simp [h3])]
      · rw [List.find?_cons_of_neg _ (by simp [h3]), List.find?_cons_of_neg _ (by simp [h3])]
        exact ih

/-- For a codec whose encodings decode back to the same values: when the body decodes
and the provider has `supports_thinking = false`, the body the rewriter sends decodes,
by that codec, to an object with no top-level key `thinking` that agrees with the
decoded original under every other key; it is the body of the request
`createTargetRequest` returns. -/
theorem targetBody_strips_thinking {B V : Type} (codec : JsonCodec B V)
    (hcodec : codec.RoundTrips) (service : Service) (hs : service.SupportsThinking = false)
    (body : B) (m : JsonObject V) (hm : codec.unmarshal body = some m) :
    (∃ m2, codec.unmarshal (targetBody codec service body) = some m2 ∧
        m2.get "thinking" = none ∧ ∀ key, key ≠ "thinking" → m2.get key = m.get key) ∧
      ∀ (lib : NetLib) (originalReq : OriginalRequest) (req : TargetRequest B),
        createTargetRequest codec lib originalReq service body = .ok req →
        req.Body = targetBody codec service body := by
  constructor
  · obtain ⟨b, hb, m2, hm2, hget⟩ := hcodec (m.delete "thinking")
    have htb : targetBody codec service body = b := by
      unfold targetBody sanitizeRequestForExecutor
      simp [hs, hm, hb]
    refine ⟨m2, by rw [htb]; exact hm2, ?_, ?_⟩
    · rw [hget, JsonObject.get_delete_self]
    · intro key hkey
      rw [hget, JsonObject.get_delete_other m "thinking" key hkey]
  · intro lib originalReq req hreq
    unfold createTargetRequest at hreq
    cases hp : lib.urlParse service.URL with
    | none => rw [hp] at hreq; simp at hreq
    | some parsed =>
      rw [hp] at hreq
      simp only at hreq
      split_ifs at hreq with hnew
      simp only [Except.ok.injEq] at hreq
      rw [← hreq]

theorem sampleCodec_roundTrips : sampleCodec.RoundTrips :=
  fun m => ⟨m, rfl, m, rfl, fun _ => rfl⟩

/-- The sample body, sent to a provider without thinking support. -/
theorem targetBody_strips_thinking_sample :
    (∃ m2, sampleCodec.unmarshal (targetBody sampleCodec
          ⟨"medium-service", "medium", "https://medium.example.com", "k2", "executor", false⟩
          sampleBody) = some m2 ∧
        m2.get "thinking" = none ∧ ∀ key, key ≠ "thinking" → m2.get key = sampleBody.get key) ∧
      ∀ (lib : NetLib) (originalReq : OriginalRequest) (req : TargetRequest (JsonObject String)),
        createTargetRequest sampleCodec lib originalReq
          ⟨"medium-service", "medium", "https://medium.example.com", "k2", "executor", false⟩
          sampleBody = .ok req →
        req.Body = targetBody sampleCodec
          ⟨"medium-service", "medium", "https://medium.example.com", "k2", "executor", false⟩
          sampleBody :=
  targetBody_strips_thinking sampleCodec sampleCodec_roundTrips
    ⟨"medium-service", "medium", "https://medium.example.com", "k2", "executor", false⟩ rfl
    sampleBody sampleBody rfl

/-- C8 (code defect): the rewriter decodes the body into a `map[string]interface{}`,
where every number becomes a `float64`, and encodes the map again: with the provider's
`supports_thinking` false and the body
`{"model": "x", "thinking": {"type": "enabled"}, "max_tokens": 9007199254740993}`, the
body sent has no `thinking` and the same `model`, but its `max_tokens` is
`9007199254740992`, not the value of the original. -/
theorem targetBody_rounds_large_integer :
    sampleService.SupportsThinking = false ∧
      targetBody (interfaceCodec sampleReadFloat64) sampleService
          [("model", .string "x"), ("thinking", .object [("type", .string "enabled")]),
            ("max_tokens", .number "9007199254740993")] =
        [("max_tokens", .number "9007199254740992"), ("model", .string "x")] ∧
      (∃ req, createTargetRequest (interfaceCodec sampleReadFloat64) sampleLib
          sampleOriginalRequest sampleService
          [("model", .string "x"), ("thinking", .object [("type", .string "enabled")]),
            ("max_tokens", .number "9007199254740993")] = .ok req ∧
        req.Body = [("max_tokens", .number "9007199254740992"), ("model", .string "x")]) ∧
      float64OfInteger 9007199254740993 = 9007199254740992 :=
  ⟨rfl, rfl, ⟨_, rfl, rfl⟩, by decide⟩

/-! ## The streaming relay -/

theorem writtenBytes_write (data : List UInt8) (events : List RelayEvent) :
    writtenBytes (.write data :: events) = data ++ writtenBytes events := by
  simp [writtenBytes, List.flatMap_cons]

theorem writtenBytes_flush (events : List RelayEvent) :
    writtenBytes (.flush :: events) = writtenBytes events := by
  simp [writtenBytes, List.flatMap_cons]

theorem writtenBytes_append_flush (events : List RelayEvent) :
    writtenBytes (events ++ [.flush]) = writtenBytes events := by
  simp [writtenBytes, List.flatMap_append]

/-- A non-empty body is a last line without `\n`, or a first line followed by `\n` and
the rest. -/
theorem cut_at_newline (data : List UInt8) (hne : data ≠ []) :
    (data ≠ [] ∧ ∀ b ∈ data, b ≠ 10) ∨
      ∃ line rest, (∀ b ∈ line, b ≠ 10) ∧ data = line ++ 10 :: rest := by
  induction data with
  | nil => exact absurd rfl hne
  | cons b t ih =>
    by_cases hb : b = 10
    · right
      exact ⟨[], t, by simp, by rw [hb]; rfl⟩
    · by_cases ht : t = []
      · left
        subst ht
        exact ⟨hne, by simpa using hb⟩
      · rcases ih ht with ⟨_, h⟩ | ⟨line, rest, h1, h2⟩
        · left
          refine ⟨hne, ?_⟩
          intro x hx
          rcases List.mem_cons.mp hx with rfl | hx
          · exact hb
          · exact h x hx
        · right
          refine ⟨b :: line, rest, ?_, by rw [h2]; rfl⟩
          intro x hx
          rcases List.mem_cons.mp hx with rfl | hx
          · exact hb
          · exact h1 x hx

theorem takeWhile_line (line rest : List UInt8) (hline : ∀ b ∈ line, b ≠ 10) :
    (line ++ 10 :: rest).takeWhile (fun b => b ≠ 10) = line := by
  induction line with
  | nil => simp
  | cons b t ih =>
    have hb : b ≠ 10 := hline b (List.mem_cons_self _ _)
    rw [List.cons_append, List.takeWhile_cons_of_pos (by simp [hb]),
      ih (fun x hx => hline x (List.mem_cons_of_mem _ hx))]

theorem takeWhile_last (line : List UInt8) (hline : ∀ b ∈ line, b ≠ 10) :
    line.takeWhile (fun b => b ≠ 10) = line := by
  induction line with
  | nil => rfl
  | cons b t ih =>
    have hb : b ≠ 10 := hline b (List.mem_cons_self _ _)
    rw [List.takeWhile_cons_of_pos (by simp [hb]),
      ih (fun x hx => hline x (List.mem_cons_of_mem _ hx))]

theorem scanLine_line (line rest : List UInt8) (hline : ∀ b ∈ line, b ≠ 10)
    (hshort : line.length < maxScanTokenSize) :
    scanLine (line ++ 10 :: rest) = .token (dropCR line) rest := by
  unfold scanLine
  simp only
  have hdrop : (line ++ 10 :: rest).drop (line.length + 1) = rest := by
    have h1 : line ++ 10 :: rest = (line ++ [10]) ++ rest := by simp
    have h2 : line.length + 1 = (line ++ [10]).length := by simp
    rw [h1, h2, List.drop_left]
  rw [if_neg (by simp), takeWhile_line line rest hline, if_neg (Nat.not_le.mpr hshort), hdrop]

theorem scanLine_last (line : List UInt8) (hne : line ≠ []) (hline : ∀ b ∈ line, b ≠ 10)
    (hshort : line.length < maxScanTokenSize) :
    scanLine line = .token (dropCR line) [] := by
  unfold scanLine
  simp only
  rw [if_neg hne, takeWhile_last line hline, if_neg (Nat.not_le.mpr hshort),
    List.drop_eq_nil_of_le (Nat.le_succ _)]

theorem splitLinesFrom_line (line rest cur : List UInt8) (hline : ∀ b ∈ line, b ≠ 10) :
    splitLinesFrom (line ++ 10 :: rest) cur = (cur ++ line) :: splitLinesFrom rest [] := by
  induction line generalizing cur with
  | nil =>
    simp [splitLinesFrom]
  | cons b t ih =>
    have hb : b ≠ 10 := hline b (List.mem_cons_self _ _)
    rw [List.cons_append, splitLinesFrom, if_neg hb,
      ih (cur ++ [b]) (fun x hx => hline x (List.mem_cons_of_mem _ hx))]
    simp

theorem splitLinesFrom_last (line cur : List UInt8) (hline : ∀ b ∈ line, b ≠ 10) :
    splitLinesFrom line cur = if cur ++ line = [] then [] else [cur ++ line] := by
  induction line generalizing cur with
  | nil =>
    simp [splitLinesFrom]
  | cons b t ih =>
    have hb : b ≠ 10 := hline b (List.mem_cons_self _ _)
    rw [splitLinesFrom, if_neg hb,
      ih (cur ++ [b]) (fun x hx => hline x (List.mem_cons_of_mem _ hx))]
    simp

theorem bodyLines_line (line rest : List UInt8) (hline : ∀ b ∈ line, b ≠ 10) :
    bodyLines (line ++ 10 :: rest) = line :: bodyLines rest := by
  unfold bodyLines
  rw [splitLinesFrom_line _ _ _ hline, List.nil_append]

theorem bodyLines_last (line : List UInt8) (hne : line ≠ []) (hline : ∀ b ∈ line, b ≠ 10) :
    bodyLines line = [line] := by
  unfold bodyLines
  rw [splitLinesFrom_last _ _ hline, List.nil_append, if_neg hne]

theorem relayLoop_nil (fuel : Nat) : relayLoop fuel [] = ([], false) := by
  cases fuel <;> simp [relayLoop, scanLine]

/-- With every line shorter than the scanner's buffer, the loop ends without error and
has written each line, stripped of one trailing `\r`, followed by `\n`. -/
theorem relayLoop_written (fuel : Nat) (data : List UInt8) (hfuel : data.length < fuel)
    (hshort : ∀ line ∈ bodyLines data, line.length < maxScanTokenSize) :
    (relayLoop fuel data).2 = false ∧
      writtenBytes (relayLoop fuel data).1 =
        (bodyLines data).flatMap (fun line => dropCR line ++ [10]) := by
  induction fuel generalizing data with
  | zero => omega
  | succ f ih =>
    by_cases hnil : data = []
    · subst hnil
      simp [relayLoop, scanLine, bodyLines, splitLinesFrom, writtenBytes]
    · rcases cut_at_newline data hnil with ⟨hne, hline⟩ | ⟨line, rest, hline, hcut⟩
      · have hlines := bodyLines_last data hne hline
        have hlt := hshort data (by rw [hlines]; exact List.mem_singleton_self _)
        unfold relayLoop
        rw [scanLine_last data hne hline hlt]
        simp only [relayLoop_nil]
        refine ⟨trivial, ?_⟩
        rw [hlines, writtenBytes_write]
        split_ifs <;> simp [writtenBytes]
      · subst hcut
        have hlines := bodyLines_line line rest hline
        have hlt := hshort line (by rw [hlines]; exact List.mem_cons_self _ _)
        have hrec := ih rest (by simp at hfuel; omega)
          (fun l hl => hshort l (by rw [hlines]; exact List.mem_cons_of_mem _ hl))
        unfold relayLoop
        rw [scanLine_line line rest hline hlt]
        simp only
        refine ⟨hrec.1, ?_⟩
        rw [hlines, writtenBytes_write, List.flatMap_cons]
        split_ifs
        · rw [writtenBytes_flush, hrec.2]
        · rw [hrec.2]

theorem scanLine_rest_shorter (data line rest : List UInt8)
    (h : scanLine data = .token line rest) : rest.length < data.length := by
  unfold scanLine at h
  simp only at h
  split_ifs at h with h1 h2
  simp only [ScanResult.token.injEq] at h
  rw [← h.2, List.length_drop]
  have : 0 < data.length := List.length_pos.mpr h1
  omega

/-- The relay loop gives the same result for any two fuels above the body length. -/
theorem relayLoop_fuel (fuel1 fuel2 : Nat) (data : List UInt8)
    (h1 : data.length < fuel1) (h2 : data.length < fuel2) :
    relayLoop fuel1 data = relayLoop fuel2 data := by
  induction fuel1 generalizing fuel2 data with
  | zero => omega
  | succ f ih =>
    cases fuel2 with
    | zero => omega
    | succ g =>
      unfold relayLoop
      cases hs : scanLine data with
      | eof => rfl
      | tooLong => rfl
      | token line rest =>
        have hlt := scanLine_rest_shorter data line rest hs
        simp only
        rw [ih g rest (by omega) (by omega)]

theorem bodyLines_join (lines : List (List UInt8)) (hlines : ∀ l ∈ lines, ∀ b ∈ l, b ≠ 10) :
    bodyLines (lines.flatMap (fun l => l ++ [10])) = lines := by
  induction lines with
  | nil => rfl
  | cons l rest ih =>
    have h1 : (l :: rest).flatMap (fun l => l ++ [10]) =
        l ++ 10 :: rest.flatMap (fun l => l ++ [10]) := by
      simp [List.flatMap_cons]
    rw [h1, bodyLines_line _ _ (hlines l (List.mem_cons_self _ _)),
      ih (fun x hx => hlines x (List.mem_cons_of_mem _ hx))]

theorem flatMap_dropCR_id (lines : List (List UInt8))
    (hcr : ∀ l ∈ lines, l.getLast? ≠ some 13) :
    lines.flatMap (fun l => dropCR l ++ [10]) = lines.flatMap (fun l => l ++ [10]) := by
  induction lines with
  | nil => rfl
  | cons l rest ih =>
    have hl : dropCR l = l := by
      unfold dropCR
      rw [if_neg (hcr l (List.mem_cons_self _ _))]
    rw [List.flatMap_cons, List.flatMap_cons, hl,
      ih (fun x hx => hcr x (List.mem_cons_of_mem _ hx))]

/-- C9 (as stated, refuted): the upstream body `a\r\n` is a single `\n`-terminated
line, yet the relay writes `a\n`: neither the body byte-for-byte nor its lines each
followed by `\n`. -/
theorem relayStream_crlf_counterexample :
    writtenBytes (relayStream true [97, 13, 10]).1 = [97, 10] ∧
      (bodyLines [97, 13, 10]).flatMap (fun line => line ++ [10]) = [97, 13, 10] ∧
      writtenBytes (relayStream true [97, 13, 10]).1 ≠
        (bodyLines [97, 13, 10]).flatMap (fun line => line ++ [10]) ∧
      writtenBytes (relayStream true [97, 13, 10]).1 ≠ [97, 13, 10] := by
  decide

/-- C9 (amended): for every upstream body whose lines (the body split at `\n`) are each
shorter than the scanner's buffer, the relay ends without error and the bytes written
downstream are, in upstream order, the lines each stripped of one trailing `\r` and
followed by `\n`; so a body made only of `\n`-terminated lines, none ending in `\r`, is
relayed byte-for-byte. -/
theorem relayStream_written (body : List UInt8)
    (hshort : ∀ line ∈ bodyLines body, line.length < maxScanTokenSize) :
    (relayStream true body).2 = none ∧
      writtenBytes (relayStream true body).1 =
        (bodyLines body).flatMap (fun line => dropCR line ++ [10]) ∧
      ∀ lines : List (List UInt8), body = lines.flatMap (fun l => l ++ [10]) →
        (∀ l ∈ lines, (∀ b ∈ l, b ≠ 10) ∧ l.getLast? ≠ some 13) →
        writtenBytes (relayStream true body).1 = body := by
  have hloop := relayLoop_written (body.length + 1) body (Nat.lt_succ_self _) hshort
  have hstream : relayStream true body = ((relayLoop (body.length + 1) body).1 ++ [.flush], none) := by
    unfold relayStream
    simp [hloop.1]
  have hw : writtenBytes (relayStream true body).1 =
      (bodyLines body).flatMap (fun line => dropCR line ++ [10]) := by
    rw [hstream, writtenBytes_append_flush, hloop.2]
  refine ⟨by rw [hstream], hw, ?_⟩
  intro lines hbody hl
  rw [hw]
  conv_rhs => rw [hbody]
  rw [hbody, bodyLines_join lines (fun l h => (hl l h).1),
    flatMap_dropCR_id lines (fun l h => (hl l h).2)]

/-- Witness for C9 (amended) on the body `a\n\nb\n`. -/
theorem relayStream_written_witness :
    (relayStream true [97, 10, 10, 98, 10]).2 = none ∧
      writtenBytes (relayStream true [97, 10, 10, 98, 10]).1 =
        (bodyLines [97, 10, 10, 98, 10]).flatMap (fun line => dropCR line ++ [10]) ∧
      ∀ lines : List (List UInt8), [97, 10, 10, 98, 10] = lines.flatMap (fun l => l ++ [10]) →
        (∀ l ∈ lines, (∀ b ∈ l, b ≠ 10) ∧ l.getLast? ≠ some 13) →
        writtenBytes (relayStream true [97, 10, 10, 98, 10]).1 = [97, 10, 10, 98, 10] :=
  relayStream_written [97, 10, 10, 98, 10] (by decide)

/-! ## Warm-up detection -/

/-- C10: `IsWarmupRequest` holds exactly when the request has a first message, that
message has role `user`, and one of its content blocks has type `text` and text equal
to `Warmup`; it is false for an empty message array and for a text that only contains
`Warmup`. -/
theorem IsWarmupRequest_iff (req : ClaudeRequest) :
    (IsWarmupRequest req = true ↔
        ∃ first rest, req.Messages = first :: rest ∧ first.Role = "user" ∧
          ∃ block ∈ first.Content, block.Type_ = "text" ∧ block.Text = "Warmup") ∧
      IsWarmupRequest { req with Messages := [] } = false ∧
      IsWarmupRequest
        { req with Messages := [⟨"user", [⟨"text", "Warmup please", ⟨""⟩⟩]⟩] } = false := by
  refine ⟨?_, ?_, ?_⟩
  · unfold IsWarmupRequest
    cases hm : req.Messages with
    | nil => simp
    | cons first rest =>
      simp only [List.cons.injEq, exists_and_left, exists_and_right]
      by_cases hr : first.Role = "user"
      · simp [hr]
      · simp [hr]
  · rfl
  · rfl


/-! ## Auxiliary content -/

theorem indexFrom_isSome_iff (substr l : List Char) (i : Nat) :
    (indexFrom substr l i).isSome = true ↔ substr <:+: l := by
  induction l generalizing i with
  | nil =>
    unfold indexFrom
    by_cases h : substr = []
    · simp [h]
    · simp [h]
  | cons c cs ih =>
    unfold indexFrom
    by_cases hp : substr.isPrefixOf (c :: cs) = true
    · rw [if_pos hp]
      have hpre : substr <+: c :: cs := List.isPrefixOf_iff_prefix.mp hp
      simp only [Option.isSome_some, true_iff]
      exact hpre.isInfix
    · rw [if_neg hp, ih (i + 1), List.infix_cons_iff]
      constructor
      · intro h
        exact Or.inr h
      · rintro (h | h)
        · exact absurd ( List.isPrefixOf_iff_prefix.mpr h) hp
        · exact h

/-- The model of `strings.Contains` decides occurrence as a contiguous substring. -/
theorem stringsContains_iff (s substr : String) :
    stringsContains s substr = true ↔ substr.data <:+: s.data := by
  unfold stringsContains
  exact indexFrom_isSome_iff _ _ 0

/-- The model of `strings.HasPrefix` decides beginning with a string. -/
theorem stringsHasPrefix_iff (s pre : String) :
    stringsHasPrefix s pre = true ↔ pre.data <+: s.data := by
  unfold stringsHasPrefix
  exact List.isPrefixOf_iff_prefix

/-- C17: `isAuxiliaryContent t` is true if and only if `t` contains one of
`<system-reminder>`, `<tool_result>`, `tool_result`, `<command-name>`,
`<local-command-stdout>`, `tool_use_id` (compared character by character), or begins
with one of `User has answered your questions:`, `File created successfully`,
`Todos have been modified`. -/
theorem isAuxiliaryContent_iff (t : String) :
    isAuxiliaryContent t = true ↔
      ("<system-reminder>".data <:+: t.data ∨ "<tool_result>".data <:+: t.data ∨
        "tool_result".data <:+: t.data ∨ "<command-name>".data <:+: t.data ∨
        "<local-command-stdout>".data <:+: t.data ∨ "tool_use_id".data <:+: t.data) ∨
      ("User has answered your questions:".data <+: t.data ∨
        "File created successfully".data <+: t.data ∨
        "Todos have been modified".data <+: t.data) := by
  rw [← stringsContains_iff t "<system-reminder>", ← stringsContains_iff t "<tool_result>",
    ← stringsContains_iff t "tool_result", ← stringsContains_iff t "<command-name>",
    ← stringsContains_iff t "<local-command-stdout>", ← stringsContains_iff t "tool_use_id",
    ← stringsHasPrefix_iff t "User has answered your questions:",
    ← stringsHasPrefix_iff t "File created successfully",
    ← stringsHasPrefix_iff t "Todos have been modified"]
  unfold isAuxiliaryContent
  split_ifs with h1 h2 h3 h4 h5
  · simp only [h1, true_or]
  · rw [Bool.or_eq_true] at h2
    simp only [true_iff]
    tauto
  · rw [Bool.or_eq_true] at h3
    simp only [true_iff]
    tauto
  · simp only [h4, true_or, or_true]
  · rw [Bool.or_eq_true, Bool.or_eq_true] at h5
    simp only [true_iff]
    tauto
  · rw [Bool.or_eq_true] at h2 h3
    rw [Bool.or_eq_true, Bool.or_eq_true] at h5
    simp only [Bool.false_eq_true, false_iff]
    tauto

/-! ## The intent extractor -/

theorem intentTexts_cons (b : ContentBlock) (rest : List ContentBlock) :
    intentTexts ⟨"user", b :: rest⟩ =
      (if b.Type_ = "text" ∧ isAuxiliaryContent (stringsTrimSpace b.Text) = false ∧
          stringsTrimSpace b.Text ≠ "" then [stringsTrimSpace b.Text] else []) ++
        intentTexts ⟨"user", rest⟩ := by
  unfold intentTexts
  by_cases ht : b.Type_ = "text"
  · rw [List.filter_cons_of_pos (by simp [ht]), List.map_cons]
    by_cases hk : isAuxiliaryContent (stringsTrimSpace b.Text) = false ∧
        stringsTrimSpace b.Text ≠ ""
    · rw [List.filter_cons_of_pos (by simp [hk.1, hk.2]), if_pos ⟨ht, hk⟩]
      rfl
    · rw [List.filter_cons_of_neg (by simpa using hk), if_neg (fun h => hk h.2)]
      rfl
  · rw [List.filter_cons_of_neg (by simp [ht]), if_neg (fun h => ht h.1)]
    rfl

theorem collectUserTexts_eq (blocks : List ContentBlock) (userTexts : List String) :
    collectUserTexts blocks userTexts = userTexts ++ intentTexts ⟨"user", blocks⟩ := by
  induction blocks generalizing userTexts with
  | nil => simp [collectUserTexts, intentTexts]
  | cons b rest ih =>
    rw [intentTexts_cons]
    conv_lhs => unfold collectUserTexts
    by_cases ht : b.Type_ = "text"
    · by_cases ha : isAuxiliaryContent (stringsTrimSpace b.Text) = true
      · rw [if_neg (by simp [ht]), if_pos ha, if_neg (by simp [ha]), ih, List.nil_append]
      · by_cases he : stringsTrimSpace b.Text = ""
        · rw [if_neg (by simp [ht]), if_neg ha, if_neg (by simp [he]), if_neg (by simp [he]), ih,
            List.nil_append]
        · rw [if_neg (by simp [ht]), if_neg ha, if_pos he, if_pos ⟨ht, by simpa using ha, he⟩, ih,
            List.append_assoc]
    · rw [if_pos ht, if_neg (fun h => ht h.1), ih, List.nil_append]

theorem collectUserTexts_message (msg : Message) :
    collectUserTexts msg.Content [] = intentTexts msg := by
  rw [collectUserTexts_eq, List.nil_append]
  rfl

/-- Messages that are not user messages, or have no text that counts, are passed over. -/
theorem extractUserIntentLoop_skip (skipped rest : List Message)
    (h : ∀ m ∈ skipped, m.Role = "user" → intentTexts m = []) :
    extractUserIntentLoop (skipped ++ rest) = extractUserIntentLoop rest := by
  induction skipped with
  | nil => rfl
  | cons m ms ih =>
    have ihm := ih (fun x hx => h x (List.mem_cons_of_mem _ hx))
    rw [List.cons_append]
    conv_lhs => unfold extractUserIntentLoop
    by_cases hr : m.Role = "user"
    · have hm := h m (List.mem_cons_self _ _) hr
      simp only [ne_eq, hr, not_true_eq_false, if_false, collectUserTexts_message, hm,
        List.length_nil, gt_iff_lt, lt_self_iff_false]
      exact ihm
    · simp only [ne_eq, hr, not_false_eq_true, if_true]
      exact ihm

/-- C18 (as stated, refuted): the block text ` hi ` is returned trimmed, and a last
user message whose only text block is blank is passed over for an earlier one. -/
theorem extractUserIntent_trim_counterexample :
    (extractUserIntent [⟨"user", [⟨"text", " hi ", ⟨""⟩⟩]⟩] = "hi" ∧
        statedUserIntent [⟨"user", [⟨"text", " hi ", ⟨""⟩⟩]⟩] = " hi ") ∧
      (extractUserIntent
          [⟨"user", [⟨"text", "first", ⟨""⟩⟩]⟩, ⟨"user", [⟨"text", "  ", ⟨""⟩⟩]⟩] = "first" ∧
        statedUserIntent
          [⟨"user", [⟨"text", "first", ⟨""⟩⟩]⟩, ⟨"user", [⟨"text", "  ", ⟨""⟩⟩]⟩] = "  ") := by
  decide

/-- C18 (amended): when some user message has a `text` block whose trimmed text is
neither empty nor auxiliary, `extractUserIntent` returns the trimmed texts of those
blocks of the last such user message, in block order, joined with single spaces;
assistant messages, other blocks and earlier user messages contribute nothing. -/
theorem extractUserIntent_last_user (before after : List Message) (msg : Message)
    (hrole : msg.Role = "user") (htexts : intentTexts msg ≠ [])
    (hafter : ∀ m ∈ after, m.Role = "user" → intentTexts m = []) :
    extractUserIntent (before ++ msg :: after) = stringsJoin (intentTexts msg) " " := by
  unfold extractUserIntent
  rw [List.reverse_append, List.reverse_cons, List.append_assoc,
    extractUserIntentLoop_skip after.reverse _
      (fun m hm => hafter m (List.mem_reverse.mp hm))]
  rw [List.singleton_append]
  unfold extractUserIntentLoop
  have hpos : (intentTexts msg).length > 0 := List.length_pos.mpr htexts
  simp only [ne_eq, hrole, not_true_eq_false, if_false, collectUserTexts_message, hpos, if_true]

/-- Witness for C18 (amended): an earlier user message, an assistant message, and a
last user message with a trimmed text, an auxiliary block, an image block and a text. -/
theorem extractUserIntent_last_user_witness :
    extractUserIntent
        ([⟨"user", [⟨"text", "first", ⟨""⟩⟩]⟩, ⟨"assistant", [⟨"text", "reply", ⟨""⟩⟩]⟩] ++
          ⟨"user", [⟨"text", " hi ", ⟨""⟩⟩, ⟨"text", "<tool_result>x", ⟨""⟩⟩,
            ⟨"image", "zzz", ⟨""⟩⟩, ⟨"text", "there", ⟨""⟩⟩]⟩ ::
          [⟨"assistant", [⟨"text", "bye", ⟨""⟩⟩]⟩, ⟨"user", [⟨"text", "  ", ⟨""⟩⟩]⟩]) =
      stringsJoin (intentTexts ⟨"user", [⟨"text", " hi ", ⟨""⟩⟩, ⟨"text", "<tool_result>x", ⟨""⟩⟩,
            ⟨"image", "zzz", ⟨""⟩⟩, ⟨"text", "there", ⟨""⟩⟩]⟩) " " :=
  extractUserIntent_last_user _ _ _ (by decide) (by decide) (by decide)

/-! ## The message codec -/

/-- C11: decoding the wire form `{"role": r, "content": s}` with a bare string gives a
message with exactly one content block, of type `text` and text `s`; encoding that
message emits `content` as a one-element array; and decoding the emitted form gives the
same message again. -/
theorem Message_bareString_roundtrip (fold : String → String → Bool) (r s : String) :
    Message.UnmarshalJSON fold (.object [("role", .string r), ("content", .string s)]) =
        .ok ⟨r, [⟨"text", s, ⟨""⟩⟩]⟩ ∧
      (∃ item, Message.MarshalJSON ⟨r, [⟨"text", s, ⟨""⟩⟩]⟩ =
        .object [("role", .string r), ("content", .array [item])]) ∧
      Message.UnmarshalJSON fold (Message.MarshalJSON ⟨r, [⟨"text", s, ⟨""⟩⟩]⟩) =
        .ok ⟨r, [⟨"text", s, ⟨""⟩⟩]⟩ := by
  refine ⟨?_, ⟨encodeContentBlock ⟨"text", s, ⟨""⟩⟩, rfl⟩, ?_⟩
  · simp [Message.UnmarshalJSON, decodeAuxMember, resolveField, decodeStringField,
      decodeContentBlocks, decodeContentString]
  · by_cases hs : s = ""
    · simp [Message.MarshalJSON, encodeContentBlock, Message.UnmarshalJSON, decodeAuxMember,
        resolveField, decodeStringField, decodeContentBlocks, decodeContentBlock,
        decodeContentBlockMember, decodeCacheControl, decodeCacheControlMember, hs]
    · simp [Message.MarshalJSON, encodeContentBlock, Message.UnmarshalJSON, decodeAuxMember,
        resolveField, decodeStringField, decodeContentBlocks, decodeContentBlock,
        decodeContentBlockMember, decodeCacheControl, decodeCacheControlMember, hs]

/-! ## `extractDifficultyLevel`: the fallback chain -/

theorem scanLevelDigit_none (text : List Char)
    (h : ∀ char ∈ text, isLevelDigit char = false) : scanLevelDigit text = none := by
  unfold scanLevelDigit
  have : text.find? isLevelDigit = none := by
    rw [List.find?_eq_none]
    intro x hx
    simp [h x hx]
  rw [this]
  rfl

theorem splitLoop_mem (sep : List Char) (fuel : Nat) (s part : List Char)
    (hpart : part ∈ splitLoop sep fuel s) : ∀ c ∈ part, c ∈ s := by
  induction fuel generalizing s with
  | zero =>
    simp only [splitLoop, List.mem_singleton] at hpart
    subst hpart
    exact fun c hc => hc
  | succ f ih =>
    unfold splitLoop at hpart
    cases hidx : indexFrom sep s 0 with
    | none =>
      rw [hidx] at hpart
      simp only [List.mem_singleton] at hpart
      subst hpart
      exact fun c hc => hc
    | some m =>
      rw [hidx] at hpart
      simp only [List.mem_cons] at hpart
      rcases hpart with h | h
      · subst h
        exact fun c hc => List.mem_of_mem_take hc
      · exact fun c hc => List.mem_of_mem_drop (ih _ h c hc)

theorem stringsTrimSpace_mem (s : String) : ∀ c ∈ (stringsTrimSpace s).data, c ∈ s.data := by
  intro c hc
  unfold stringsTrimSpace at hc
  simp only [List.mem_reverse] at hc
  have h1 := (List.dropWhile_sublist unicodeIsSpace).subset hc
  rw [List.mem_reverse] at h1
  exact (List.dropWhile_sublist unicodeIsSpace).subset h1

/-- Steps 3 to 5 give the default 3 on a text without a digit `1..5`. -/
theorem extractLevelFromText_no_digit (response : String)
    (h : ∀ char ∈ response.data, isLevelDigit char = false) :
    extractLevelFromText response = 3 := by
  unfold extractLevelFromText
  have hlab : (if stringsContains response "difficulty_level" = true then
      match stringsSplit response "difficulty_level" with
      | _ :: valuePart :: _ => scanLevelDigit valuePart.data
      | _ => none
    else none) = none := by
    split_ifs
    · split
      · next valuePart _ hsplit =>
        apply scanLevelDigit_none
        intro char hchar
        apply h
        have hmem : valuePart ∈ stringsSplit response "difficulty_level" := by
          rw [hsplit]
          simp
        unfold stringsSplit at hmem
        rw [List.mem_map] at hmem
        obtain ⟨part, hpart, hmk⟩ := hmem
        subst hmk
        exact splitLoop_mem _ _ _ _ hpart char hchar
      · rfl
    · rfl
  simp only [hlab, scanLevelDigit_none response.data h]

/-- On a text without a digit `1..5`, a decoder that reads the level from the text
leaves an out-of-range level out of range. -/
theorem decoded_out_of_range (jsonUnmarshal : String → Int → Bool × Int)
    (hju : ReadsLevelFromText jsonUnmarshal) (text : String) (current : Int)
    (hcur : current < 1 ∨ current > 5)
    (h : ∀ char ∈ text.data, isLevelDigit char = false) :
    (jsonUnmarshal text current).2 < 1 ∨ (jsonUnmarshal text current).2 > 5 := by
  rcases hju text current with he | hl | hg | ⟨char, hmem, hd⟩
  · rw [he]
    exact hcur
  · exact Or.inl hl
  · exact Or.inr hg
  · rw [h char hmem] at hd
    exact absurd hd (by decide)

theorem extractLevelWhole_no_digit (jsonUnmarshal : String → Int → Bool × Int)
    (hju : ReadsLevelFromText jsonUnmarshal) (response : String) (current : Int)
    (hcur : current < 1 ∨ current > 5)
    (h : ∀ char ∈ response.data, isLevelDigit char = false) :
    extractLevelWhole jsonUnmarshal response current = 3 := by
  unfold extractLevelWhole
  simp only
  have hout := decoded_out_of_range jsonUnmarshal hju response current hcur h
  rw [if_neg (by omega)]
  exact extractLevelFromText_no_digit response h

/-- C19: on a response text without any character in `'1'..'5'`,
`extractDifficultyLevel` returns level 3, for any decoder that can only set the level
to a number written in the text it is given. -/
theorem extractDifficultyLevel_default (jsonUnmarshal : String → Int → Bool × Int)
    (hju : ReadsLevelFromText jsonUnmarshal) (response : String)
    (hno : ∀ char ∈ response.data, isLevelDigit char = false) :
    (extractDifficultyLevel jsonUnmarshal response).1 = 3 := by
  have htrim : ∀ char ∈ (stringsTrimSpace response).data, isLevelDigit char = false :=
    fun char hc => hno char (stringsTrimSpace_mem response char hc)
  have hslice : ∀ lo hi, ∀ char ∈ (String.mk (runeSlice (stringsTrimSpace response).data
      lo hi)).data, isLevelDigit char = false := by
    intro lo hi char hmem
    apply htrim
    unfold runeSlice at hmem
    exact List.mem_of_mem_drop (List.mem_of_mem_take hmem)
  have hfirst := fun lo hi => decoded_out_of_range jsonUnmarshal hju
    (String.mk (runeSlice (stringsTrimSpace response).data lo hi)) 0 (Or.inl (by decide))
    (hslice lo hi)
  unfold extractDifficultyLevel
  simp only
  split_ifs with h1 h2
  · exfalso
    have := hfirst (stringsIndex (stringsTrimSpace response) "\x7b").toNat
      (stringsLastIndex (stringsTrimSpace response) "\x7d" + 1).toNat
    omega
  · exact extractLevelWhole_no_digit jsonUnmarshal hju _ _ (hfirst _ _) htrim
  · exact extractLevelWhole_no_digit jsonUnmarshal hju _ 0 (Or.inl (by decide)) htrim

theorem sampleUnmarshal_reads : ReadsLevelFromText sampleUnmarshal := by
  intro text current
  unfold sampleUnmarshal
  split_ifs with h1 h2
  · right; right; right
    subst h1
    exact ⟨'2', by decide, by decide⟩
  · right; right; left
    decide
  · left
    rfl

/-- Witness for C19 at the spec's two examples: garbage whose only digit is 7, and an
object with level 9. -/
theorem extractDifficultyLevel_default_witness :
    (extractDifficultyLevel sampleUnmarshal "garbage 7").1 = 3 ∧
      (extractDifficultyLevel sampleUnmarshal "\x7b\"difficulty_level\": 9\x7d").1 = 3 :=
  ⟨extractDifficultyLevel_default sampleUnmarshal sampleUnmarshal_reads "garbage 7" (by decide),
    extractDifficultyLevel_default sampleUnmarshal sampleUnmarshal_reads
      "\x7b\"difficulty_level\": 9\x7d" (by decide)⟩

/-! ## `extractDifficultyLevel`: JSON in text comes first -/

theorem dropWhile_append_stop {α : Type} (p : α → Bool) (pre rest : List α) (a : α)
    (ha : p a = false) :
    (pre ++ a :: rest).dropWhile p = pre.dropWhile p ++ a :: rest := by
  induction pre with
  | nil => simp [List.dropWhile_cons, ha]
  | cons x xs ih =>
    by_cases hx : p x = true
    · simp only [List.cons_append, List.dropWhile_cons, hx, if_true]
      exact ih
    · simp [List.dropWhile_cons, hx]

/-- Trimming keeps everything from the first `{` to the last `}`: only the text before
and the text after get shorter. -/
theorem stringsTrimSpace_braces (response : String) (pre mid post : List Char)
    (hdata : response.data = pre ++ '\x7b' :: (mid ++ '\x7d' :: post)) :
    ∃ pre2 post2, (stringsTrimSpace response).data = pre2 ++ '\x7b' :: (mid ++ '\x7d' :: post2) ∧
      (∀ c ∈ pre2, c ∈ pre) ∧ (∀ c ∈ post2, c ∈ post) := by
  have hopen : unicodeIsSpace '\x7b' = false := by decide
  have hclose : unicodeIsSpace '\x7d' = false := by decide
  refine ⟨pre.dropWhile unicodeIsSpace, (post.reverse.dropWhile unicodeIsSpace).reverse, ?_,
    fun c hc => (List.dropWhile_sublist unicodeIsSpace).subset hc, fun c hc => ?_⟩
  · unfold stringsTrimSpace
    simp only
    rw [hdata, dropWhile_append_stop _ _ _ _ hopen]
    have hrev : (pre.dropWhile unicodeIsSpace ++ '\x7b' :: (mid ++ '\x7d' :: post)).reverse =
        post.reverse ++ '\x7d' :: (pre.dropWhile unicodeIsSpace ++ '\x7b' :: mid).reverse := by
      simp
    rw [hrev, dropWhile_append_stop _ _ _ _ hclose]
    simp
  · have h1 := (List.dropWhile_sublist unicodeIsSpace).subset (List.mem_reverse.mp hc)
    exact List.mem_reverse.mp h1

theorem indexFrom_single (c : Char) (pre rest : List Char) (i : Nat) (hpre : c ∉ pre) :
    indexFrom [c] (pre ++ c :: rest) i = some (i + pre.length) := by
  induction pre generalizing i with
  | nil => simp [indexFrom, List.isPrefixOf]
  | cons x xs ih =>
    have hx : c ≠ x := fun h => hpre (by simp [h])
    have hxs : c ∉ xs := fun h => hpre (List.mem_cons_of_mem _ h)
    rw [List.cons_append, indexFrom, if_neg (by simp [List.isPrefixOf, hx]), ih (i + 1) hxs]
    simp only [List.length_cons, Option.some.injEq]
    omega

theorem lastIndexFrom_absent (c : Char) (l : List Char) (i : Nat) (hl : c ∉ l) :
    lastIndexFrom [c] l i = none := by
  induction l generalizing i with
  | nil => simp [lastIndexFrom]
  | cons x xs ih =>
    have hx : c ≠ x := fun h => hl (by simp [h])
    have hxs : c ∉ xs := fun h => hl (List.mem_cons_of_mem _ h)
    rw [lastIndexFrom, ih (i + 1) hxs]
    simp [List.isPrefixOf, hx]

theorem lastIndexFrom_single (c : Char) (front post : List Char) (i : Nat) (hpost : c ∉ post) :
    lastIndexFrom [c] (front ++ c :: post) i = some (i + front.length) := by
  induction front generalizing i with
  | nil =>
    rw [List.nil_append, lastIndexFrom, lastIndexFrom_absent c post (i + 1) hpost]
    simp [List.isPrefixOf]
  | cons x xs ih =>
    rw [List.cons_append, lastIndexFrom, ih (i + 1)]
    simp only [List.length_cons, Option.some.injEq]
    omega

/-- C20: when the response text is `pre ++ js ++ post` with `js` running from the
first `{` of the text to its last `}`, and `js` decodes without error to a
`difficulty_level` `n` in `1..5`, `extractDifficultyLevel` returns `n`, whatever `pre`
and `post` hold. -/
theorem extractDifficultyLevel_json_in_text (jsonUnmarshal : String → Int → Bool × Int)
    (response : String) (pre mid post : List Char) (n : Int)
    (hdata : response.data = pre ++ '\x7b' :: (mid ++ '\x7d' :: post))
    (hpre : '\x7b' ∉ pre) (hpost : '\x7d' ∉ post)
    (hjson : jsonUnmarshal (String.mk ('\x7b' :: (mid ++ ['\x7d']))) 0 = (true, n))
    (hn : 1 ≤ n ∧ n ≤ 5) :
    (extractDifficultyLevel jsonUnmarshal response).1 = n := by
  obtain ⟨pre2, post2, htrim, hpre2, hpost2⟩ := stringsTrimSpace_braces response pre mid post hdata
  have hopen : "\x7b".data = ['\x7b'] := rfl
  have hclose : "\x7d".data = ['\x7d'] := rfl
  have hstart : stringsIndex (stringsTrimSpace response) "\x7b" = (pre2.length : Int) := by
    unfold stringsIndex
    rw [htrim, hopen, indexFrom_single _ _ _ 0 (fun h => hpre (hpre2 _ h))]
    simp
  have hend : stringsLastIndex (stringsTrimSpace response) "\x7d" =
      ((pre2.length + 1 + mid.length : Nat) : Int) := by
    unfold stringsLastIndex
    have hsplit : pre2 ++ '\x7b' :: (mid ++ '\x7d' :: post2) =
        (pre2 ++ '\x7b' :: mid) ++ '\x7d' :: post2 := by simp
    rw [htrim, hclose, hsplit, lastIndexFrom_single _ _ _ 0 (fun h => hpost (hpost2 _ h))]
    simp
    omega
  have hslice : runeSlice (stringsTrimSpace response).data pre2.length
      (pre2.length + 1 + mid.length + 1) = '\x7b' :: (mid ++ ['\x7d']) := by
    unfold runeSlice
    rw [htrim, List.drop_left]
    have hlen : pre2.length + 1 + mid.length + 1 - pre2.length =
        ('\x7b' :: (mid ++ ['\x7d'])).length := by
      simp
      omega
    have hcut : '\x7b' :: (mid ++ '\x7d' :: post2) = ('\x7b' :: (mid ++ ['\x7d'])) ++ post2 := by
      simp
    rw [hlen, hcut, List.take_left]
  unfold extractDifficultyLevel
  simp only
  rw [hstart, hend]
  have hcond : ((pre2.length : Int) ≥ 0 ∧
      ((pre2.length + 1 + mid.length : Nat) : Int) > (pre2.length : Int)) := by
    constructor <;> omega
  rw [if_pos hcond]
  have h1 : ((pre2.length : Nat) : Int).toNat = pre2.length := by simp
  have h2 : (((pre2.length + 1 + mid.length : Nat) : Int) + 1).toNat =
      pre2.length + 1 + mid.length + 1 := by omega
  rw [h1, h2, hslice, hjson]
  simp [hn.1, hn.2]

/-- Witness for C20: the object gives level 2 although a `5` comes before it and a
`difficulty_level 4` after it. -/
theorem extractDifficultyLevel_json_in_text_witness :
    (extractDifficultyLevel sampleUnmarshal
      "Sure 5! \x7b\"difficulty_level\": 2\x7d and difficulty_level 4").1 = 2 :=
  extractDifficultyLevel_json_in_text sampleUnmarshal
    "Sure 5! \x7b\"difficulty_level\": 2\x7d and difficulty_level 4"
    "Sure 5! ".data "\"difficulty_level\": 2".data " and difficulty_level 4".data 2
    (by decide) (by decide) (by decide) (by decide) (by decide)

/-! ## `EvaluateDifficulty`: retries, fallback and bookkeeping -/

/-- The retry loop with three attempts, unfolded. -/
theorem retryLoop_three (jsonUnmarshal : String → Int → Bool × Int) (world : EvalWorld) :
    retryLoop jsonUnmarshal world 3 3 0 none none =
      match doRequest jsonUnmarshal (world.exchange 0) with
      | .ok r0 => ⟨1, [], some r0, none, false⟩
      | .error e0 =>
        if world.ctxDone 0 then ⟨1, [], none, some e0, true⟩
        else
          match doRequest jsonUnmarshal (world.exchange 1) with
          | .ok r1 => ⟨2, [1], some r1, none, false⟩
          | .error e1 =>
            if world.ctxDone 1 then ⟨2, [1], none, some e1, true⟩
            else
              match doRequest jsonUnmarshal (world.exchange 2) with
              | .ok r2 => ⟨3, [1, 2], some r2, none, false⟩
              | .error e2 => ⟨3, [1, 2], none, some e2, false⟩ := by
  cases h0 : doRequest jsonUnmarshal (world.exchange 0) with
  | ok r0 => simp [retryLoop, h0]
  | error e0 =>
    cases hd0 : world.ctxDone 0 with
    | true => simp [retryLoop, h0, hd0]
    | false =>
      cases h1 : doRequest jsonUnmarshal (world.exchange 1) with
      | ok r1 => simp [retryLoop, h0, hd0, h1]
      | error e1 =>
        cases hd1 : world.ctxDone 1 with
        | true => simp [retryLoop, h0, hd0, h1, hd1]
        | false =>
          cases h2 : doRequest jsonUnmarshal (world.exchange 2) with
          | ok r2 => simp [retryLoop, h0, hd0, h1, hd1, h2]
          | error e2 => simp [retryLoop, h0, hd0, h1, hd1, h2]

/-- The retry loop when all three attempts fail and both backoffs are waited. -/
theorem retryLoop_all_fail (jsonUnmarshal : String → Int → Bool × Int) (world : EvalWorld)
    (hfail : allAttemptsFail jsonUnmarshal world) :
    ∃ err, doRequest jsonUnmarshal (world.exchange 2) = .error err ∧
      retryLoop jsonUnmarshal world 3 3 0 none none = ⟨3, [1, 2], none, some err, false⟩ := by
  obtain ⟨e0, h0⟩ := hfail.1 0 (by decide)
  obtain ⟨e1, h1⟩ := hfail.1 1 (by decide)
  obtain ⟨e2, h2⟩ := hfail.1 2 (by decide)
  have hd0 := hfail.2 0 (by decide)
  have hd1 := hfail.2 1 (by decide)
  refine ⟨e2, h2, ?_⟩
  rw [retryLoop_three]
  simp [h0, h1, h2, hd0, hd1]

/-- The retry loop when attempt `k` is the first to succeed. -/
theorem retryLoop_first_success (jsonUnmarshal : String → Int → Bool × Int) (world : EvalWorld)
    (k : Nat) (hk : k < 3) (response : EvaluatorResponse)
    (hfirst : firstSuccessAt jsonUnmarshal world k response) :
    retryLoop jsonUnmarshal world 3 3 0 none none =
      ⟨k + 1, (List.range k).map (fun i => 2 ^ i), some response, none, false⟩ := by
  rw [retryLoop_three]
  obtain ⟨hbefore, hok⟩ := hfirst
  interval_cases k
  · simp [hok]
  · obtain ⟨⟨e0, h0⟩, hd0⟩ := hbefore 0 (by decide)
    simp [h0, hd0, hok, List.range_succ]
  · obtain ⟨⟨e0, h0⟩, hd0⟩ := hbefore 0 (by decide)
    obtain ⟨⟨e1, h1⟩, hd1⟩ := hbefore 1 (by decide)
    simp [h0, hd0, h1, hd1, hok, List.range_succ]

/-- C12 (as stated, refuted): with the flag set and the evaluator answering 500 three
times, the result is level 3 without error, but its reasoning is the constant of the
code, `决策者服务不可用，使用默认中等难度`, not the text `evaluator unavailable, default
medium`. -/
theorem EvaluateDifficulty_fallback_reasoning_counterexample :
    (EvaluateDifficulty sampleUnmarshal NewClient (some (sampleEvalConfig true)) sampleWorldDown
        sampleRequest).result =
        some (.ok { DifficultyLevel := 3, Reasoning := "决策者服务不可用，使用默认中等难度" }) ∧
      (EvaluateDifficulty sampleUnmarshal NewClient (some (sampleEvalConfig true)) sampleWorldDown
        sampleRequest).result ≠
        some (.ok { DifficultyLevel := 3, Reasoning := statedFallbackReasoning }) := by
  have hrun : (EvaluateDifficulty sampleUnmarshal NewClient (some (sampleEvalConfig true))
      sampleWorldDown sampleRequest).result =
      some (.ok { DifficultyLevel := 3, Reasoning := "决策者服务不可用，使用默认中等难度" }) := by
    rfl
  refine ⟨hrun, ?_⟩
  rw [hrun]
  intro h
  simp only [Option.some.injEq, Except.ok.injEq, EvaluatorResponse.mk.injEq, true_and] at h
  exact absurd h (by decide)

/-- C12 (amended): when all three attempts fail (the backoffs waited in full),
`EvaluateDifficulty` returns level 3 with the fixed reasoning
`决策者服务不可用，使用默认中等难度` (`fallbackReasoning`) and no error if the
`evaluator_fallback` flag is set, and an error carrying the last failure, with no
classification, if it is not. -/
theorem EvaluateDifficulty_exhausted (jsonUnmarshal : String → Int → Bool × Int) (c : Client)
    (cfg : Config) (world : EvalWorld) (request : ClaudeRequest) (u s : String) (svc : Service)
    (hc : c.maxRetries = 3) (hinfo : ExtractUserInfo request.Metadata = some (u, s))
    (hsvc : GetEvaluatorService (some cfg) = .ok svc)
    (hfail : allAttemptsFail jsonUnmarshal world) :
    (cfg.Features.EvaluatorFallback = true →
        (EvaluateDifficulty jsonUnmarshal c (some cfg) world request).result =
          some (.ok { DifficultyLevel := 3, Reasoning := fallbackReasoning })) ∧
      (cfg.Features.EvaluatorFallback = false →
        ∃ err, doRequest jsonUnmarshal (world.exchange 2) = .error err ∧
          (EvaluateDifficulty jsonUnmarshal c (some cfg) world request).result =
            some (.error (.requestFailed err))) := by
  obtain ⟨err, herr, hloop⟩ := retryLoop_all_fail jsonUnmarshal world hfail
  constructor
  · intro hflag
    unfold EvaluateDifficulty
    simp [hinfo, hsvc, hc, hloop, hflag]
  · intro hflag
    refine ⟨err, herr, ?_⟩
    unfold EvaluateDifficulty
    simp [hinfo, hsvc, hc, hloop, hflag]

theorem sampleWorldDown_fails : allAttemptsFail sampleUnmarshal sampleWorldDown :=
  ⟨fun _ _ => ⟨.reply (.status 500), rfl⟩, fun _ _ => rfl⟩

/-- Witness for C12 (amended): the evaluator answers 500 three times, with the flag set
and with the flag not set. -/
theorem EvaluateDifficulty_exhausted_witness :
    (EvaluateDifficulty sampleUnmarshal NewClient (some (sampleEvalConfig true)) sampleWorldDown
        sampleRequest).result =
        some (.ok { DifficultyLevel := 3, Reasoning := fallbackReasoning }) ∧
      ∃ err, doRequest sampleUnmarshal (sampleWorldDown.exchange 2) = .error err ∧
        (EvaluateDifficulty sampleUnmarshal NewClient (some (sampleEvalConfig false))
          sampleWorldDown sampleRequest).result = some (.error (.requestFailed err)) :=
  ⟨(EvaluateDifficulty_exhausted sampleUnmarshal NewClient (sampleEvalConfig true)
      sampleWorldDown sampleRequest "ABC" "XYZ" _ rfl (by decide) rfl sampleWorldDown_fails).1 rfl,
    (EvaluateDifficulty_exhausted sampleUnmarshal NewClient (sampleEvalConfig false)
      sampleWorldDown sampleRequest "ABC" "XYZ" _ rfl (by decide) rfl sampleWorldDown_fails).2 rfl⟩

/-- Whatever the attempts do, the loop makes at most three calls, and every call but the
last one made is followed by its backoff `2 ^ i`. -/
theorem retryLoop_schedule (jsonUnmarshal : String → Int → Bool × Int) (world : EvalWorld) :
    (retryLoop jsonUnmarshal world 3 3 0 none none).calls ≤ 3 ∧
      (retryLoop jsonUnmarshal world 3 3 0 none none).waits =
        (List.range ((retryLoop jsonUnmarshal world 3 3 0 none none).calls - 1)).map
          (fun i => 2 ^ i) := by
  rw [retryLoop_three]
  cases doRequest jsonUnmarshal (world.exchange 0) with
  | ok r0 => simp
  | error e0 =>
    cases world.ctxDone 0 with
    | true => simp
    | false =>
      cases doRequest jsonUnmarshal (world.exchange 1) with
      | ok r1 => simp [List.range_succ]
      | error e1 =>
        cases world.ctxDone 1 with
        | true => simp [List.range_succ]
        | false =>
          cases doRequest jsonUnmarshal (world.exchange 2) with
          | ok r2 => simp [List.range_succ]
          | error e2 => simp [List.range_succ]

/-- The calls and waits of a run are those of its retry loop, when the loop is reached. -/
theorem EvaluateDifficulty_calls_waits (jsonUnmarshal : String → Int → Bool × Int) (c : Client)
    (Cfg : Option Config) (world : EvalWorld) (request : ClaudeRequest) :
    ((EvaluateDifficulty jsonUnmarshal c Cfg world request).calls = 0 ∧
        (EvaluateDifficulty jsonUnmarshal c Cfg world request).waits = []) ∨
      ((EvaluateDifficulty jsonUnmarshal c Cfg world request).calls =
          (retryLoop jsonUnmarshal world c.maxRetries c.maxRetries 0 none none).calls ∧
        (EvaluateDifficulty jsonUnmarshal c Cfg world request).waits =
          (retryLoop jsonUnmarshal world c.maxRetries c.maxRetries 0 none none).waits) := by
  unfold EvaluateDifficulty
  split
  · left
    exact ⟨rfl, rfl⟩
  · split
    · left
      exact ⟨rfl, rfl⟩
    · right
      simp only
      split_ifs
      · exact ⟨rfl, rfl⟩
      · split
        · split
          · exact ⟨rfl, rfl⟩
          · split_ifs <;> exact ⟨rfl, rfl⟩
        · split <;> exact ⟨rfl, rfl⟩

theorem EvaluateDifficulty_reached (jsonUnmarshal : String → Int → Bool × Int) (c : Client)
    (Cfg : Option Config) (world : EvalWorld) (request : ClaudeRequest) (u s : String)
    (svc : Service) (hinfo : ExtractUserInfo request.Metadata = some (u, s))
    (hsvc : GetEvaluatorService Cfg = .ok svc) :
    (EvaluateDifficulty jsonUnmarshal c Cfg world request).calls =
        (retryLoop jsonUnmarshal world c.maxRetries c.maxRetries 0 none none).calls ∧
      (EvaluateDifficulty jsonUnmarshal c Cfg world request).waits =
        (retryLoop jsonUnmarshal world c.maxRetries c.maxRetries 0 none none).waits := by
  unfold EvaluateDifficulty
  simp only [hinfo, hsvc]
  split_ifs
  · exact ⟨rfl, rfl⟩
  · split
    · split
      · exact ⟨rfl, rfl⟩
      · split_ifs <;> exact ⟨rfl, rfl⟩
    · split <;> exact ⟨rfl, rfl⟩

/-- C13: whatever the attempts do, `EvaluateDifficulty` calls the evaluator at most 3
times and waits `2 ^ i` seconds after each attempt `i` (counted from 0) but the last
one made; it stops at the first successful attempt; and three failing attempts incur
the backoffs 1s and 2s, 3s in all, with no wait after the third. -/
theorem EvaluateDifficulty_retry_schedule (jsonUnmarshal : String → Int → Bool × Int)
    (c : Client) (Cfg : Option Config) (world : EvalWorld) (request : ClaudeRequest)
    (hc : c.maxRetries = 3) :
    (EvaluateDifficulty jsonUnmarshal c Cfg world request).calls ≤ 3 ∧
      (EvaluateDifficulty jsonUnmarshal c Cfg world request).waits =
        (List.range ((EvaluateDifficulty jsonUnmarshal c Cfg world request).calls - 1)).map
          (fun i => 2 ^ i) ∧
      (∀ (u s : String) (svc : Service) (k : Nat) (response : EvaluatorResponse),
        ExtractUserInfo request.Metadata = some (u, s) → GetEvaluatorService Cfg = .ok svc →
        k < 3 → firstSuccessAt jsonUnmarshal world k response →
        (EvaluateDifficulty jsonUnmarshal c Cfg world request).calls = k + 1 ∧
          (EvaluateDifficulty jsonUnmarshal c Cfg world request).result =
            some (.ok response)) ∧
      (∀ (u s : String) (svc : Service),
        ExtractUserInfo request.Metadata = some (u, s) → GetEvaluatorService Cfg = .ok svc →
        allAttemptsFail jsonUnmarshal world →
        (EvaluateDifficulty jsonUnmarshal c Cfg world request).calls = 3 ∧
          (EvaluateDifficulty jsonUnmarshal c Cfg world request).waits = [1, 2] ∧
          (EvaluateDifficulty jsonUnmarshal c Cfg world request).waits.sum = 3) := by
  have hsched := retryLoop_schedule jsonUnmarshal world
  refine ⟨?_, ?_, ?_, ?_⟩
  · rcases EvaluateDifficulty_calls_waits jsonUnmarshal c Cfg world request with h | h
    · rw [h.1]
      decide
    · rw [h.1, hc]
      exact hsched.1
  · rcases EvaluateDifficulty_calls_waits jsonUnmarshal c Cfg world request with h | h
    · rw [h.1, h.2]
      rfl
    · rw [h.1, h.2, hc]
      exact hsched.2
  · intro u s svc k response hinfo hsvc hk hfirst
    have hloop := retryLoop_first_success jsonUnmarshal world k hk response hfirst
    constructor
    · rw [(EvaluateDifficulty_reached jsonUnmarshal c Cfg world request u s svc hinfo hsvc).1,
        hc, hloop]
    · unfold EvaluateDifficulty
      simp [hinfo, hsvc, hc, hloop]
  · intro u s svc hinfo hsvc hfail
    obtain ⟨err, _, hloop⟩ := retryLoop_all_fail jsonUnmarshal world hfail
    have hr := EvaluateDifficulty_reached jsonUnmarshal c Cfg world request u s svc hinfo hsvc
    rw [hr.1, hr.2, hc, hloop]
    exact ⟨rfl, rfl, rfl⟩

theorem sampleWorldSecond_first :
    firstSuccessAt sampleUnmarshal sampleWorldSecond 1
      { DifficultyLevel := 2, Reasoning := "\x7b\"difficulty_level\": 2\x7d" } := by
  refine ⟨fun i hi => ?_, by rfl⟩
  have h0 : i = 0 := by omega
  subst h0
  exact ⟨⟨.transport .send, rfl⟩, rfl⟩

/-- Witness for C13: a run that succeeds at its second attempt makes two calls, and a
run whose three attempts fail waits 1s and 2s. -/
theorem EvaluateDifficulty_retry_schedule_witness :
    ((EvaluateDifficulty sampleUnmarshal NewClient (some (sampleEvalConfig false))
          sampleWorldSecond sampleRequest).calls = 1 + 1 ∧
        (EvaluateDifficulty sampleUnmarshal NewClient (some (sampleEvalConfig false))
          sampleWorldSecond sampleRequest).result =
          some (.ok { DifficultyLevel := 2, Reasoning := "\x7b\"difficulty_level\": 2\x7d" })) ∧
      ((EvaluateDifficulty sampleUnmarshal NewClient (some (sampleEvalConfig false))
          sampleWorldDown sampleRequest).calls = 3 ∧
        (EvaluateDifficulty sampleUnmarshal NewClient (some (sampleEvalConfig false))
          sampleWorldDown sampleRequest).waits = [1, 2] ∧
        (EvaluateDifficulty sampleUnmarshal NewClient (some (sampleEvalConfig false))
          sampleWorldDown sampleRequest).waits.sum = 3) :=
  ⟨(EvaluateDifficulty_retry_schedule sampleUnmarshal NewClient (some (sampleEvalConfig false))
      sampleWorldSecond sampleRequest rfl).2.2.1 "ABC" "XYZ" _ 1 _ (by decide) rfl (by decide)
      sampleWorldSecond_first,
    (EvaluateDifficulty_retry_schedule sampleUnmarshal NewClient (some (sampleEvalConfig false))
      sampleWorldDown sampleRequest rfl).2.2.2 "ABC" "XYZ" _ (by decide) rfl
      sampleWorldDown_fails⟩

theorem GetContext_history (cm : ContextManager) (u s : String) :
    (cm.GetContext u s).RequestHistory = storedHistory cm (contextKey u s) := by
  unfold ContextManager.GetContext storedHistory
  cases cm.contexts (contextKey u s) <;> rfl

theorem UpdateContext_creates (cm : ContextManager) (u s : String) (x : RequestSummary) :
    ((cm.UpdateContext u s x).contexts (contextKey u s)).isSome = true := by
  unfold ContextManager.UpdateContext
  simp

/-- A run that returns an error leaves the store as it was. -/
theorem EvaluateDifficulty_error_store (jsonUnmarshal : String → Int → Bool × Int) (c : Client)
    (Cfg : Option Config) (world : EvalWorld) (request : ClaudeRequest) (err : EvalError)
    (h : (EvaluateDifficulty jsonUnmarshal c Cfg world request).result = some (.error err)) :
    (EvaluateDifficulty jsonUnmarshal c Cfg world request).contextManager = c.contextManager := by
  unfold EvaluateDifficulty at h ⊢
  cases hE : ExtractUserInfo request.Metadata with
  | none => simp only [hE]
  | some pair =>
    cases hS : GetEvaluatorService Cfg with
    | error e => simp only [hE, hS]
    | ok svc =>
      simp only [hE, hS] at h ⊢
      cases hcan : (retryLoop jsonUnmarshal world c.maxRetries c.maxRetries 0 none none).cancelled with
      | true => simp only [hcan, if_true]
      | false =>
        simp only [hcan, Bool.false_eq_true, if_false] at h ⊢
        cases hle : (retryLoop jsonUnmarshal world c.maxRetries c.maxRetries 0 none none).lastErr with
        | some lastErr =>
          simp only [hle]
          cases Cfg with
          | none => rfl
          | some cfg =>
            simp only
            split_ifs <;> rfl
        | none =>
          simp only [hle] at h ⊢
          cases hr : (retryLoop jsonUnmarshal world c.maxRetries c.maxRetries 0 none none).response with
          | none => simp only [hr]
          | some response =>
            simp only [hr] at h
            simp at h

/-- C16: when an attempt succeeds, `EvaluateDifficulty` returns its response and appends
one summary, with the request's model, its message count and the classified level, to
the history of the request's (user, session), creating the context if absent (the
history keeps its last 10 entries) and leaving every other key alone; when all attempts
fail (fallback level or error), and whenever it returns an error, the store is
unchanged. -/
theorem EvaluateDifficulty_bookkeeping (jsonUnmarshal : String → Int → Bool × Int)
    (c : Client) (Cfg : Option Config) (world : EvalWorld) (request : ClaudeRequest)
    (u s : String) (svc : Service) (hc : c.maxRetries = 3)
    (hmax : c.contextManager.maxHistory = 10)
    (hinfo : ExtractUserInfo request.Metadata = some (u, s))
    (hsvc : GetEvaluatorService Cfg = .ok svc) :
    (∀ (k : Nat) (response : EvaluatorResponse), k < 3 →
        firstSuccessAt jsonUnmarshal world k response →
        (EvaluateDifficulty jsonUnmarshal c Cfg world request).result = some (.ok response) ∧
          (requestSummary world request response).Model = request.Model ∧
          (requestSummary world request response).MessageCount = request.Messages.length ∧
          (requestSummary world request response).DifficultyLevel = response.DifficultyLevel ∧
          (∀ key, storedHistory
              (EvaluateDifficulty jsonUnmarshal c Cfg world request).contextManager key =
            if key = contextKey u s then
              lastN 10 (storedHistory c.contextManager key ++
                [requestSummary world request response])
            else storedHistory c.contextManager key) ∧
          ((c.contextManager.GetContext u s).RequestHistory.length < 10 →
            ((EvaluateDifficulty jsonUnmarshal c Cfg world request).contextManager.GetContext
                u s).RequestHistory =
              (c.contextManager.GetContext u s).RequestHistory ++
                [requestSummary world request response]) ∧
          ((EvaluateDifficulty jsonUnmarshal c Cfg world request).contextManager.contexts
            (contextKey u s)).isSome = true) ∧
      (allAttemptsFail jsonUnmarshal world →
        (EvaluateDifficulty jsonUnmarshal c Cfg world request).contextManager =
          c.contextManager) ∧
      (∀ err, (EvaluateDifficulty jsonUnmarshal c Cfg world request).result =
          some (.error err) →
        (EvaluateDifficulty jsonUnmarshal c Cfg world request).contextManager =
          c.contextManager) := by
  refine ⟨?_, ?_, fun err h => EvaluateDifficulty_error_store _ _ _ _ _ err h⟩
  · intro k response hk hfirst
    have hloop := retryLoop_first_success jsonUnmarshal world k hk response hfirst
    have hstore : (EvaluateDifficulty jsonUnmarshal c Cfg world request).contextManager =
        c.contextManager.UpdateContext u s (requestSummary world request response) := by
      unfold EvaluateDifficulty
      simp [hinfo, hsvc, hc, hloop]
    have hres : (EvaluateDifficulty jsonUnmarshal c Cfg world request).result =
        some (.ok response) := by
      unfold EvaluateDifficulty
      simp [hinfo, hsvc, hc, hloop]
    have hkey : ∀ key, storedHistory
        (EvaluateDifficulty jsonUnmarshal c Cfg world request).contextManager key =
        if key = contextKey u s then
          lastN 10 (storedHistory c.contextManager key ++ [requestSummary world request response])
        else storedHistory c.contextManager key := by
      intro key
      rw [hstore, storedHistory_UpdateContext, hmax]
    refine ⟨hres, rfl, rfl, rfl, hkey, ?_, ?_⟩
    · intro hlt
      rw [GetContext_history] at hlt
      rw [GetContext_history, GetContext_history, hkey, if_pos rfl]
      unfold lastN
      rw [List.length_append, List.length_singleton]
      have h0 : (storedHistory c.contextManager (contextKey u s)).length + 1 - 10 = 0 := by
        omega
      rw [h0, List.drop_zero]
    · rw [hstore]
      exact UpdateContext_creates _ _ _ _
  · intro hfail
    obtain ⟨err, _, hloop⟩ := retryLoop_all_fail jsonUnmarshal world hfail
    unfold EvaluateDifficulty
    simp only [hinfo, hsvc, hc, hloop]
    cases Cfg with
    | none => rfl
    | some cfg =>
      simp only [Bool.false_eq_true, if_false]
      split_ifs <;> rfl

/-- Witness for C16: the sample run that succeeds at its second attempt, from an empty
store, and the sample run whose attempts all fail. -/
theorem EvaluateDifficulty_bookkeeping_witness :
    ((EvaluateDifficulty sampleUnmarshal NewClient (some (sampleEvalConfig true))
          sampleWorldSecond sampleRequest).contextManager.GetContext "ABC" "XYZ").RequestHistory =
        (NewClient.contextManager.GetContext "ABC" "XYZ").RequestHistory ++
          [requestSummary sampleWorldSecond sampleRequest
            { DifficultyLevel := 2, Reasoning := "\x7b\"difficulty_level\": 2\x7d" }] ∧
      (EvaluateDifficulty sampleUnmarshal NewClient (some (sampleEvalConfig true))
          sampleWorldDown sampleRequest).contextManager = NewClient.contextManager :=
  ⟨((EvaluateDifficulty_bookkeeping sampleUnmarshal NewClient (some (sampleEvalConfig true))
      sampleWorldSecond sampleRequest "ABC" "XYZ" _ rfl rfl (by decide) rfl).1 1 _ (by decide)
      sampleWorldSecond_first).2.2.2.2.2.1 (by decide),
    (EvaluateDifficulty_bookkeeping sampleUnmarshal NewClient (some (sampleEvalConfig true))
      sampleWorldDown sampleRequest "ABC" "XYZ" _ rfl rfl (by decide) rfl).2.1
      sampleWorldDown_fails⟩

/-! ## The headers of the outbound request -/

theorem Header.values_add (lib : NetLib) (h : Header) (key v k : String) :
    (Header.add lib h key v).values k =
      if k = lib.canonicalKey key then h.values k ++ [v] else h.values k := by
  unfold Header.add Header.values
  simp only
  by_cases hany : h.any (fun kv => decide (kv.1 = lib.canonicalKey key)) = true
  · rw [if_pos hany, List.find?_map]
    have hcomp : ((fun kv : String × List String => decide (kv.1 = k)) ∘
        (fun kv : String × List String =>
          if kv.1 = lib.canonicalKey key then (kv.1, kv.2 ++ [v]) else kv)) =
        fun kv => decide (kv.1 = k) := by
      funext kv
      simp only [Function.comp]
      split_ifs <;> rfl
    rw [hcomp]
    cases hf : h.find? (fun kv => decide (kv.1 = k)) with
    | none =>
      by_cases hk : k = lib.canonicalKey key
      · exfalso
        rw [List.any_eq_true] at hany
        obtain ⟨kv, hmem, hkv⟩ := hany
        have := List.find?_eq_none.mp hf kv hmem
        simp only [decide_eq_true_eq] at this hkv
        exact this (hkv.trans hk.symm)
      · simp [hk]
    | some kv =>
      have hkv : kv.1 = k := by
        have hp := List.find?_some hf
        simpa using hp
      by_cases hk : k = lib.canonicalKey key
      · have hc : kv.1 = lib.canonicalKey key := hkv.trans hk
        simp [hk, hc]
      · have : ¬ kv.1 = lib.canonicalKey key := fun e => hk (hkv.symm.trans e)
        simp [hk, this]
  · rw [if_neg hany, List.find?_append]
    cases hf : h.find? (fun kv => decide (kv.1 = k)) with
    | none =>
      by_cases hk : k = lib.canonicalKey key
      · simp [hk]
      · have : ¬ lib.canonicalKey key = k := fun e => hk e.symm
        simp [hk, this, List.find?_cons]
    | some kv =>
      have hkv : kv.1 = k := by
        have hp := List.find?_some hf
        simpa using hp
      have hmem := List.mem_of_find?_eq_some hf
      by_cases hk : k = lib.canonicalKey key
      · exfalso
        apply hany
        rw [List.any_eq_true]
        exact ⟨kv, hmem, by simp [hkv, hk]⟩
      · simp [hk]

theorem Header.values_addAll (lib : NetLib) (values : List String) (h : Header)
    (key k : String) :
    (values.foldl (fun acc value => Header.add lib acc key value) h).values k =
      if k = lib.canonicalKey key then h.values k ++ values else h.values k := by
  induction values generalizing h with
  | nil => simp
  | cons v vs ih =>
    rw [List.foldl_cons, ih, Header.values_add]
    split_ifs <;> simp

theorem Header.values_cons (kv : String × List String) (rest : Header) (k : String) :
    Header.values (kv :: rest) k = if kv.1 = k then kv.2 else Header.values rest k := by
  unfold Header.values
  by_cases h : kv.1 = k
  · rw [List.find?_cons_of_pos _ (by simp [h]), if_pos h]
  · rw [List.find?_cons_of_neg _ (by simp [h]), if_neg h]

theorem Header.values_absent (h : Header) (k : String) (hk : k ∉ h.map Prod.fst) :
    Header.values h k = [] := by
  unfold Header.values
  have : h.find? (fun kv => decide (kv.1 = k)) = none := by
    rw [List.find?_eq_none]
    intro kv hmem hkv
    apply hk
    rw [List.mem_map]
    exact ⟨kv, hmem, of_decide_eq_true hkv⟩
  rw [this]

/-- The copy loop on a header map with canonical keys: the values of every key that is
not skipped are appended under that key, and nothing is added under a skipped key. -/
theorem copyHeaders_values (lib : NetLib) (entries target : Header) (k : String)
    (hcanon : ∀ kv ∈ entries, lib.canonicalKey kv.1 = kv.1)
    (hnodup : (entries.map Prod.fst).Nodup) :
    (copyHeaders lib entries target).values k =
      if k = "Host" ∨ k = "Authorization" then target.values k
      else target.values k ++ Header.values entries k := by
  induction entries generalizing target with
  | nil =>
    unfold copyHeaders
    simp [Header.values]
  | cons kv rest ih =>
    have hrest := fun t => ih t (fun x hx => hcanon x (List.mem_cons_of_mem _ hx))
      (List.nodup_cons.mp hnodup).2
    have hkv := hcanon kv (List.mem_cons_self _ _)
    have hnot : kv.1 ∉ rest.map Prod.fst := (List.nodup_cons.mp hnodup).1
    unfold copyHeaders at hrest ⊢
    rw [List.foldl_cons]
    by_cases hskip : kv.1 = "Host" ∨ kv.1 = "Authorization"
    · rw [if_pos hskip, hrest, Header.values_cons]
      by_cases hk : k = "Host" ∨ k = "Authorization"
      · rw [if_pos hk, if_pos hk]
      · rw [if_neg hk, if_neg hk]
        have : ¬ kv.1 = k := fun e => hk (e ▸ hskip)
        rw [if_neg this]
    · rw [if_neg hskip, hrest, Header.values_addAll, hkv, Header.values_cons]
      by_cases hk : k = "Host" ∨ k = "Authorization"
      · have : ¬ k = kv.1 := fun e => hskip (e ▸ hk)
        rw [if_pos hk, if_pos hk, if_neg this]
      · rw [if_neg hk, if_neg hk]
        by_cases hkk : k = kv.1
        · subst hkk
          rw [if_pos rfl, if_pos rfl, Header.values_absent rest _ hnot, List.append_nil]
        · have : ¬ kv.1 = k := fun e => hkk e.symm
          rw [if_neg hkk, if_neg this]

theorem Header.values_set (lib : NetLib) (h : Header) (key v k : String) :
    (Header.set lib h key v).values k =
      if k = lib.canonicalKey key then [v] else h.values k := by
  unfold Header.set Header.values
  simp only
  rw [List.find?_append]
  by_cases hk : k = lib.canonicalKey key
  · have hnone : (h.filter (fun kv => decide (kv.1 ≠ lib.canonicalKey key))).find?
        (fun kv => decide (kv.1 = k)) = none := by
      rw [List.find?_eq_none]
      intro kv hmem hkv
      have h1 := (List.mem_filter.mp hmem).2
      simp only [decide_eq_true_eq] at h1 hkv
      exact h1 (hkv.trans hk)
    rw [hnone, if_pos hk]
    simp [hk]
  · have hsame : (h.filter (fun kv => decide (kv.1 ≠ lib.canonicalKey key))).find?
        (fun kv => decide (kv.1 = k)) = h.find? (fun kv => decide (kv.1 = k)) := by
      induction h with
      | nil => rfl
      | cons kv rest ih =>
        by_cases hc : kv.1 = lib.canonicalKey key
        · have : ¬ kv.1 = k := fun e => hk (e.symm.trans hc)
          rw [List.filter_cons_of_neg (by simp [hc]), List.find?_cons_of_neg _ (by simp [this])]
          exact ih
        · rw [List.filter_cons_of_pos (by simp [hc])]
          by_cases hkk : kv.1 = k
          · rw [List.find?_cons_of_pos _ (by simp [hkk]), List.find?_cons_of_pos _ (by simp [hkk])]
          · rw [List.find?_cons_of_neg _ (by simp [hkk]), List.find?_cons_of_neg _ (by simp [hkk])]
            exact ih
    have hne : ¬ lib.canonicalKey key = k := fun e => hk e.symm
    rw [hsame, if_neg hk]
    cases h.find? (fun kv => decide (kv.1 = k)) <;> simp [List.find?_cons, hne]

theorem Header.set_single (lib : NetLib) (h : Header) (key v : String) :
    (Header.set lib h key v).filter (fun kv => kv.1 = lib.canonicalKey key) =
      [(lib.canonicalKey key, [v])] := by
  unfold Header.set
  simp only
  rw [List.filter_append, List.filter_filter]
  have : h.filter (fun a => decide (a.1 = lib.canonicalKey key) &&
      decide (a.1 ≠ lib.canonicalKey key)) = [] := by
    rw [List.filter_eq_nil_iff]
    intro a _
    simp
  rw [this]
  simp

/-- C15: the request `createTargetRequest` builds has exactly one entry under
`Authorization`, holding the single value `Bearer ` ++ the provider's credential,
whatever the client sent; every other client header except `Host` keeps all its values
and `Host` gets none; and the outbound `Host` is the host of the provider URL. The
client header is a map with canonical keys, as `net/http` delivers it. -/
theorem createTargetRequest_headers {B V : Type} (codec : JsonCodec B V) (lib : NetLib)
    (originalReq : OriginalRequest) (service : Service) (body : B) (req : TargetRequest B)
    (hauth : lib.canonicalKey "Authorization" = "Authorization")
    (hcanon : ∀ kv ∈ originalReq.Header, lib.canonicalKey kv.1 = kv.1)
    (hnodup : (originalReq.Header.map Prod.fst).Nodup)
    (hreq : createTargetRequest codec lib originalReq service body = .ok req) :
    req.Header.filter (fun kv => kv.1 = "Authorization") =
        [("Authorization", ["Bearer " ++ service.APIKey])] ∧
      req.Header.values "Authorization" = ["Bearer " ++ service.APIKey] ∧
      (∀ key, key ≠ "Host" → key ≠ "Authorization" →
        req.Header.values key = originalReq.Header.values key) ∧
      req.Header.values "Host" = [] ∧
      ∃ parsed, lib.urlParse service.URL = some parsed ∧ req.Host = parsed.Host := by
  unfold createTargetRequest at hreq
  cases hp : lib.urlParse service.URL with
  | none => rw [hp] at hreq; simp at hreq
  | some parsed =>
    rw [hp] at hreq
    simp only at hreq
    split_ifs at hreq with hnew
    simp only [Except.ok.injEq] at hreq
    subst hreq
    simp only
    refine ⟨?_, ?_, ?_, ?_, parsed, rfl, rfl⟩
    · have := Header.set_single lib (copyHeaders lib originalReq.Header []) "Authorization"
        ("Bearer " ++ service.APIKey)
      rw [hauth] at this
      exact this
    · rw [Header.values_set, hauth, if_pos rfl]
    · intro key hhost hkey
      rw [Header.values_set, hauth, if_neg hkey,
        copyHeaders_values lib _ _ key hcanon hnodup, if_neg (by tauto)]
      simp [Header.values]
    · rw [Header.values_set, hauth, if_neg (by decide),
        copyHeaders_values lib _ _ "Host" hcanon hnodup, if_pos (Or.inl rfl)]
      simp [Header.values]

/-- Witness for C15: the sample client request, which carries its own `Authorization`,
rewritten for the sample provider. -/
theorem createTargetRequest_headers_witness :
    ∃ req, createTargetRequest sampleCodec sampleLib sampleOriginalRequest sampleService
        sampleBody = .ok req ∧
      req.Header.filter (fun kv => kv.1 = "Authorization") =
        [("Authorization", ["Bearer " ++ sampleService.APIKey])] ∧
      req.Header.values "Authorization" = ["Bearer " ++ sampleService.APIKey] ∧
      (∀ key, key ≠ "Host" → key ≠ "Authorization" →
        req.Header.values key = sampleOriginalRequest.Header.values key) ∧
      req.Header.values "Host" = [] ∧
      ∃ parsed, sampleLib.urlParse sampleService.URL = some parsed ∧ req.Host = parsed.Host :=
  ⟨_, rfl, createTargetRequest_headers sampleCodec sampleLib sampleOriginalRequest sampleService
    sampleBody _ rfl (by decide) (by decide) rfl⟩

/-! ## The warm-up broadcast -/

theorem tallyResult_success (tally : WarmupTally) (result : WarmupResult)
    (h : result.isSuccess = true) :
    (tallyResult tally result).successCount = tally.successCount + 1 ∧
      (tallyResult tally result).failCount = tally.failCount ∧
      (tallyResult tally result).firstSuccessResponse =
        match tally.firstSuccessResponse with
        | some r => some r
        | none => result.response := by
  unfold WarmupResult.isSuccess at h
  unfold tallyResult
  cases he : result.err with
  | some e => simp [he] at h
  | none =>
    cases hr : result.response with
    | none => simp [hr] at h
    | some response =>
      cases hf : tally.firstSuccessResponse <;> simp

theorem tallyResult_failure (tally : WarmupTally) (result : WarmupResult)
    (h : result.isSuccess = false) :
    (tallyResult tally result).successCount = tally.successCount ∧
      (tallyResult tally result).failCount = tally.failCount + 1 ∧
      (tallyResult tally result).firstSuccessResponse = tally.firstSuccessResponse := by
  unfold WarmupResult.isSuccess at h
  unfold tallyResult
  cases he : result.err with
  | some e => simp
  | none =>
    cases hr : result.response with
    | none => simp
    | some response => simp [he, hr] at h

/-- The collecting loop from any state: it counts every result once, as a success or as
a failure, and keeps the first successful response. -/
theorem foldl_tallyResult (results : List WarmupResult) (tally : WarmupTally) :
    (results.foldl tallyResult tally).successCount =
        tally.successCount + (results.filter WarmupResult.isSuccess).length ∧
      (results.foldl tallyResult tally).successCount +
          (results.foldl tallyResult tally).failCount =
        tally.successCount + tally.failCount + results.length ∧
      (results.foldl tallyResult tally).firstSuccessResponse =
        match tally.firstSuccessResponse with
        | some r => some r
        | none => (results.find? WarmupResult.isSuccess).bind (fun r => r.response) := by
  induction results generalizing tally with
  | nil =>
    refine ⟨rfl, rfl, ?_⟩
    rw [List.foldl_nil]
    cases hf : tally.firstSuccessResponse <;> rfl
  | cons result rest ih =>
    rw [List.foldl_cons]
    obtain ⟨h1, h2, h3⟩ := ih (tallyResult tally result)
    cases hs : result.isSuccess with
    | true =>
      obtain ⟨t1, t2, t3⟩ := tallyResult_success tally result hs
      refine ⟨?_, ?_, ?_⟩
      · rw [h1, t1, List.filter_cons_of_pos hs, List.length_cons]
        omega
      · rw [h2, t1, t2, List.length_cons]
        omega
      · rw [h3, t3, List.find?_cons_of_pos _ hs]
        cases hf : tally.firstSuccessResponse with
        | some r => rfl
        | none =>
          simp only [Option.bind]
          unfold WarmupResult.isSuccess at hs
          cases hr : result.response with
          | none => simp [hr] at hs
          | some r => rfl
    | false =>
      obtain ⟨t1, t2, t3⟩ := tallyResult_failure tally result hs
      refine ⟨?_, ?_, ?_⟩
      · rw [h1, t1, List.filter_cons_of_neg (by simp [hs])]
      · rw [h2, t1, t2, List.length_cons]
        omega
      · rw [h3, t3, List.find?_cons_of_neg _ (by simp [hs])]

theorem relayWarmup_canonical (stream supportsFlush copyFails : Bool)
    (response : UpstreamResponse) (done : WarmupDone)
    (h : relayWarmup stream supportsFlush copyFails response = .ok done) :
    done.canonical = response := by
  unfold relayWarmup at h
  simp only at h
  split_ifs at h
  all_goals
    simp only [Except.ok.injEq] at h
    rw [← h]

theorem relayWarmup_error (stream supportsFlush copyFails : Bool)
    (response : UpstreamResponse) (err : WarmupError)
    (h : relayWarmup stream supportsFlush copyFails response = .error err) :
    err = .noFlusher ∨ err = .readStream ∨ err = .copyBody := by
  unfold relayWarmup at h
  simp only at h
  split_ifs at h
  all_goals
    simp only [Except.error.injEq] at h
    simp [← h]

/-- Every executor puts one result on the channel. -/
theorem warmupResults_length {B V : Type} (codec : JsonCodec B V) (lib : NetLib)
    (originalReq : OriginalRequest) (requestBody : B) (world : WarmupWorld B)
    (executors : List Service)
    (hperm : world.completion.Perm (List.range executors.length)) :
    (warmupResults codec lib originalReq requestBody world executors).length =
      executors.length := by
  unfold warmupResults
  have hall : ∀ i ∈ world.completion,
      ((executors.get? i).map
        (warmupTask codec lib originalReq requestBody (world.send i))).isSome = true := by
    intro i hi
    have hlt : i < executors.length := List.mem_range.mp (hperm.subset hi)
    rw [List.get?_eq_get hlt]
    rfl
  rw [List.filterMap_length_eq_length.mpr hall, hperm.length_eq, List.length_range]

/-- A line of `n` bytes `a`, with `n` at least the scanner's buffer size, is too long. -/
theorem scanLine_replicate (n : Nat) (hn : maxScanTokenSize ≤ n) :
    scanLine (List.replicate n 97) = .tooLong := by
  have hpos : 0 < maxScanTokenSize := by decide
  have hne : List.replicate n (97 : UInt8) ≠ [] := by
    intro h
    have := congrArg List.length h
    rw [List.length_replicate, List.length_nil] at this
    omega
  have htake : (List.replicate n (97 : UInt8)).takeWhile (fun b => decide (b ≠ 10)) =
      List.replicate n 97 := by
    rw [List.takeWhile_replicate]
    rfl
  unfold scanLine
  simp only
  rw [if_neg hne, htake, List.length_replicate, if_pos hn]

theorem relayWarmup_tooLong (response : UpstreamResponse)
    (hscan : scanLine response.Body = .tooLong) :
    relayWarmup true true false response = .error .readStream := by
  have hloop : relayLoop (response.Body.length + 1) response.Body = ([], true) := by
    unfold relayLoop
    rw [hscan]
  unfold relayWarmup
  simp only [hloop]
  rfl

theorem relayWarmup_longLine (status : Int) (header : Header) :
    relayWarmup true true false ⟨status, header, longLineBody⟩ = .error .readStream := by
  apply relayWarmup_tooLong
  show scanLine longLineBody = .tooLong
  unfold longLineBody
  exact scanLine_replicate _ (le_refl _)

/-- C14 (as stated, refuted): with two executors, one answering and one unreachable,
and the answer a single line as long as the scanner's buffer, the streaming relay of
the canonical response fails and the handler returns an error although not every
executor's result is a failure. -/
theorem handleWarmupRequest_relay_counterexample :
    (handleWarmupRequest sampleCodec sampleLib (some sampleConfig) sampleWarmupWorld
        sampleOriginalRequest { sampleRequest with Stream := true } sampleBody).result =
        .error .readStream ∧
      ∃ r ∈ warmupResults sampleCodec sampleLib sampleOriginalRequest sampleBody
          sampleWarmupWorld sampleConfig.Services,
        r.isSuccess = true := by
  constructor
  · have hrun : handleWarmupRequest sampleCodec sampleLib (some sampleConfig) sampleWarmupWorld
        sampleOriginalRequest { sampleRequest with Stream := true } sampleBody =
        ⟨some ⟨2, 1, 1⟩, relayWarmup true true false ⟨200, [], longLineBody⟩⟩ := by
      rfl
    rw [hrun]
    exact relayWarmup_longLine 200 []
  · have hres : warmupResults sampleCodec sampleLib sampleOriginalRequest sampleBody
        sampleWarmupWorld sampleConfig.Services =
        [⟨⟨"medium-service", "medium", "https://medium.example.com/v1/messages", "k2",
            "executor", false⟩, some ⟨200, [], longLineBody⟩, none⟩,
          ⟨⟨"simple-service", "simple", "https://simple.example.com/v1/messages", "k1",
            "executor", true⟩, none, some .send⟩] := by
      rfl
    rw [hres]
    exact ⟨_, List.mem_cons_self _ _, rfl⟩

/-- C14 (amended): with the fan-out results in the order they are produced, the
canonical response of `handleWarmupRequest` is that of the first result without
transport error and with a response; the handler returns its all-failed error if and
only if every executor's result is a failure, and any other error it returns comes from
relaying the canonical response; the logged success and failure counts sum to the number
of executors. -/
theorem handleWarmupRequest_selection {B V : Type} (codec : JsonCodec B V) (lib : NetLib)
    (Cfg : Option Config) (world : WarmupWorld B) (originalReq : OriginalRequest)
    (claudeReq : ClaudeRequest) (requestBody : B) (executors : List Service)
    (hexec : GetAllExecutorServices Cfg = .ok executors)
    (hperm : world.completion.Perm (List.range executors.length)) :
    (collectResults (warmupResults codec lib originalReq requestBody world executors)
        ).firstSuccessResponse =
        ((warmupResults codec lib originalReq requestBody world executors).find?
          WarmupResult.isSuccess).bind (fun r => r.response) ∧
      (∀ done, (handleWarmupRequest codec lib Cfg world originalReq claudeReq requestBody).result
          = .ok done →
        some done.canonical =
          ((warmupResults codec lib originalReq requestBody world executors).find?
            WarmupResult.isSuccess).bind (fun r => r.response)) ∧
      ((handleWarmupRequest codec lib Cfg world originalReq claudeReq requestBody).result =
          .error .allFailed ↔
        ∀ r ∈ warmupResults codec lib originalReq requestBody world executors,
          r.isSuccess = false) ∧
      (∀ err, (handleWarmupRequest codec lib Cfg world originalReq claudeReq requestBody).result
          = .error err →
        err = .allFailed ∨ err = .noFlusher ∨ err = .readStream ∨ err = .copyBody) ∧
      ∃ log, (handleWarmupRequest codec lib Cfg world originalReq claudeReq requestBody).logged
          = some log ∧
        log.total = executors.length ∧ log.success + log.failed = executors.length ∧
        log.success = ((warmupResults codec lib originalReq requestBody world executors).filter
          WarmupResult.isSuccess).length := by
  obtain ⟨hcount, hsum, hfirst⟩ := foldl_tallyResult
    (warmupResults codec lib originalReq requestBody world executors) ⟨none, none, 0, 0, []⟩
  have hlen := warmupResults_length codec lib originalReq requestBody world executors hperm
  simp only [Nat.zero_add] at hcount hsum hfirst
  have hfirst2 : (collectResults (warmupResults codec lib originalReq requestBody world
      executors)).firstSuccessResponse =
      ((warmupResults codec lib originalReq requestBody world executors).find?
        WarmupResult.isSuccess).bind (fun r => r.response) := hfirst
  have hnone : (collectResults (warmupResults codec lib originalReq requestBody world
      executors)).firstSuccessResponse = none ↔
      ∀ r ∈ warmupResults codec lib originalReq requestBody world executors,
        r.isSuccess = false := by
    rw [hfirst2]
    constructor
    · intro h r hr
      cases hfind : (warmupResults codec lib originalReq requestBody world executors).find?
          WarmupResult.isSuccess with
      | none =>
        have := List.find?_eq_none.mp hfind r hr
        simpa using this
      | some r0 =>
        exfalso
        rw [hfind] at h
        have hs := List.find?_some hfind
        unfold WarmupResult.isSuccess at hs
        cases hresp : r0.response with
        | none => simp [hresp] at hs
        | some resp => simp [Option.bind, hresp] at h
    · intro h
      have : (warmupResults codec lib originalReq requestBody world executors).find?
          WarmupResult.isSuccess = none := by
        rw [List.find?_eq_none]
        intro r hr
        simp [h r hr]
      rw [this]
      rfl
  have hrun : handleWarmupRequest codec lib Cfg world originalReq claudeReq requestBody =
      match (collectResults (warmupResults codec lib originalReq requestBody world
          executors)).firstSuccessResponse with
      | none =>
        ⟨some ⟨executors.length,
          (collectResults (warmupResults codec lib originalReq requestBody world
            executors)).successCount,
          (collectResults (warmupResults codec lib originalReq requestBody world
            executors)).failCount⟩, .error .allFailed⟩
      | some response =>
        ⟨some ⟨executors.length,
          (collectResults (warmupResults codec lib originalReq requestBody world
            executors)).successCount,
          (collectResults (warmupResults codec lib originalReq requestBody world
            executors)).failCount⟩,
          relayWarmup claudeReq.Stream world.supportsFlush world.copyFails response⟩ := by
    unfold handleWarmupRequest
    rw [hexec]
  refine ⟨hfirst2, ?_, ?_, ?_, ?_⟩
  · intro done hdone
    rw [← hfirst2]
    rw [hrun] at hdone
    cases hf : (collectResults (warmupResults codec lib originalReq requestBody world
        executors)).firstSuccessResponse with
    | none => rw [hf] at hdone; simp at hdone
    | some response =>
      rw [hf] at hdone
      simp only at hdone
      rw [relayWarmup_canonical _ _ _ _ _ hdone]
  · rw [← hnone, hrun]
    cases hf : (collectResults (warmupResults codec lib originalReq requestBody world
        executors)).firstSuccessResponse with
    | none => simp
    | some response =>
      simp only [reduceCtorEq, iff_false]
      intro h
      rcases relayWarmup_error _ _ _ _ _ h with h1 | h1 | h1 <;> exact absurd h1 (by decide)
  · intro err herr
    rw [hrun] at herr
    cases hf : (collectResults (warmupResults codec lib originalReq requestBody world
        executors)).firstSuccessResponse with
    | none =>
      rw [hf] at herr
      simp only [Except.error.injEq] at herr
      exact Or.inl herr.symm
    | some response =>
      rw [hf] at herr
      exact Or.inr (relayWarmup_error _ _ _ _ _ herr)
  · refine ⟨⟨executors.length,
      (collectResults (warmupResults codec lib originalReq requestBody world
        executors)).successCount,
      (collectResults (warmupResults codec lib originalReq requestBody world
        executors)).failCount⟩, ?_, rfl, ?_, hcount⟩
    · rw [hrun]
      cases (collectResults (warmupResults codec lib originalReq requestBody world
        executors)).firstSuccessResponse <;> rfl
    · show (collectResults _).successCount + (collectResults _).failCount = executors.length
      unfold collectResults
      rw [hsum, hlen]

/-- Witness for C14 (amended): two executors, the second answering first and the first
unreachable; the non-streaming relay returns the answer, and the log counts one success
and one failure. -/
theorem handleWarmupRequest_selection_witness :
    GetAllExecutorServices (some sampleConfig) = .ok sampleConfig.Services ∧
      sampleWarmupWorld.completion.Perm (List.range sampleConfig.Services.length) ∧
      (collectResults (warmupResults sampleCodec sampleLib sampleOriginalRequest sampleBody
          sampleWarmupWorld sampleConfig.Services)).firstSuccessResponse =
        ((warmupResults sampleCodec sampleLib sampleOriginalRequest sampleBody
          sampleWarmupWorld sampleConfig.Services).find? WarmupResult.isSuccess).bind
          (fun r => r.response) ∧
      ((handleWarmupRequest sampleCodec sampleLib (some sampleConfig) sampleWarmupWorld
          sampleOriginalRequest sampleRequest sampleBody).result = .error .allFailed ↔
        ∀ r ∈ warmupResults sampleCodec sampleLib sampleOriginalRequest sampleBody
            sampleWarmupWorld sampleConfig.Services,
          r.isSuccess = false) ∧
      (handleWarmupRequest sampleCodec sampleLib (some sampleConfig) sampleWarmupWorld
          sampleOriginalRequest sampleRequest sampleBody).result =
        .ok ⟨⟨200, [], longLineBody⟩, 200, [.write longLineBody]⟩ ∧
      (handleWarmupRequest sampleCodec sampleLib (some sampleConfig) sampleWarmupWorld
          sampleOriginalRequest sampleRequest sampleBody).logged = some ⟨2, 1, 1⟩ :=
  ⟨rfl, by decide,
    (handleWarmupRequest_selection sampleCodec sampleLib (some sampleConfig) sampleWarmupWorld
      sampleOriginalRequest sampleRequest sampleBody sampleConfig.Services rfl (by decide)).1,
    (handleWarmupRequest_selection sampleCodec sampleLib (some sampleConfig) sampleWarmupWorld
      sampleOriginalRequest sampleRequest sampleBody sampleConfig.Services rfl
      (by decide)).2.2.1,
    rfl, rfl⟩

/-! ## `ExtractUserInfo` on an early `_account` -/

/-- C27 (code defect): on `user_accountX` the search finds `_account` at rune index 4,
inside the `user_` lead, and the user-id slice `parts[5:4]` is out of range: the
function panics instead of returning a pair. -/
theorem ExtractUserInfo_early_account_panics :
    runeSlice "user_accountX".data 4 (4 + 8) = "_account".data ∧
      (∀ i, i < 4 → runeSlice "user_accountX".data i (i + 8) ≠ "_account".data) ∧
      ExtractUserInfo ⟨"user_accountX"⟩ = none := by
  decide

/-! ## Store keys of different sessions -/

theorem contextKey_data (u s : String) : (contextKey u s).data = u.data ++ '_' :: s.data := by
  unfold contextKey
  simp [String.data_append]

theorem append_underscore_inj (a b c d : List Char) (ha : '_' ∉ a) (hc : '_' ∉ c)
    (h : a ++ '_' :: b = c ++ '_' :: d) : a = c ∧ b = d := by
  induction a generalizing c with
  | nil =>
    cases c with
    | nil => simpa using h
    | cons y c2 =>
      simp only [List.nil_append, List.cons_append, List.cons.injEq] at h
      exact absurd (by rw [← h.1]; exact List.mem_cons_self _ _) hc
  | cons x a2 ih =>
    cases c with
    | nil =>
      simp only [List.nil_append, List.cons_append, List.cons.injEq] at h
      exact absurd (by rw [h.1]; exact List.mem_cons_self _ _) ha
    | cons y c2 =>
      simp only [List.cons_append, List.cons.injEq] at h
      obtain ⟨h1, h2⟩ := ih c2 (fun hm => ha (List.mem_cons_of_mem _ hm))
        (fun hm => hc (List.mem_cons_of_mem _ hm)) h.2
      exact ⟨by rw [h.1, h1], h2⟩

/-- C28 (code defect): the user ids `user_a_b_account__session_c` and
`user_a_account__session_b_c` parse to the different pairs `("a_b", "c")` and
`("a", "b_c")`, which share the store key `a_b_c`: after an update for the first pair,
`GetContext` for the second returns the first pair's context and history. -/
theorem UpdateContext_shared_key :
    ExtractUserInfo ⟨"user_a_b_account__session_c"⟩ = some ("a_b", "c") ∧
      ExtractUserInfo ⟨"user_a_account__session_b_c"⟩ = some ("a", "b_c") ∧
      (("a_b", "c") : String × String) ≠ ("a", "b_c") ∧
      contextKey "a_b" "c" = contextKey "a" "b_c" ∧
      (NewContextManager.GetContext "a" "b_c").RequestHistory = [] ∧
      (NewContextManager.UpdateContext "a_b" "c" (sampleSummary 1)).GetContext "a" "b_c" =
        { UserID := "a_b", SessionID := "c", RequestHistory := [sampleSummary 1] } := by
  decide

/-- An update leaves what `GetContext` returns unchanged under every other store key;
two distinct pairs have different keys whenever neither user id contains `_`. -/
theorem UpdateContext_other_key (cm : ContextManager) (u s u' s' : String)
    (summary : RequestSummary) :
    (contextKey u s ≠ contextKey u' s' →
        (cm.UpdateContext u s summary).GetContext u' s' = cm.GetContext u' s') ∧
      ('_' ∉ u.data → '_' ∉ u'.data → (u, s) ≠ (u', s') →
        contextKey u s ≠ contextKey u' s') := by
  constructor
  · intro hkey
    unfold ContextManager.GetContext ContextManager.UpdateContext
    simp only
    rw [if_neg (fun h => hkey h.symm)]
  · intro hu hu' hne hkey
    have hdata : u.data ++ '_' :: s.data = u'.data ++ '_' :: s'.data := by
      rw [← contextKey_data, ← contextKey_data, hkey]
    obtain ⟨h1, h2⟩ := append_underscore_inj _ _ _ _ hu hu' hdata
    exact hne (by rw [String.ext h1, String.ext h2])

/-! ## The current task of the evaluator prompt -/

theorem extractRecentContextLoop_no_user (recentCount : Int) (msgs : List Message)
    (userMsgCount : Nat) (contextParts : List String) (h : ∀ m ∈ msgs, m.Role ≠ "user") :
    extractRecentContextLoop recentCount msgs userMsgCount contextParts = contextParts := by
  induction msgs with
  | nil => rfl
  | cons m rest ih =>
    unfold extractRecentContextLoop
    have hm : m.Role ≠ "user" := h m (List.mem_cons_self _ _)
    rw [if_pos hm, ih (fun x hx => h x (List.mem_cons_of_mem _ hx))]
    simp

/-- C26: for every transcript with no user-role message, in particular the empty
message array, the intent is empty, the fallback returns the fixed sentinel
`无法提取有效的用户任务内容`, and that sentinel is the current task of the prompt. -/
theorem currentTask_no_user (messages : List Message) (h : ∀ m ∈ messages, m.Role ≠ "user") :
    extractUserIntent messages = "" ∧
      extractRecentContext messages 3 = "无法提取有效的用户任务内容" ∧
      currentTask messages = utf8Bytes "无法提取有效的用户任务内容" := by
  have hintent : extractUserIntent messages = "" := by
    unfold extractUserIntent
    have hskip := extractUserIntentLoop_skip messages.reverse []
      (fun m hm hrole => absurd hrole (h m (List.mem_reverse.mp hm)))
    rw [List.append_nil] at hskip
    rw [hskip]
    rfl
  have hrecent : extractRecentContext messages 3 = "无法提取有效的用户任务内容" := by
    unfold extractRecentContext
    rw [extractRecentContextLoop_no_user 3 messages.reverse 0 []
      (fun m hm => h m (List.mem_reverse.mp hm))]
    rfl
  refine ⟨hintent, hrecent, ?_⟩
  unfold currentTask extractedTask
  simp only [hintent, hrecent, if_true]
  decide

/-- Witness for C26: the empty message array, and a transcript of one assistant
message. -/
theorem currentTask_no_user_witness :
    currentTask [] = utf8Bytes "无法提取有效的用户任务内容" ∧
      currentTask [⟨"assistant", [⟨"text", "hello", ⟨""⟩⟩]⟩] =
        utf8Bytes "无法提取有效的用户任务内容" :=
  ⟨(currentTask_no_user [] (by decide)).2.2,
    (currentTask_no_user [⟨"assistant", [⟨"text", "hello", ⟨""⟩⟩]⟩] (by decide)).2.2⟩

/-- C30 (code defect): a text block with a blank in front of `File created
successfully` is dropped by `extractUserIntent`, which judges the trimmed text, but
returned by `extractRecentContext`, which judges the text as it stands and trims
afterwards. -/
theorem extractRecentContext_untrimmed_filter :
    isAuxiliaryContent (stringsTrimSpace " File created successfully at /tmp/x") = true ∧
      isAuxiliaryContent " File created successfully at /tmp/x" = false ∧
      extractUserIntent
        [⟨"user", [⟨"text", " File created successfully at /tmp/x", ⟨""⟩⟩]⟩] = "" ∧
      extractRecentContext
        [⟨"user", [⟨"text", " File created successfully at /tmp/x", ⟨""⟩⟩]⟩] 3 =
        "File created successfully at /tmp/x" ∧
      extractRecentContext
        [⟨"user", [⟨"text", " File created successfully at /tmp/x", ⟨""⟩⟩]⟩] 3 ≠
        noTaskSentinel := by
  decide

/-- C23 (code defect): the copy loop leaves out `Content-Type`, `Cache-Control` and
`Connection` but not `X-Accel-Buffering`; an upstream `X-Accel-Buffering: yes` replaces
the `no` of the proxy, while an upstream `Content-Type` does not replace
`text/event-stream`. -/
theorem streamingHeaders_accel_buffering_overridden :
    (streamingHeaders sampleLib []
        [("Content-Type", ["application/json"]), ("X-Accel-Buffering", ["yes"])]).values
        "X-Accel-Buffering" = ["yes"] ∧
      (streamingHeaders sampleLib []
        [("Content-Type", ["application/json"]), ("X-Accel-Buffering", ["yes"])]).values
        "Content-Type" = ["text/event-stream"] ∧
      (streamingHeaders sampleLib []
        [("Content-Type", ["application/json"]), ("X-Accel-Buffering", ["yes"])]).values
        "Cache-Control" = ["no-cache"] ∧
      (streamingHeaders sampleLib []
        [("Content-Type", ["application/json"]), ("X-Accel-Buffering", ["yes"])]).values
        "Connection" = ["keep-alive"] ∧
      (streamingHeaders sampleLib [] []).values "X-Accel-Buffering" = ["no"] := by
  decide

/-! ## The history context of the evaluator prompt -/

theorem historyLoop_eq (history : List RequestSummary) (startIdx fuel i : Nat)
    (contextInfo : String) (hstart : startIdx ≤ i) (hfuel : history.length ≤ i + fuel) :
    historyLoop history startIdx fuel i contextInfo =
      contextInfo ++ statedHistoryLines (i - startIdx + 1) (history.drop i) := by
  induction fuel generalizing i contextInfo with
  | zero =>
    rw [List.drop_eq_nil_of_le (by omega)]
    unfold historyLoop statedHistoryLines
    rw [String.append_empty]
  | succ f ih =>
    unfold historyLoop
    by_cases hi : i < history.length
    · rw [dif_pos hi, ih (i + 1) _ (by omega) (by omega), List.drop_eq_getElem_cons hi]
      conv_rhs => unfold statedHistoryLines
      rw [String.append_assoc]
      have hidx : (i : Int) - (startIdx : Int) + 1 = ((i - startIdx + 1 : Nat) : Int) := by
        omega
      have hnext : i + 1 - startIdx + 1 = i - startIdx + 1 + 1 := by omega
      rw [hidx, hnext]
    · rw [dif_neg hi, List.drop_eq_nil_of_le (by omega)]
      unfold statedHistoryLines
      rw [String.append_empty]

/-- C25 (as stated, refuted): with `max_history_rounds` set to 0 and one summary in the
history, the block states the count 1 and lists that summary, where `min(N, max_rounds)`
is 0: a value that is not positive is replaced by 3. -/
theorem historyContext_rounds_counterexample :
    historyContext (sampleEvaluatorConfig 0) [sampleSummary 1] =
        "\n\n用户最近的请求历史（1条）：\n1. 模型: m, 难度: 3, 消息数: 1, 耗时: 0ms" ∧
      statedHistoryContext (0 : Int).toNat [sampleSummary 1] =
        "\n\n用户最近的请求历史（0条）：" ∧
      historyContext (sampleEvaluatorConfig 0) [sampleSummary 1] ≠
        statedHistoryContext (0 : Int).toNat [sampleSummary 1] := by
  decide

/-- C25 (amended): with history inclusion enabled and `N ≥ 1` summaries, the history
context is a header stating the count `min(N, R)` followed by the most recent
`min(N, R)` summaries in chronological order, numbered from 1, each as
`i. 模型: <model>, 难度: <level>, 消息数: <count>, 耗时: <ms>ms`, where `R` is
`max_history_rounds` when that is positive and 3 otherwise; with history disabled or an
empty history it is the empty string. -/
theorem historyContext_eq (cfg : EvaluatorConfig) (history : List RequestSummary) :
    (cfg.IncludeHistory = true → history ≠ [] →
        historyContext cfg history = statedHistoryContext (effectiveRounds cfg) history) ∧
      (cfg.IncludeHistory = true → history ≠ [] → 0 < cfg.MaxHistoryRounds →
        historyContext cfg history =
          statedHistoryContext cfg.MaxHistoryRounds.toNat history) ∧
      (cfg.IncludeHistory = false ∨ history = [] → historyContext cfg history = "") := by
  have hmain : cfg.IncludeHistory = true → history ≠ [] →
      historyContext cfg history = statedHistoryContext (effectiveRounds cfg) history := by
    intro hinc hne
    have hlen : history.length > 0 := List.length_pos.mpr hne
    unfold historyContext statedHistoryContext lastN
    rw [if_pos ⟨hinc, hlen⟩]
    simp only
    have hstart : (if (history.length : Int) >
          (if cfg.MaxHistoryRounds ≤ 0 then 3 else cfg.MaxHistoryRounds) then
          (history.length : Int) - (if cfg.MaxHistoryRounds ≤ 0 then 3 else cfg.MaxHistoryRounds)
        else 0) = ((history.length - min history.length (effectiveRounds cfg) : Nat) : Int) := by
      unfold effectiveRounds
      split_ifs <;> omega
    rw [hstart, Int.toNat_ofNat, historyLoop_eq history _ _ _ _ (le_refl _) (by omega)]
    have hcount : (history.length : Int) -
        ((history.length - min history.length (effectiveRounds cfg) : Nat) : Int) =
        ((min history.length (effectiveRounds cfg) : Nat) : Int) := by
      omega
    rw [hcount, Nat.sub_self]
  refine ⟨hmain, ?_, ?_⟩
  · intro hinc hne hpos
    rw [hmain hinc hne]
    unfold effectiveRounds
    rw [if_neg (by omega)]
  · intro h
    unfold historyContext
    rw [if_neg]
    rintro ⟨hinc, hlen⟩
    rcases h with h | h
    · rw [hinc] at h
      exact absurd h (by decide)
    · rw [h] at hlen
      exact absurd hlen (by decide)

/-- Witness for C25 (amended): three summaries and two rounds; one summary and no
positive number of rounds; an empty history. -/
theorem historyContext_eq_witness :
    historyContext (sampleEvaluatorConfig 2)
        [sampleSummary 1, sampleSummary 2, sampleSummary 3] =
        statedHistoryContext 2 [sampleSummary 1, sampleSummary 2, sampleSummary 3] ∧
      historyContext (sampleEvaluatorConfig 0) [sampleSummary 1] =
        statedHistoryContext 3 [sampleSummary 1] ∧
      historyContext (sampleEvaluatorConfig 2) [] = "" :=
  ⟨(historyContext_eq (sampleEvaluatorConfig 2)
      [sampleSummary 1, sampleSummary 2, sampleSummary 3]).2.1 rfl (by decide) (by decide),
    (historyContext_eq (sampleEvaluatorConfig 0) [sampleSummary 1]).1 rfl (by decide),
    (historyContext_eq (sampleEvaluatorConfig 2) []).2.2 (Or.inr rfl)⟩

/-! ## Rendering the prompt template -/

theorem placeholder_Model :
    placeholder .Model = [123, 123, 46, 77, 111, 100, 101, 108, 125, 125] := by
  decide

theorem placeholder_MessageCount :
    placeholder .MessageCount =
      [123, 123, 46, 77, 101, 115, 115, 97, 103, 101, 67, 111, 117, 110, 116, 125, 125] := by
  decide

theorem placeholder_CurrentTask :
    placeholder .CurrentTask =
      [123, 123, 46, 67, 117, 114, 114, 101, 110, 116, 84, 97, 115, 107, 125, 125] := by
  decide

theorem placeholder_HistoryContext :
    placeholder .HistoryContext =
      [123, 123, 46, 72, 105, 115, 116, 111, 114, 121, 67, 111, 110, 116, 101, 120, 116, 125,
        125] := by
  decide

/-- Every placeholder is `{{` followed by plain text. -/
theorem placeholder_shape (key : TemplateKey) :
    ∃ body, placeholder key = 123 :: 123 :: body ∧ plainText (123 :: body) = true := by
  cases key
  · exact ⟨_, placeholder_Model, by decide⟩
  · exact ⟨_, placeholder_MessageCount, by decide⟩
  · exact ⟨_, placeholder_CurrentTask, by decide⟩
  · exact ⟨_, placeholder_HistoryContext, by decide⟩

/-- No placeholder starts where the placeholder of another key starts. -/
theorem placeholder_other (key other : TemplateKey) (hne : other ≠ key) (tail : List UInt8) :
    (placeholder key).isPrefixOf (placeholder other ++ tail) = false := by
  cases key <;> cases other <;>
    first
    | exact absurd rfl hne
    | (simp only [placeholder_Model, placeholder_MessageCount, placeholder_CurrentTask,
        placeholder_HistoryContext]
       rfl)

theorem replaceAllFrom_zero (old new : List UInt8) (b : UInt8) (rest : List UInt8) :
    replaceAllFrom old new 0 (b :: rest) =
      if old.isPrefixOf (b :: rest) then new ++ replaceAllFrom old new (old.length - 1) rest
      else b :: replaceAllFrom old new 0 rest := by
  rw [replaceAllFrom]

theorem replaceAllFrom_succ (old new : List UInt8) (skip : Nat) (b : UInt8)
    (rest : List UInt8) :
    replaceAllFrom old new (skip + 1) (b :: rest) = replaceAllFrom old new skip rest := by
  rw [replaceAllFrom]

/-- Plain text is passed through by a replacement of something that starts with `{{`. -/
theorem replaceAllFrom_plain (body new : List UInt8) (t tail : List UInt8)
    (ht : plainText t = true) :
    replaceAllFrom (123 :: 123 :: body) new 0 (t ++ tail) =
      t ++ replaceAllFrom (123 :: 123 :: body) new 0 tail := by
  induction t with
  | nil => rfl
  | cons b rest ih =>
    cases rest with
    | nil =>
      have hb : b ≠ 123 := by simpa [plainText] using ht
      have hpre : (123 :: 123 :: body).isPrefixOf (b :: tail) = false := by
        simp [List.isPrefixOf, Ne.symm hb]
      rw [List.cons_append, List.nil_append, replaceAllFrom_zero, hpre]
      rfl
    | cons c rest2 =>
      have hpair : (b ≠ 123 ∨ c ≠ 123) ∧ plainText (c :: rest2) = true := by
        simpa [plainText] using ht
      have hpre : (123 :: 123 :: body).isPrefixOf (b :: c :: (rest2 ++ tail)) = false := by
        rcases hpair.1 with h | h
        · simp [List.isPrefixOf, Ne.symm h]
        · simp [List.isPrefixOf, Ne.symm h]
      have hrec := ih hpair.2
      rw [List.cons_append] at hrec
      rw [List.cons_append, List.cons_append, replaceAllFrom_zero, hpre, hrec]
      rfl

/-- The bytes of a matched instance are passed over. -/
theorem replaceAllFrom_skip (old new : List UInt8) (x tail : List UInt8) :
    replaceAllFrom old new x.length (x ++ tail) = replaceAllFrom old new 0 tail := by
  induction x with
  | nil => rfl
  | cons b rest ih =>
    rw [List.cons_append, List.length_cons, replaceAllFrom_succ]
    exact ih

/-- An instance at the front is replaced. -/
theorem replaceAllFrom_hit (b : UInt8) (old new tail : List UInt8) :
    replaceAllFrom (b :: old) new 0 ((b :: old) ++ tail) =
      new ++ replaceAllFrom (b :: old) new 0 tail := by
  have hpre : (b :: old).isPrefixOf (b :: (old ++ tail)) = true :=
    List.isPrefixOf_iff_prefix.mpr ⟨tail, rfl⟩
  rw [List.cons_append, replaceAllFrom_zero, hpre]
  simp only [if_true, List.length_cons, Nat.add_sub_cancel]
  rw [replaceAllFrom_skip]

/-- On a template in pieces with plain texts, one `ReplaceAll` fills the placeholders
of its key and leaves everything else. -/
theorem stringsReplaceAll_parts (key : TemplateKey) (value : List UInt8)
    (parts : List TemplatePart) (hparts : PlainTexts parts) :
    stringsReplaceAll (templateBytes parts) (placeholder key) value =
      templateBytes (parts.map (TemplatePart.fill key value)) := by
  obtain ⟨body, hshape, _⟩ := placeholder_shape key
  unfold stringsReplaceAll templateBytes
  induction parts with
  | nil => rfl
  | cons part rest ih =>
    have hrest : PlainTexts rest := fun t ht => hparts t (List.mem_cons_of_mem _ ht)
    have ihr := ih hrest
    rw [List.flatMap_cons, List.map_cons, List.flatMap_cons]
    cases part with
    | text t =>
      have ht : plainText t = true := hparts t (List.mem_cons_self _ _)
      have hfill : TemplatePart.fill key value (.text t) = .text t := by
        unfold TemplatePart.fill
        rw [if_neg (by simp)]
      rw [hfill]
      show replaceAllFrom (placeholder key) value 0 (t ++ _) = t ++ _
      rw [hshape, replaceAllFrom_plain body value t _ ht, ← hshape, ihr]
    | slot other =>
      by_cases hk : other = key
      · subst hk
        have hfill : TemplatePart.fill other value (.slot other) = .text value := by
          unfold TemplatePart.fill
          rw [if_pos rfl]
        rw [hfill]
        show replaceAllFrom (placeholder other) value 0 (placeholder other ++ _) = value ++ _
        rw [← ihr]
        conv_lhs => rw [hshape]
        rw [replaceAllFrom_hit, ← hshape]
      · have hfill : TemplatePart.fill key value (.slot other) = .slot other := by
          unfold TemplatePart.fill
          rw [if_neg (by simpa using hk)]
        rw [hfill]
        obtain ⟨body2, hshape2, hplain2⟩ := placeholder_shape other
        show replaceAllFrom (placeholder key) value 0 (placeholder other ++ _) =
          placeholder other ++ _
        have hmiss := placeholder_other key other hk (rest.flatMap TemplatePart.bytes)
        rw [hshape2, List.cons_append] at hmiss
        rw [hshape2, List.cons_append, replaceAllFrom_zero, hmiss]
        simp only [Bool.false_eq_true, if_false, List.cons_append, List.cons.injEq, true_and]
        have hpass := replaceAllFrom_plain body value (123 :: body2)
          (rest.flatMap TemplatePart.bytes) hplain2
        rw [List.cons_append] at hpass
        rw [hshape, hpass, ← hshape, ihr]
        rfl

theorem plainParts_texts (parts : List TemplatePart) (h : plainParts parts = true) :
    PlainTexts parts := by
  intro t ht
  unfold plainParts at h
  exact List.all_eq_true.mp h _ ht

theorem PlainTexts_fill (key : TemplateKey) (value : List UInt8) (parts : List TemplatePart)
    (hparts : PlainTexts parts) (hvalue : plainText value = true) :
    PlainTexts (parts.map (TemplatePart.fill key value)) := by
  intro t ht
  rw [List.mem_map] at ht
  obtain ⟨part, hmem, hfill⟩ := ht
  unfold TemplatePart.fill at hfill
  split_ifs at hfill with h
  · simp only [TemplatePart.text.injEq] at hfill
    rw [← hfill]
    exact hvalue
  · rw [hfill] at hmem
    exact hparts t hmem

/-- Rendering a template in pieces, seen on the pieces. -/
theorem renderTemplate_parts (data : TemplateKey → TemplateValue)
    (hdata : ∀ key, plainText (replacement (data key)) = true) (order : List TemplateKey)
    (parts : List TemplatePart) (hparts : PlainTexts parts) :
    renderTemplate order (templateBytes parts) data =
      templateBytes (parts.map (fun part =>
        order.foldl (fun q key => TemplatePart.fill key (replacement (data key)) q) part)) := by
  induction order generalizing parts with
  | nil =>
    unfold renderTemplate
    simp
  | cons key rest ih =>
    have hstep := stringsReplaceAll_parts key (replacement (data key)) parts hparts
    have hnext := ih (parts.map (TemplatePart.fill key (replacement (data key))))
      (PlainTexts_fill key _ parts hparts (hdata key))
    unfold renderTemplate at hnext ⊢
    rw [List.foldl_cons, hstep, hnext, List.map_map]
    rfl

theorem fill_text (data : TemplateKey → TemplateValue) (order : List TemplateKey)
    (t : List UInt8) :
    order.foldl (fun q key => TemplatePart.fill key (replacement (data key)) q) (.text t) =
      .text t := by
  induction order with
  | nil => rfl
  | cons key rest ih =>
    rw [List.foldl_cons]
    have : TemplatePart.fill key (replacement (data key)) (.text t) = .text t := by
      unfold TemplatePart.fill
      rw [if_neg (by simp)]
    rw [this, ih]

theorem fill_slot (data : TemplateKey → TemplateValue) (order : List TemplateKey)
    (key : TemplateKey) (hmem : key ∈ order) :
    order.foldl (fun q k => TemplatePart.fill k (replacement (data k)) q) (.slot key) =
      .text (replacement (data key)) := by
  induction order with
  | nil => exact absurd hmem (List.not_mem_nil _)
  | cons k rest ih =>
    rw [List.foldl_cons]
    by_cases hk : key = k
    · subst hk
      have : TemplatePart.fill key (replacement (data key)) (.slot key) =
          .text (replacement (data key)) := by
        unfold TemplatePart.fill
        rw [if_pos rfl]
      rw [this, fill_text]
    · have : TemplatePart.fill k (replacement (data k)) (.slot key) = .slot key := by
        unfold TemplatePart.fill
        rw [if_neg (by simpa using hk)]
      rw [this]
      exact ih ((List.mem_cons.mp hmem).resolve_left hk)

/-- C29 (code defect): the prompt depends on the order in which the loop over the map
visits the keys, and text of the client is expanded. With the template
`{{.CurrentTask}}`, the task `{{.Model}}` and the model `m`, substituting the task before
the model gives `m`, substituting the model first gives `{{.Model}}`; and
`buildEvaluationPrompt`, on a request whose user message is `{{.Model}}`, gives
`task: claude-3-5-sonnet` in the first order and `task: {{.Model}}` in the second. -/
theorem renderTemplate_order_dependent :
    renderTemplate [.CurrentTask, .Model, .MessageCount, .HistoryContext]
        (utf8Bytes "\x7b\x7b.CurrentTask\x7d\x7d")
        (sampleTemplateData "\x7b\x7b.Model\x7d\x7d") = utf8Bytes "m" ∧
      renderTemplate [.Model, .CurrentTask, .MessageCount, .HistoryContext]
        (utf8Bytes "\x7b\x7b.CurrentTask\x7d\x7d")
        (sampleTemplateData "\x7b\x7b.Model\x7d\x7d") = utf8Bytes "\x7b\x7b.Model\x7d\x7d" ∧
      buildEvaluationPrompt (sampleEvaluatorConfig 2)
        [.CurrentTask, .Model, .MessageCount, .HistoryContext]
        { sampleRequest with
          Messages := [⟨"user", [⟨"text", "\x7b\x7b.Model\x7d\x7d", ⟨""⟩⟩]⟩] }
        ⟨"ABC", "XYZ", []⟩ = utf8Bytes "task: claude-3-5-sonnet" ∧
      buildEvaluationPrompt (sampleEvaluatorConfig 2)
        [.Model, .CurrentTask, .MessageCount, .HistoryContext]
        { sampleRequest with
          Messages := [⟨"user", [⟨"text", "\x7b\x7b.Model\x7d\x7d", ⟨""⟩⟩]⟩] }
        ⟨"ABC", "XYZ", []⟩ = utf8Bytes "task: \x7b\x7b.Model\x7d\x7d" := by
  decide

/-- On a template made of the four placeholders and of texts in which every `{` is
followed by a character other than `{`, with values of that kind, `renderTemplate`
gives the template with each placeholder replaced by its value, whatever the order in
which the four keys are substituted. -/
theorem renderTemplate_any_order (parts : List TemplatePart)
    (data : TemplateKey → TemplateValue) (order1 order2 : List TemplateKey)
    (hparts : plainParts parts = true)
    (hdata : ∀ key, plainText (replacement (data key)) = true)
    (h1 : ∀ key, key ∈ order1) (h2 : ∀ key, key ∈ order2) :
    renderTemplate order1 (templateBytes parts) data =
        parts.flatMap (TemplatePart.filled data) ∧
      renderTemplate order1 (templateBytes parts) data =
        renderTemplate order2 (templateBytes parts) data := by
  have hall : ∀ order : List TemplateKey, (∀ key, key ∈ order) →
      renderTemplate order (templateBytes parts) data =
        parts.flatMap (TemplatePart.filled data) := by
    intro order horder
    rw [renderTemplate_parts data hdata order parts (plainParts_texts parts hparts)]
    unfold templateBytes
    rw [List.flatMap_map]
    congr 1
    funext part
    cases part with
    | text t => rw [fill_text]; rfl
    | slot key => rw [fill_slot data order key (horder key)]; rfl
  exact ⟨hall order1 h1, by rw [hall order1 h1, hall order2 h2]⟩

/-- The sample template, whose last text holds the braces of a JSON object, with a task
that holds braces of its own, rendered in two opposite orders. -/
theorem renderTemplate_any_order_sample :
    renderTemplate [.Model, .MessageCount, .CurrentTask, .HistoryContext]
        (templateBytes sampleTemplateParts) (sampleTemplateData "func main() \x7b \x7d") =
        sampleTemplateParts.flatMap
          (TemplatePart.filled (sampleTemplateData "func main() \x7b \x7d")) ∧
      renderTemplate [.Model, .MessageCount, .CurrentTask, .HistoryContext]
        (templateBytes sampleTemplateParts) (sampleTemplateData "func main() \x7b \x7d") =
        renderTemplate [.HistoryContext, .CurrentTask, .MessageCount, .Model]
          (templateBytes sampleTemplateParts) (sampleTemplateData "func main() \x7b \x7d") :=
  renderTemplate_any_order sampleTemplateParts (sampleTemplateData "func main() \x7b \x7d")
    [.Model, .MessageCount, .CurrentTask, .HistoryContext]
    [.HistoryContext, .CurrentTask, .MessageCount, .Model] (by decide) (by decide) (by decide)
    (by decide)

/-! ## `extractDifficultyLevel`: the digit after the token -/

end CCE
